import Mathlib

/-!
Memory-hierarchy simulator: cache, DRAM, secure TLB and static-partition TLB.

A shallow embedding of the C/C++ sources of the simulator and theorems about it.

Conventions of the embedding.

* C arrays are lists.  A read at index `i` is `getD i` with an all-zero element (the
  content `calloc` gives), a write is `List.set`.  An index outside the array is undefined
  behaviour in C; theorems that depend on in-bounds accesses assume the geometry of the
  object (`Cache.wf`, or the permutation of a TLB set, which fixes the length of its
  array), under which every access made is in bounds.
* Machine integers are natural numbers; where the source narrows a value or can wrap,
  the reduction `% 2 ^ w` is written out.
* The global `current_cycle` and the value returned by `rand()` are explicit arguments.
* `assert` failures and out-of-bounds accesses that the code can really reach are the
  errors of `Except Fault`.
-/

/-! ## src/cache.cpp -/

namespace Src

/-- Result of a cache access (`CacheResult` of cache.h). -/
inductive CacheResult where
  | HIT
  | MISS
deriving DecidableEq, Repr

/-- Replacement policies (`ReplacementPolicy` of cache.h). -/
inductive ReplacementPolicy where
  | LRU
  | RANDOM
  | SWP
  | DWP
deriving DecidableEq, Repr

/-- One cache line: the fields that cache.cpp reads and writes. -/
structure CacheLine where
  valid : Bool
  dirty : Bool
  tag : Nat
  line_addr : Nat
  core_id : Nat
  last_access_time : Nat
deriving DecidableEq, Repr

/-- The line that `calloc` produces: every field zero. -/
def CacheLine.zero : CacheLine :=
  { valid := false, dirty := false, tag := 0, line_addr := 0, core_id := 0,
    last_access_time := 0 }

/-- A cache set: the array `ways[MAX_WAYS_PER_CACHE_SET]`. -/
structure CacheSet where
  ways : List CacheLine
deriving DecidableEq, Repr

/-- The cache object. -/
structure Cache where
  size : Nat
  num_ways : Nat
  line_size : Nat
  num_sets : Nat
  sets : List CacheSet
  replacement_policy : ReplacementPolicy
  last_evicted_line : CacheLine
  stat_read_access : Nat
  stat_write_access : Nat
  stat_read_miss : Nat
  stat_write_miss : Nat
  stat_dirty_evicts : Nat
deriving DecidableEq, Repr

/-- Read `c->sets[set_index].ways[i]`. -/
def Cache.line (c : Cache) (set_index i : Nat) : CacheLine :=
  (c.sets.getD set_index ⟨[]⟩).ways.getD i CacheLine.zero

/-- Write `c->sets[set_index].ways[i] = l`. -/
def Cache.setLine (c : Cache) (set_index i : Nat) (l : CacheLine) : Cache :=
  let set := c.sets.getD set_index ⟨[]⟩
  { c with sets := c.sets.set set_index (CacheSet.mk (set.ways.set i l)) }

/-- Geometry of a cache object as `cache_new` lays it out: `num_sets` sets, each an array
that has room for `num_ways` ways, and a way count that fits the `unsigned int` loop
counters. -/
def Cache.wf (c : Cache) : Prop :=
  c.sets.length = c.num_sets ∧ (∀ s ∈ c.sets, c.num_ways ≤ s.ways.length) ∧
    c.num_ways < 2 ^ 32

instance (c : Cache) : Decidable c.wf := by
  unfold Cache.wf; infer_instance

/-- Embedding of `cache_new` (cache.cpp 57-86).  `MAX_WAYS_PER_CACHE_SET` comes from cache.h,
which is not part of the sources, and is a parameter.  The product is a 64-bit product. -/
def cache_new (MAX_WAYS_PER_CACHE_SET : Nat) (size associativity line_size : Nat)
    (replacement_policy : ReplacementPolicy) : Cache :=
  let num_sets := size / ((associativity * line_size) % 2 ^ 64)
  { size := size
    num_ways := associativity
    line_size := line_size
    num_sets := num_sets
    sets := List.replicate num_sets ⟨List.replicate MAX_WAYS_PER_CACHE_SET CacheLine.zero⟩
    replacement_policy := replacement_policy
    last_evicted_line := CacheLine.zero
    stat_read_access := 0
    stat_write_access := 0
    stat_read_miss := 0
    stat_write_miss := 0
    stat_dirty_evicts := 0 }

/-- The `unsigned int tag = line_addr / c->num_sets` of cache_access and cache_install. -/
def cache_tag (c : Cache) (line_addr : Nat) : Nat :=
  (line_addr / c.num_sets) % 2 ^ 32

/-- The `unsigned int set_index = line_addr % c->num_sets`. -/
def cache_set_index (c : Cache) (line_addr : Nat) : Nat :=
  (line_addr % c.num_sets) % 2 ^ 32

/-- The lookup loop of cache_access (cache.cpp 124-138): scans ways `i, i+1, ...` for
`remaining` iterations and stops at the first way whose tag equals `tag`.  The valid
bit is not consulted, as in the source. -/
def cache_access_scan (ways : List CacheLine) (tag : Nat) : Nat → Nat → Option Nat
  | 0, _ => none
  | remaining + 1, i =>
    if (ways.getD i CacheLine.zero).tag = tag then some i
    else cache_access_scan ways tag remaining (i + 1)

/-- Bool as the integer that `+=` adds to a counter. -/
def b2n (b : Bool) : Nat := if b then 1 else 0

/-- Embedding of `cache_access` (cache.cpp 102-145).  The test `line == NULL` of the loop
is on the address of an array element and never holds. -/
def cache_access (current_cycle : Nat) (c : Cache) (line_addr : Nat) (is_write : Bool)
    (core_id : Nat) : CacheResult × Cache :=
  let _ := core_id
  let tag := cache_tag c line_addr
  let set_index := cache_set_index c line_addr
  let c1 := { c with
    stat_write_access := (c.stat_write_access + b2n is_write) % 2 ^ 64
    stat_read_access := (c.stat_read_access + b2n (!is_write)) % 2 ^ 64 }
  match cache_access_scan (c1.sets.getD set_index ⟨[]⟩).ways tag c1.num_ways 0 with
  | some i =>
    let line := c1.line set_index i
    (CacheResult.HIT, c1.setLine set_index i
      { line with dirty := if is_write then true else line.dirty
                  last_access_time := current_cycle })
  | none =>
    (CacheResult.MISS, { c1 with
      stat_write_miss := (c1.stat_write_miss + b2n is_write) % 2 ^ 64
      stat_read_miss := (c1.stat_read_miss + b2n (!is_write)) % 2 ^ 64 })

/-- The LRU loop of cache_find_victim (cache.cpp 235-250): `remaining` iterations left,
`i` the loop counter, `min_time` and `victim_index` the two locals. -/
def lru_scan (ways : List CacheLine) : Nat → Nat → Nat → Nat → Nat
  | 0, _, _, victim_index => victim_index
  | remaining + 1, i, min_time, victim_index =>
    if !(ways.getD i CacheLine.zero).valid then i
    else if (ways.getD i CacheLine.zero).last_access_time < min_time then
      lru_scan ways remaining (i + 1) (ways.getD i CacheLine.zero).last_access_time i
    else lru_scan ways remaining (i + 1) min_time victim_index

/-- Embedding of `cache_find_victim` (cache.cpp 214-270).  `rand` is the value that the
call `rand()` returns; SWP and DWP leave `victim_index` at 0. -/
def cache_find_victim (current_cycle rand : Nat) (c : Cache) (set_index core_id : Nat) :
    Nat :=
  let _ := core_id
  let num_ways := c.num_ways % 2 ^ 32
  match c.replacement_policy with
  | ReplacementPolicy.LRU =>
    lru_scan (c.sets.getD set_index ⟨[]⟩).ways num_ways 0 current_cycle 0
  | ReplacementPolicy.RANDOM => rand % num_ways
  | ReplacementPolicy.SWP => 0
  | ReplacementPolicy.DWP => 0

/-- Embedding of `cache_install` (cache.cpp 160-196). -/
def cache_install (current_cycle rand : Nat) (c : Cache) (line_addr : Nat) (is_write : Bool)
    (core_id : Nat) : Cache :=
  let tag := cache_tag c line_addr
  let set_index := cache_set_index c line_addr
  let victim_index := cache_find_victim current_cycle rand c set_index core_id
  let victim := c.line set_index victim_index
  let c1 := { c with
    stat_dirty_evicts :=
      if victim.valid && victim.dirty then (c.stat_dirty_evicts + 1) % 2 ^ 64
      else c.stat_dirty_evicts
    last_evicted_line := victim }
  c1.setLine set_index victim_index
    { valid := true, dirty := is_write, tag := tag, line_addr := line_addr,
      core_id := core_id, last_access_time := current_cycle }

/-- The way stamps of a set, read as the LRU loop reads them. -/
def stamp (ways : List CacheLine) (i : Nat) : Nat :=
  (ways.getD i CacheLine.zero).last_access_time

/-- Whether way `i` of the array is valid, read as the LRU loop reads it. -/
def isValid (ways : List CacheLine) (i : Nat) : Bool :=
  (ways.getD i CacheLine.zero).valid

/-- The calling protocol of the scenarios: a read access by core 0 and, when it misses, the
install of the same address in the same cycle. -/
def access_then_install (rand : Nat) (c : Cache) (current_cycle line_addr : Nat) :
    CacheResult × Cache :=
  match cache_access current_cycle c line_addr false 0 with
  | (CacheResult.HIT, c1) => (CacheResult.HIT, c1)
  | (CacheResult.MISS, c1) =>
    (CacheResult.MISS, cache_install current_cycle rand c1 line_addr false 0)

/-- Runs `access_then_install` over a list of line addresses, one per cycle from
`current_cycle` on, and collects the results. -/
def run_accesses (rand : Nat) : Cache → Nat → List Nat → List CacheResult × Cache
  | c, _, [] => ([], c)
  | c, current_cycle, a :: rest =>
    let r := access_then_install rand c current_cycle a
    let rs := run_accesses rand r.2 (current_cycle + 1) rest
    (r.1 :: rs.1, rs.2)

/-- A valid clean line of core 0 with the given tag and stamp. -/
def sampleLine (tag stamp : Nat) : CacheLine :=
  { valid := true, dirty := false, tag := tag, line_addr := 2 * tag, core_id := 0,
    last_access_time := stamp }

/-- A 2-set, 4-way LRU cache used for concrete evaluation: set 0 is full, with stamps
7, 3, 9, 3; set 1 holds two valid lines, then an invalid way. -/
def sampleCache : Cache :=
  { size := 512
    num_ways := 4
    line_size := 64
    num_sets := 2
    sets := [⟨[sampleLine 10 7, sampleLine 11 3, sampleLine 12 9, sampleLine 13 3]⟩,
             ⟨[sampleLine 20 5, sampleLine 21 1, CacheLine.zero, sampleLine 23 2]⟩]
    replacement_policy := ReplacementPolicy.LRU
    last_evicted_line := CacheLine.zero
    stat_read_access := 0
    stat_write_access := 0
    stat_read_miss := 0
    stat_write_miss := 0
    stat_dirty_evicts := 0 }

/-- One call made on a cache by its caller: `cache_access` or `cache_install`, with the
value of the global `current_cycle` at the call and, for an install, the value that
`rand()` returns. -/
inductive CacheOp where
  | access (current_cycle line_addr : Nat) (is_write : Bool) (core_id : Nat)
  | install (current_cycle rand line_addr : Nat) (is_write : Bool) (core_id : Nat)
deriving DecidableEq, Repr

/-- The cache after one call. -/
def cache_apply (c : Cache) : CacheOp → Cache
  | CacheOp.access t a w k => (cache_access t c a w k).2
  | CacheOp.install t r a w k => cache_install t r c a w k

/-- The cache after a sequence of calls, made in order. -/
def cache_run : Cache → List CacheOp → Cache
  | c, [] => c
  | c, op :: rest => cache_run (cache_apply c op) rest

/-- The number of `cache_access` calls in a sequence of calls. -/
def count_accesses : List CacheOp → Nat
  | [] => 0
  | CacheOp.access _ _ _ _ :: rest => count_accesses rest + 1
  | CacheOp.install _ _ _ _ _ :: rest => count_accesses rest

/-- The calling protocol of cache.cpp 135 ("install ... is being done by in memsys.cpp"):
every `cache_install` comes right after a `cache_access` of the same line address that
returned MISS.  `pending` is the address of such a miss when the previous call was one. -/
def install_follows_miss : Cache → Option Nat → List CacheOp → Bool
  | _, _, [] => true
  | c, _, CacheOp.access t a w k :: rest =>
    install_follows_miss (cache_access t c a w k).2
      (if (cache_access t c a w k).1 = CacheResult.MISS then some a else none) rest
  | c, pending, CacheOp.install t r a w k :: rest =>
    decide (pending = some a) && install_follows_miss (cache_install t r c a w k) none rest

/-- Ways `i` and `j` of set `s` do not both hold a valid line with the same tag. -/
def Cache.tags_differ (c : Cache) (s i j : Nat) : Prop :=
  (c.line s i).valid = true → (c.line s j).valid = true → (c.line s i).tag ≠ (c.line s j).tag

instance (c : Cache) (s i j : Nat) : Decidable (c.tags_differ s i j) := by
  unfold Cache.tags_differ; infer_instance

/-- No set holds two valid lines with the same tag, over the `num_sets` sets and the
`num_ways` ways that the cache uses. -/
def Cache.unique_tags (c : Cache) : Prop :=
  ∀ s, s < c.num_sets → ∀ i, i < c.num_ways → ∀ j, j < i → c.tags_differ s i j

instance (c : Cache) : Decidable c.unique_tags := by
  unfold Cache.unique_tags; infer_instance

/-- The five statistics counters hold 64-bit values, as their C type says. -/
def Cache.stats64 (c : Cache) : Prop :=
  c.stat_read_access < 2 ^ 64 ∧ c.stat_write_access < 2 ^ 64 ∧ c.stat_read_miss < 2 ^ 64 ∧
    c.stat_write_miss < 2 ^ 64 ∧ c.stat_dirty_evicts < 2 ^ 64

instance (c : Cache) : Decidable c.stats64 := by
  unfold Cache.stats64; infer_instance

/-- How a call of cache_new can end without returning a cache: `exit(1)` after a `calloc`
that returned NULL (cache.cpp 65-67 and 78-80), or the division by a zero product
(cache.cpp 75), which has no defined result. -/
inductive CacheNewStop where
  | exit_1
  | division_by_zero
deriving DecidableEq, Repr

/-- The call `cache_new(...)` (cache.cpp 57-86) with its ways of not returning.  Whether
a `calloc` returns memory is the answer of the allocator, also for `calloc(0, ...)`, so the
two answers are inputs: `calloc_cache` for `calloc(1, sizeof(Cache))` (cache.cpp 64) and
`calloc_sets` for `calloc(num_sets, sizeof(CacheSet))` (cache.cpp 77), `true` for a
non-NULL pointer.  The inputs are not constrained here; an allocator answers NULL to a
request that exceeds the address space.  In source order: the first allocation and its
`exit(1)`, the division `size / (associativity * line_size)`, which has no value when the
64-bit product is 0, the second allocation and its `exit(1)`, and the return of the cache.
The source checks none of its arguments. -/
def cache_new_call (MAX_WAYS_PER_CACHE_SET : Nat) (calloc_cache calloc_sets : Bool)
    (size associativity line_size : Nat) (replacement_policy : ReplacementPolicy) :
    Except CacheNewStop Cache :=
  if !calloc_cache then Except.error CacheNewStop.exit_1
  else if (associativity * line_size) % 2 ^ 64 = 0 then
    Except.error CacheNewStop.division_by_zero
  else if !calloc_sets then Except.error CacheNewStop.exit_1
  else Except.ok
    (cache_new MAX_WAYS_PER_CACHE_SET size associativity line_size replacement_policy)

end Src

/-! ## src-coat/tlb.cpp (TLBCOAT defined) -/

namespace SrcCoat

/-- How a call can stop without returning: a failed `assert`, or an array access outside
the array. -/
inductive Fault where
  | assertion_failed
  | out_of_bounds
deriving DecidableEq, Repr

deriving instance DecidableEq for Except

/-- Result of a TLB access (`TLBResult` of tlb.h). -/
inductive TLBResult where
  | TLB_HIT
  | TLB_MISS
deriving DecidableEq, Repr

/-- One TLB entry.  Of the union only `rplru_state` (a `uint8_t`) is used when TLBCOAT is
defined. -/
structure TLBEntry where
  valid : Bool
  dirty : Bool
  tag : Nat
  pfn : Nat
  core_id : Nat
  rplru_state : Nat
deriving DecidableEq, Repr

/-- The entry that `calloc` produces. -/
def TLBEntry.zero : TLBEntry :=
  { valid := false, dirty := false, tag := 0, pfn := 0, core_id := 0, rplru_state := 0 }

/-- A TLB set: the array `ways[MAX_WAYS_PER_CACHE_SET]`. -/
structure TLBSet where
  ways : List TLBEntry
deriving DecidableEq, Repr

/-- Per-core TLBcoat state. -/
structure TLBcoatCoreState where
  miss_counter : Nat
  rid : Nat
  miss_threshold : Nat
deriving DecidableEq, Repr

/-- The zeroed per-core state. -/
def TLBcoatCoreState.zero : TLBcoatCoreState :=
  { miss_counter := 0, rid := 0, miss_threshold := 0 }

/-- The TLB object.  `stat_rerand_count` is the counter tlb.cpp increments and prints. -/
structure TLB where
  num_sets : Nat
  num_ways : Nat
  page_size : Nat
  shared : Bool
  hit_latency : Nat
  miss_latency : Nat
  num_cores : Nat
  index_bits : Nat
  index_mask : Nat
  sets : List TLBSet
  stat_read_access : Nat
  stat_read_miss : Nat
  stat_write_access : Nat
  stat_write_miss : Nat
  stat_rerand_count : Nat
  prince_key : Nat
  core_states : List TLBcoatCoreState
deriving DecidableEq, Repr

/-- Read `tlb->sets[set_index].ways[i]`. -/
def TLB.entry (tlb : TLB) (set_index i : Nat) : TLBEntry :=
  (tlb.sets.getD set_index ⟨[]⟩).ways.getD i TLBEntry.zero

/-- Write `tlb->sets[set_index].ways[i] = e`. -/
def TLB.setEntry (tlb : TLB) (set_index i : Nat) (e : TLBEntry) : TLB :=
  let set := tlb.sets.getD set_index ⟨[]⟩
  { tlb with sets := tlb.sets.set set_index (TLBSet.mk (set.ways.set i e)) }

/-- The 4-bit S-box. -/
def PRINCE_SBOX : List Nat :=
  [0xB, 0xF, 0x3, 0x2, 0xA, 0xC, 0x9, 0x1, 0x6, 0x7, 0x8, 0x0, 0xE, 0x5, 0xD, 0x4]

/-- Rows of the first 16x16 matrix over GF(2). -/
def PRINCE_M0 : List Nat :=
  [0x0111, 0x2220, 0x4404, 0x8088,
   0x1011, 0x0222, 0x4440, 0x8808,
   0x1101, 0x2022, 0x0444, 0x8880,
   0x1110, 0x2202, 0x4044, 0x0888]

/-- Rows of the second 16x16 matrix over GF(2). -/
def PRINCE_M1 : List Nat :=
  [0x1110, 0x2202, 0x4044, 0x0888,
   0x0111, 0x2220, 0x4404, 0x8088,
   0x1011, 0x0222, 0x4440, 0x8808,
   0x1101, 0x2022, 0x0444, 0x8880]

/-- The loop of prince_gf2_mul_16: `remaining` iterations left, counter `i`, accumulator
`out`. -/
def prince_gf2_mul_16_loop (inp : Nat) (mat : List Nat) : Nat → Nat → Nat → Nat
  | 0, _, out => out
  | remaining + 1, i, out =>
    prince_gf2_mul_16_loop inp mat remaining (i + 1)
      (if (inp >>> i) &&& 1 ≠ 0 then out ^^^ mat.getD i 0 else out)

/-- Embedding of `prince_gf2_mul_16` (tlb.cpp 29-37). -/
def prince_gf2_mul_16 (inp : Nat) (mat : List Nat) : Nat :=
  prince_gf2_mul_16_loop inp mat 16 0 0

/-- The loop of prince_s_layer, counter running from `i` down to 1. -/
def prince_s_layer_loop (block : Nat) : Nat → Nat → Nat
  | 0, out => out
  | i + 1, out =>
    prince_s_layer_loop block i
      (((out ||| PRINCE_SBOX.getD ((block >>> ((i + 1) <<< 2)) &&& 0xF) 0) <<< 4) % 2 ^ 64)

/-- Embedding of `prince_s_layer` (tlb.cpp 39-47). -/
def prince_s_layer (block : Nat) : Nat :=
  prince_s_layer_loop block 15 0 ||| PRINCE_SBOX.getD (block &&& 0xF) 0

/-- Embedding of `prince_m_prime_layer` (tlb.cpp 49-55). -/
def prince_m_prime_layer (block : Nat) : Nat :=
  let out_0 := prince_gf2_mul_16 block PRINCE_M0
  let out_1 := prince_gf2_mul_16 (block >>> 16) PRINCE_M1
  let out_2 := prince_gf2_mul_16 (block >>> 32) PRINCE_M1
  let out_3 := prince_gf2_mul_16 (block >>> 48) PRINCE_M0
  ((out_3 <<< 48) % 2 ^ 64) ||| ((out_2 <<< 32) % 2 ^ 64) ||| ((out_1 <<< 16) % 2 ^ 64)
    ||| out_0

/-- Embedding of `tlb_prince_encrypt` (tlb.cpp 57-79). -/
def tlb_prince_encrypt (input key : Nat) : Nat :=
  let output := input
  -- Round 1
  let output := output ^^^ key
  let output := output ^^^ 0x13198a2e03707344
  let output := prince_m_prime_layer output
  let output := prince_s_layer output
  -- Round 2
  let output := output ^^^ key
  let output := output ^^^ 0xa4093822299f31d0
  let output := prince_m_prime_layer output
  let output := prince_s_layer output
  let output := output ^^^ key
  -- Round 3
  let output := prince_s_layer output
  let output := prince_m_prime_layer output
  output

/-- Embedding of `tlb_randomize` (tlb.cpp 81-90): the array `set_indices[0 .. num_ways)`.
`num_sets - 1` is a 64-bit subtraction. -/
def tlb_randomize (tlb : TLB) (vpn core_id : Nat) : Except Fault (List Nat) :=
  if core_id < tlb.num_cores then
    let randomization := tlb_prince_encrypt vpn
      (tlb.prince_key ^^^ core_id ^^^ (tlb.core_states.getD core_id TLBcoatCoreState.zero).rid)
    Except.ok ((List.range tlb.num_ways).map fun i =>
      (randomization >>> (i * 4)) &&& ((tlb.num_sets + 2 ^ 64 - 1) % 2 ^ 64))
  else Except.error Fault.assertion_failed

/-- The loop of tlb_update_rplru (tlb.cpp 108-116) over the array `ways` of one set. -/
def tlb_update_rplru_loop (way_index old_state : Nat) :
    Nat → Nat → List TLBEntry → List TLBEntry
  | 0, _, ways => ways
  | remaining + 1, i, ways =>
    if i = way_index then tlb_update_rplru_loop way_index old_state remaining (i + 1) ways
    else if (ways.getD i TLBEntry.zero).rplru_state ≤ old_state then
      tlb_update_rplru_loop way_index old_state remaining (i + 1)
        (ways.set i { ways.getD i TLBEntry.zero with
          rplru_state := ((ways.getD i TLBEntry.zero).rplru_state + 1) % 2 ^ 8 })
    else tlb_update_rplru_loop way_index old_state remaining (i + 1) ways

/-- Embedding of `tlb_update_rplru` (tlb.cpp 97-117). -/
def tlb_update_rplru (tlb : TLB) (set_index way_index : Nat) : TLB :=
  let set := tlb.sets.getD set_index ⟨[]⟩
  if (set.ways.getD way_index TLBEntry.zero).rplru_state = 1 then tlb
  else
    let old_state := (set.ways.getD way_index TLBEntry.zero).rplru_state
    let ways1 := set.ways.set way_index
      { set.ways.getD way_index TLBEntry.zero with rplru_state := 1 }
    let ways2 := tlb_update_rplru_loop way_index old_state tlb.num_ways 0 ways1
    { tlb with sets := tlb.sets.set set_index (TLBSet.mk ways2) }

/-- The static helper `log2` (tlb.cpp 121-125): `while (n >>= 1) bits++`, at most 64
iterations on a 64-bit value. -/
def log2_loop : Nat → Nat → Nat → Nat
  | 0, _, bits => bits
  | fuel + 1, n, bits => if n >>> 1 ≠ 0 then log2_loop fuel (n >>> 1) (bits + 1) else bits

/-- The static helper `log2`. -/
def log2 (n : Nat) : Nat := log2_loop 64 n 0

/-- Embedding of `tlb_new` (tlb.cpp 127-165).  `MAX_WAYS_PER_CACHE_SET` comes from cache.h,
which is not part of the sources, and is a parameter. -/
def tlb_new (MAX_WAYS_PER_CACHE_SET : Nat) (num_entries associativity page_size : Nat)
    (shared : Bool) (num_cores : Nat) : TLB :=
  let num_sets := num_entries / associativity
  let index_bits := log2 num_sets
  let ways := (List.range MAX_WAYS_PER_CACHE_SET).map fun j =>
    if j < associativity then { TLBEntry.zero with rplru_state := associativity % 2 ^ 8 }
    else TLBEntry.zero
  { num_sets := num_sets
    num_ways := associativity
    page_size := page_size
    shared := shared
    hit_latency := 1
    miss_latency := 10
    num_cores := num_cores
    index_bits := index_bits
    index_mask := ((1 <<< index_bits) % 2 ^ 64 + 2 ^ 64 - 1) % 2 ^ 64
    sets := List.replicate num_sets (TLBSet.mk ways)
    stat_read_access := 0
    stat_read_miss := 0
    stat_write_access := 0
    stat_write_miss := 0
    stat_rerand_count := 0
    prince_key := 0x0011223344556677
    core_states := List.replicate num_cores
      { miss_counter := 0, rid := 0, miss_threshold := num_sets } }

/-- The hit test of tlb_access on slot `(set_index, i)` (tlb.cpp 226-227):
`valid && tag == vpn && (!tlb->shared || core_id == core_id)`. -/
def tlb_hit_test (tlb : TLB) (vpn core_id set_index i : Nat) : Bool :=
  (tlb.entry set_index i).valid && (tlb.entry set_index i).tag == vpn
    && (!tlb.shared || (tlb.entry set_index i).core_id == core_id)

/-- The lookup loop of tlb_access (tlb.cpp 224-233): the first way `i` whose slot
`(set_indices[i], i)` passes the hit test. -/
def tlb_access_scan (tlb : TLB) (vpn core_id : Nat) (set_indices : List Nat) :
    Nat → Nat → Option Nat
  | 0, _ => none
  | remaining + 1, i =>
    if tlb_hit_test tlb vpn core_id (set_indices.getD i 0) i then some i
    else tlb_access_scan tlb vpn core_id set_indices remaining (i + 1)

/-- Embedding of `tlb_access` (tlb.cpp 209-266) with TLBCOAT defined.  The second
component is the value stored through `pfn`, if any. -/
def tlb_access (tlb : TLB) (vpn : Nat) (is_write : Bool) (core_id : Nat) :
    Except Fault (TLBResult × Option Nat × TLB) :=
  if ¬ core_id < tlb.num_cores then Except.error Fault.assertion_failed
  else
    let tlb1 :=
      if is_write then { tlb with stat_write_access := (tlb.stat_write_access + 1) % 2 ^ 64 }
      else { tlb with stat_read_access := (tlb.stat_read_access + 1) % 2 ^ 64 }
    match tlb_randomize tlb1 vpn core_id with
    | Except.error e => Except.error e
    | Except.ok set_indices =>
      match tlb_access_scan tlb1 vpn core_id set_indices tlb1.num_ways 0 with
      | some i =>
        let tlb2 := tlb_update_rplru tlb1 (set_indices.getD i 0) i
        Except.ok (TLBResult.TLB_HIT, some (tlb2.entry (set_indices.getD i 0) i).pfn, tlb2)
      | none =>
        let cs := tlb1.core_states.getD core_id TLBcoatCoreState.zero
        let cs1 := { cs with miss_counter := (cs.miss_counter + 1) % 2 ^ 64 }
        let rerand : Bool := decide (cs1.miss_counter ≥ cs1.miss_threshold)
        let cs2 :=
          if rerand then { cs1 with rid := (cs1.rid + 1) % 2 ^ 64, miss_counter := 0 }
          else cs1
        let tlb2 := { tlb1 with
          core_states := tlb1.core_states.set core_id cs2
          stat_rerand_count :=
            if rerand then (tlb1.stat_rerand_count + 1) % 2 ^ 64 else tlb1.stat_rerand_count }
        let tlb3 :=
          if is_write then { tlb2 with stat_write_miss := (tlb2.stat_write_miss + 1) % 2 ^ 64 }
          else { tlb2 with stat_read_miss := (tlb2.stat_read_miss + 1) % 2 ^ 64 }
        Except.ok (TLBResult.TLB_MISS, none, tlb3)

/-- First victim loop of tlb_install (tlb.cpp 277-282): the first way whose candidate slot
is invalid. -/
def tlb_install_scan_invalid (tlb : TLB) (set_indices : List Nat) : Nat → Nat → Option Nat
  | 0, _ => none
  | remaining + 1, i =>
    if !(tlb.entry (set_indices.getD i 0) i).valid then some i
    else tlb_install_scan_invalid tlb set_indices remaining (i + 1)

/-- Second victim loop of tlb_install (tlb.cpp 286-291): the first way whose candidate slot
has RPLRU state `num_ways`. -/
def tlb_install_scan_lru (tlb : TLB) (set_indices : List Nat) : Nat → Nat → Option Nat
  | 0, _ => none
  | remaining + 1, i =>
    if (tlb.entry (set_indices.getD i 0) i).rplru_state = tlb.num_ways then some i
    else tlb_install_scan_lru tlb set_indices remaining (i + 1)

/-- The value of `victim_way` after both loops of tlb_install; `none` stands for -1. -/
def tlb_install_victim (tlb : TLB) (set_indices : List Nat) : Option Nat :=
  match tlb_install_scan_invalid tlb set_indices tlb.num_ways 0 with
  | some i => some i
  | none => tlb_install_scan_lru tlb set_indices tlb.num_ways 0

/-- Embedding of `tlb_install` (tlb.cpp 268-322) with TLBCOAT defined.  With
`victim_way == -1` the source indexes `set_indices[-1]`, outside the array. -/
def tlb_install (tlb : TLB) (vpn pfn : Nat) (is_write : Bool) (core_id : Nat) :
    Except Fault TLB :=
  if ¬ core_id < tlb.num_cores then Except.error Fault.assertion_failed
  else
    match tlb_randomize tlb vpn core_id with
    | Except.error e => Except.error e
    | Except.ok set_indices =>
      match tlb_install_victim tlb set_indices with
      | none => Except.error Fault.out_of_bounds
      | some victim_way =>
        let set_index := set_indices.getD victim_way 0
        let entry := tlb.entry set_index victim_way
        let tlb1 := tlb.setEntry set_index victim_way
          { entry with valid := true, dirty := is_write, tag := vpn, pfn := pfn,
                       core_id := core_id }
        Except.ok (tlb_update_rplru tlb1 set_index victim_way)

/-- The RPLRU states of the `num_ways` ways of one physical set, in way order. -/
def rplru_states (tlb : TLB) (set_index : Nat) : List Nat :=
  ((tlb.sets.getD set_index ⟨[]⟩).ways.take tlb.num_ways).map TLBEntry.rplru_state

/-- The permutation invariant of one physical set: its RPLRU states are a permutation of
`1, ..., num_ways`. -/
def rplru_perm (tlb : TLB) (set_index : Nat) : Prop :=
  (rplru_states tlb set_index).Perm (List.range' 1 tlb.num_ways)

instance (tlb : TLB) (set_index : Nat) : Decidable (rplru_perm tlb set_index) := by
  unfold rplru_perm; infer_instance

/-- What tlb_update_rplru does to the state `x` of a way when the touched way had state
`old_state`: the touched way (the one with `old_state`, in a permutation) becomes 1, the
states up to `old_state` go up by one as a `uint8_t`, the others stay. -/
def rplru_shift (old_state x : Nat) : Nat :=
  if x = old_state then 1 else if x ≤ old_state then (x + 1) % 2 ^ 8 else x

/-- The calling protocol of the scenarios: a read access by `core_id` and, when it misses,
the install of the same page with frame `pfn`. -/
def tlb_access_then_install (tlb : TLB) (vpn pfn core_id : Nat) :
    Except Fault (TLBResult × TLB) :=
  match tlb_access tlb vpn false core_id with
  | Except.error e => Except.error e
  | Except.ok (TLBResult.TLB_HIT, _, tlb1) => Except.ok (TLBResult.TLB_HIT, tlb1)
  | Except.ok (TLBResult.TLB_MISS, _, tlb1) =>
    match tlb_install tlb1 vpn pfn false core_id with
    | Except.error e => Except.error e
    | Except.ok tlb2 => Except.ok (TLBResult.TLB_MISS, tlb2)

/-- Runs `tlb_access_then_install` for core 0 over a list of page numbers, with frame
`vpn + 100` for page `vpn`. -/
def tlb_run : TLB → List Nat → Except Fault TLB
  | tlb, [] => Except.ok tlb
  | tlb, vpn :: rest =>
    match tlb_access_then_install tlb vpn (vpn + 100) 0 with
    | Except.error e => Except.error e
    | Except.ok r => tlb_run r.2 rest

/-- The candidate slot `(set_indices[i], i)` of page `vpn` for `core_id`, with the indices
that tlb_randomize computes in the current state. -/
def tlb_slot (tlb : TLB) (vpn core_id i : Nat) : TLBEntry :=
  match tlb_randomize tlb vpn core_id with
  | Except.ok set_indices => tlb.entry (set_indices.getD i 0) i
  | Except.error _ => TLBEntry.zero

/-- The HIT / MISS result of tlb_access alone. -/
def tlb_access_result (tlb : TLB) (vpn : Nat) (is_write : Bool) (core_id : Nat) :
    Except Fault TLBResult :=
  (tlb_access tlb vpn is_write core_id).map Prod.fst

/-- Geometry of a TLB object as `tlb_new` lays it out: `num_sets` sets (at least one, and
a 64-bit count), each an array with room for `num_ways` ways, and one state per core. -/
def TLB.wf (tlb : TLB) : Prop :=
  tlb.sets.length = tlb.num_sets ∧ 1 ≤ tlb.num_sets ∧ tlb.num_sets < 2 ^ 64 ∧
    (∀ s ∈ tlb.sets, tlb.num_ways ≤ s.ways.length) ∧ tlb.core_states.length = tlb.num_cores

instance (tlb : TLB) : Decidable tlb.wf := by
  unfold TLB.wf; infer_instance

/-- The set index `set_indices[i]` of page `vpn` for `core_id`, as tlb_randomize computes
it in the current state. -/
def tlb_slot_index (tlb : TLB) (vpn core_id i : Nat) : Nat :=
  match tlb_randomize tlb vpn core_id with
  | Except.ok set_indices => set_indices.getD i 0
  | Except.error _ => 0

/-- The way that the two victim loops of tlb_install select for page `vpn` and `core_id`
in the current state; `none` stands for `victim_way == -1`. -/
def tlb_victim_way (tlb : TLB) (vpn core_id : Nat) : Option Nat :=
  match tlb_randomize tlb vpn core_id with
  | Except.ok set_indices => tlb_install_victim tlb set_indices
  | Except.error _ => none

/-- The TLB state after a call of tlb_access (the state is unchanged when the call stops
on its assertion). -/
def tlb_access_state (tlb : TLB) (vpn : Nat) (is_write : Bool) (core_id : Nat) : TLB :=
  match tlb_access tlb vpn is_write core_id with
  | Except.ok r => r.2.2
  | Except.error _ => tlb

/-- The TLB state after a run of accesses `(vpn, is_write)` by `core_id`, in order. -/
def tlb_access_run (core_id : Nat) : TLB → List (Nat × Bool) → TLB
  | tlb, [] => tlb
  | tlb, a :: rest => tlb_access_run core_id (tlb_access_state tlb a.1 a.2 core_id) rest

/-- Whether every access of the run returns MISS. -/
def tlb_all_miss (core_id : Nat) : TLB → List (Nat × Bool) → Bool
  | _, [] => true
  | tlb, a :: rest =>
    decide (tlb_access_result tlb a.1 a.2 core_id = Except.ok TLBResult.TLB_MISS) &&
      tlb_all_miss core_id (tlb_access_state tlb a.1 a.2 core_id) rest

/-- The state of core `core_id`, read as tlb_access reads it. -/
def TLB.core (tlb : TLB) (core_id : Nat) : TLBcoatCoreState :=
  tlb.core_states.getD core_id TLBcoatCoreState.zero

/-- The per-core state after a miss of that core: the miss counter goes up by one and, when
it reaches the threshold, the rid goes up by one and the counter returns to 0. -/
def miss_core_state (cs : TLBcoatCoreState) : TLBcoatCoreState :=
  if (cs.miss_counter + 1) % 2 ^ 64 ≥ cs.miss_threshold then
    { miss_counter := 0, rid := (cs.rid + 1) % 2 ^ 64, miss_threshold := cs.miss_threshold }
  else { cs with miss_counter := (cs.miss_counter + 1) % 2 ^ 64 }

/-- The number of bit positions below 64 in which `a` and `b` differ (Hamming distance
of two 64-bit values). -/
def hamming64 (a b : Nat) : Nat :=
  ((List.range 64).filter fun i => ((a ^^^ b) >>> i) &&& 1 = 1).length

/-- The Hamming distances between the cipher output at `(x, k)` and the outputs for the 64
single-bit flips of the plaintext `x`. -/
def plaintext_flip_distances (x k : Nat) : List Nat :=
  (List.range 64).map fun i =>
    hamming64 (tlb_prince_encrypt x k) (tlb_prince_encrypt (x ^^^ (1 <<< i)) k)

/-- The Hamming distances between the cipher output at `(x, k)` and the outputs for the 64
single-bit flips of the key `k`. -/
def key_flip_distances (x k : Nat) : List Nat :=
  (List.range 64).map fun i =>
    hamming64 (tlb_prince_encrypt x k) (tlb_prince_encrypt x (k ^^^ (1 <<< i)))

/-- The list `1, 2, 4, ..., 2^15`: row `i` is the unit vector of bit `i`. -/
def unit_rows : List Nat := (List.range 16).map fun i => 2 ^ i

/-- The S-box output for nibble `j` of `block`, indexed as in prince_s_layer. -/
def s_nibble (block j : Nat) : Nat :=
  PRINCE_SBOX.getD ((block >>> (j <<< 2)) &&& 0xF) 0

/-- The S-box outputs of nibbles `0..i` of `block`, each at its own nibble position. -/
def s_sum (block : Nat) : Nat → Nat
  | 0 => s_nibble block 0
  | i + 1 => s_sum block i + s_nibble block (i + 1) * 16 ^ (i + 1)

/-- A valid clean entry of core 0 with the given tag and RPLRU state. -/
def sampleEntry (tag rplru_state : Nat) : TLBEntry :=
  { valid := true, dirty := false, tag := tag, pfn := tag + 100, core_id := 0,
    rplru_state := rplru_state }

/-- A shared one-set, 4-way TLB for two cores used for concrete evaluation; the RPLRU
states of its set are 3, 1, 4, 2. -/
def sampleTLB : TLB :=
  { num_sets := 1
    num_ways := 4
    page_size := 4096
    shared := true
    hit_latency := 1
    miss_latency := 10
    num_cores := 2
    index_bits := 0
    index_mask := 0
    sets := [⟨[sampleEntry 7 3, sampleEntry 8 1, sampleEntry 9 4, sampleEntry 5 2]⟩]
    stat_read_access := 0
    stat_read_miss := 0
    stat_write_access := 0
    stat_write_miss := 0
    stat_rerand_count := 0
    prince_key := 0x0011223344556677
    core_states := [{ miss_counter := 0, rid := 0, miss_threshold := 1 },
                    { miss_counter := 0, rid := 0, miss_threshold := 1 }] }

/-- Lane `j` of a block: its bits `16j .. 16j+15`, as a 16-bit value. -/
def lane (j x : Nat) : Nat := (x >>> (16 * j)) % 2 ^ 16

/-- The matrix that prince_m_prime_layer applies to lane `j`: `PRINCE_M0` for lanes 0 and 3,
`PRINCE_M1` for lanes 1 and 2. -/
def lane_matrix (j : Nat) : List Nat :=
  if j = 0 ∨ j = 3 then PRINCE_M0 else PRINCE_M1

/-- The S-box applied to each of the four nibbles of a 16-bit value. -/
def s_lane (v : Nat) : Nat :=
  PRINCE_SBOX.getD (v % 16) 0 + PRINCE_SBOX.getD ((v / 16) % 16) 0 * 16
    + PRINCE_SBOX.getD ((v / 256) % 16) 0 * 256 + PRINCE_SBOX.getD ((v / 4096) % 16) 0 * 4096

/-- Embedding of `tlb_set_miss_threshold` (tlb.cpp 92-95). -/
def tlb_set_miss_threshold (tlb : TLB) (core_id threshold : Nat) : Except Fault TLB :=
  if core_id < tlb.num_cores then
    Except.ok { tlb with
      core_states := tlb.core_states.set core_id
        { tlb.core_states.getD core_id TLBcoatCoreState.zero with miss_threshold := threshold } }
  else Except.error Fault.assertion_failed

/-- The TLB after the statistics update that opens tlb_access (tlb.cpp 213-217). -/
def tlb_count_access (tlb : TLB) (is_write : Bool) : TLB :=
  if is_write then { tlb with stat_write_access := (tlb.stat_write_access + 1) % 2 ^ 64 }
  else { tlb with stat_read_access := (tlb.stat_read_access + 1) % 2 ^ 64 }

/-- Where tlb_randomize stops, if it does: the fault and the TLB object at that moment.
The only stop is the `assert` of tlb.cpp 82, the first statement. -/
def tlb_randomize_fault (tlb : TLB) (core_id : Nat) : Option (Fault × TLB) :=
  if core_id < tlb.num_cores then none else some (Fault.assertion_failed, tlb)

/-- Where tlb_set_miss_threshold stops, if it does: the `assert` of tlb.cpp 93, the first
statement. -/
def tlb_set_miss_threshold_fault (tlb : TLB) (core_id : Nat) : Option (Fault × TLB) :=
  if core_id < tlb.num_cores then none else some (Fault.assertion_failed, tlb)

/-- Where tlb_access stops, if it does, in the order of the source: the `assert` of
tlb.cpp 210 comes first; the `assert` inside tlb_randomize (line 221) comes after the
statistics update of lines 213-217. -/
def tlb_access_fault (tlb : TLB) (vpn : Nat) (is_write : Bool) (core_id : Nat) :
    Option (Fault × TLB) :=
  if ¬ core_id < tlb.num_cores then some (Fault.assertion_failed, tlb)
  else
    match tlb_randomize (tlb_count_access tlb is_write) vpn core_id with
    | Except.error e => some (e, tlb_count_access tlb is_write)
    | Except.ok _ => none

/-- Where tlb_install stops, if it does, in the order of the source: the `assert` of
tlb.cpp 269, then the `assert` inside tlb_randomize (line 273), then the access to
`set_indices[-1]` of line 295; no entry is written before line 296. -/
def tlb_install_fault (tlb : TLB) (vpn core_id : Nat) : Option (Fault × TLB) :=
  if ¬ core_id < tlb.num_cores then some (Fault.assertion_failed, tlb)
  else
    match tlb_randomize tlb vpn core_id with
    | Except.error e => some (e, tlb)
    | Except.ok set_indices =>
      match tlb_install_victim tlb set_indices with
      | none => some (Fault.out_of_bounds, tlb)
      | some _ => none

end SrcCoat

/-! ## src/dram.cpp -/

namespace Src

/-- The fixed latency of a DRAM access assumed in part B, in cycles. -/
def DELAY_SIM_MODE_B : Nat := 100

/-- The DRAM activation latency (ACT), in cycles. -/
def DELAY_ACT : Nat := 45

/-- The DRAM column selection latency (CAS), in cycles. -/
def DELAY_CAS : Nat := 45

/-- The DRAM precharge latency (PRE), in cycles. -/
def DELAY_PRE : Nat := 45

/-- The DRAM bus latency, in cycles. -/
def DELAY_BUS : Nat := 10

/-- The row buffer size, in bytes. -/
def ROW_BUFFER_SIZE : Nat := 1024

/-- The number of banks in the DRAM module. -/
def NUM_BANKS : Nat := 16

/-- The simulation mode (`Mode`, declared outside the sources).  dram.cpp names only
`SIM_MODE_B`; the other constructors stand for the parts A and C to F of its comments. -/
inductive Mode where
  | SIM_MODE_A
  | SIM_MODE_B
  | SIM_MODE_C
  | SIM_MODE_D
  | SIM_MODE_E
  | SIM_MODE_F
deriving DecidableEq, Repr

/-- The page policy (`DRAMPolicy`, declared outside the sources), with the two values that
dram.cpp names. -/
inductive DRAMPolicy where
  | OPEN_PAGE
  | CLOSE_PAGE
deriving DecidableEq, Repr

/-- One row buffer: the fields that dram.cpp reads and writes. -/
structure RowBuffer where
  valid : Bool
  row_id : Nat
deriving DecidableEq, Repr

/-- The zeroed row buffer. -/
def RowBuffer.zero : RowBuffer := { valid := false, row_id := 0 }

/-- The DRAM module: the array `row_buffers[NUM_BANKS]` and the statistics. -/
structure DRAM where
  row_buffers : List RowBuffer
  stat_read_access : Nat
  stat_write_access : Nat
  stat_read_delay : Nat
  stat_write_delay : Nat
deriving DecidableEq, Repr

/-- Embedding of `dram_new` (dram.cpp 78-86): a zeroed object. -/
def dram_new : DRAM :=
  { row_buffers := List.replicate NUM_BANKS RowBuffer.zero
    stat_read_access := 0
    stat_write_access := 0
    stat_read_delay := 0
    stat_write_delay := 0 }

/-- The statistics update shared by all branches: one access and `delay` cycles on the
read or on the write counters, as 64-bit additions. -/
def dram_count (dram : DRAM) (is_dram_write : Bool) (delay : Nat) : DRAM :=
  if is_dram_write then
    { dram with
      stat_write_access := (dram.stat_write_access + 1) % 2 ^ 64
      stat_write_delay := (dram.stat_write_delay + delay) % 2 ^ 64 }
  else
    { dram with
      stat_read_access := (dram.stat_read_access + 1) % 2 ^ 64
      stat_read_delay := (dram.stat_read_delay + delay) % 2 ^ 64 }

/-- The `physical_addr` of dram.cpp 175, a 64-bit product. -/
def dram_physical_addr (CACHE_LINESIZE line_addr : Nat) : Nat :=
  (line_addr * CACHE_LINESIZE) % 2 ^ 64

/-- The `bank` of dram.cpp 176. -/
def dram_bank (CACHE_LINESIZE line_addr : Nat) : Nat :=
  (dram_physical_addr CACHE_LINESIZE line_addr / ROW_BUFFER_SIZE) % NUM_BANKS

/-- The `row_index` of dram.cpp 177. -/
def dram_row_index (CACHE_LINESIZE line_addr : Nat) : Nat :=
  (dram_physical_addr CACHE_LINESIZE line_addr / ROW_BUFFER_SIZE) / NUM_BANKS

/-- Write `dram->row_buffers[bank] = (valid = true, row_id = row_index)`. -/
def dram_open_row (dram : DRAM) (bank row_index : Nat) : DRAM :=
  { dram with row_buffers := dram.row_buffers.set bank { valid := true, row_id := row_index } }

/-- Embedding of `dram_access_mode_CDEF` (dram.cpp 148-223).  The externs `CACHE_LINESIZE`
and `DRAM_PAGE_POLICY` are arguments.  The three flags are computed before the buffer is
touched and the three `if`s run in the order of the source; the final `return 0` needs a
policy that is neither value. -/
def dram_access_mode_CDEF (CACHE_LINESIZE : Nat) (DRAM_PAGE_POLICY : DRAMPolicy) (dram : DRAM)
    (line_addr : Nat) (is_dram_write : Bool) : Nat × DRAM :=
  match DRAM_PAGE_POLICY with
  | DRAMPolicy.CLOSE_PAGE =>
    (DELAY_ACT + DELAY_CAS + DELAY_BUS,
      dram_count dram is_dram_write (DELAY_ACT + DELAY_CAS + DELAY_BUS))
  | DRAMPolicy.OPEN_PAGE =>
    let bank := dram_bank CACHE_LINESIZE line_addr
    let row_index := dram_row_index CACHE_LINESIZE line_addr
    let rb := dram.row_buffers.getD bank RowBuffer.zero
    let is_row_hit := rb.valid && (rb.row_id == row_index)
    let is_row_miss := rb.valid && (rb.row_id != row_index)
    let is_row_empty := !rb.valid
    let delay0 := 0
    let delay1 := if is_row_hit then DELAY_CAS + DELAY_BUS else delay0
    let dram2 := if is_row_empty then dram_open_row dram bank row_index else dram
    let delay2 := if is_row_empty then DELAY_ACT + DELAY_CAS + DELAY_BUS else delay1
    let dram3 := if is_row_miss then dram_open_row dram2 bank row_index else dram2
    let delay3 := if is_row_miss then DELAY_PRE + DELAY_ACT + DELAY_CAS + DELAY_BUS else delay2
    (delay3, dram_count dram3 is_dram_write delay3)

/-- Embedding of `dram_access` (dram.cpp 105-129).  The extern `SIM_MODE` is an argument. -/
def dram_access (SIM_MODE : Mode) (CACHE_LINESIZE : Nat) (DRAM_PAGE_POLICY : DRAMPolicy)
    (dram : DRAM) (line_addr : Nat) (is_dram_write : Bool) : Nat × DRAM :=
  if SIM_MODE = Mode.SIM_MODE_B then
    (DELAY_SIM_MODE_B, dram_count dram is_dram_write DELAY_SIM_MODE_B)
  else dram_access_mode_CDEF CACHE_LINESIZE DRAM_PAGE_POLICY dram line_addr is_dram_write

/-- Runs a list of accesses `(line_addr, is_dram_write)` in order and returns the final
DRAM state. -/
def dram_run (SIM_MODE : Mode) (CACHE_LINESIZE : Nat) (DRAM_PAGE_POLICY : DRAMPolicy) :
    DRAM → List (Nat × Bool) → DRAM
  | dram, [] => dram
  | dram, a :: rest =>
    dram_run SIM_MODE CACHE_LINESIZE DRAM_PAGE_POLICY
      (dram_access SIM_MODE CACHE_LINESIZE DRAM_PAGE_POLICY dram a.1 a.2).2 rest

/-- A DRAM state used for concrete evaluation: bank 0 holds row 5, bank 1 holds row 0, the
other banks are empty. -/
def sampleDRAM : DRAM :=
  { row_buffers := [⟨true, 5⟩, ⟨true, 0⟩] ++ List.replicate 14 RowBuffer.zero
    stat_read_access := 3
    stat_write_access := 1
    stat_read_delay := 300
    stat_write_delay := 100 }

end Src

/-! ## src-sp/tlb.cpp (static-partition TLB, with the declarations of src/tlb.h) -/

namespace SrcSp

/-- Result of a TLB access (`TLBResult` of tlb.h). -/
inductive TLBResult where
  | TLB_HIT
  | TLB_MISS
deriving DecidableEq, Repr

/-- One TLB entry (`TLBEntry` of tlb.h). -/
structure TLBEntry where
  valid : Bool
  dirty : Bool
  tag : Nat
  pfn : Nat
  core_id : Nat
  last_access : Nat
deriving DecidableEq, Repr

/-- The entry that `calloc` produces. -/
def TLBEntry.zero : TLBEntry :=
  { valid := false, dirty := false, tag := 0, pfn := 0, core_id := 0, last_access := 0 }

/-- A TLB set: the array `ways[MAX_WAYS_PER_CACHE_SET]`. -/
structure TLBSet where
  ways : List TLBEntry
deriving DecidableEq, Repr

/-- The TLB object (`TLB` of tlb.h). -/
structure TLB where
  num_sets : Nat
  num_ways : Nat
  page_size : Nat
  shared : Bool
  hit_latency : Nat
  miss_latency : Nat
  index_bits : Nat
  index_mask : Nat
  sets : List TLBSet
  stat_read_access : Nat
  stat_read_miss : Nat
  stat_write_access : Nat
  stat_write_miss : Nat
deriving DecidableEq, Repr

/-- Read `tlb->sets[set_index].ways[i]`. -/
def TLB.entry (tlb : TLB) (set_index i : Nat) : TLBEntry :=
  (tlb.sets.getD set_index ⟨[]⟩).ways.getD i TLBEntry.zero

/-- Write `tlb->sets[set_index].ways[i] = e`. -/
def TLB.setEntry (tlb : TLB) (set_index i : Nat) (e : TLBEntry) : TLB :=
  let set := tlb.sets.getD set_index ⟨[]⟩
  { tlb with sets := tlb.sets.set set_index (TLBSet.mk (set.ways.set i e)) }

/-- The loop of the static helper `log2` (tlb.cpp 11-15): `while (n >>= 1) bits++`, at most
64 iterations on a 64-bit value. -/
def log2_loop : Nat → Nat → Nat → Nat
  | 0, _, bits => bits
  | fuel + 1, n, bits => if n >>> 1 ≠ 0 then log2_loop fuel (n >>> 1) (bits + 1) else bits

/-- The static helper `log2`. -/
def log2 (n : Nat) : Nat := log2_loop 64 n 0

/-- Embedding of `tlb_new` (tlb.cpp 17-34).  `MAX_WAYS_PER_CACHE_SET` comes from cache.h,
which is not part of the sources, and is a parameter.  The number of sets is
`num_entries`, as in the source. -/
def tlb_new (MAX_WAYS_PER_CACHE_SET : Nat) (num_entries associativity page_size : Nat)
    (shared : Bool) : TLB :=
  let index_bits := log2 num_entries
  { num_sets := num_entries
    num_ways := associativity
    page_size := page_size
    shared := shared
    hit_latency := 0
    miss_latency := 10
    index_bits := index_bits
    index_mask := ((1 <<< index_bits) % 2 ^ 64 + 2 ^ 64 - 1) % 2 ^ 64
    sets := List.replicate num_entries
      (TLBSet.mk (List.replicate MAX_WAYS_PER_CACHE_SET TLBEntry.zero))
    stat_read_access := 0
    stat_read_miss := 0
    stat_write_access := 0
    stat_write_miss := 0 }

/-- The `index` of tlb_access and tlb_install (tlb.cpp 90, 115). -/
def tlb_index (tlb : TLB) (vpn : Nat) : Nat := vpn &&& tlb.index_mask

/-- The `tag` of tlb_access and tlb_install (tlb.cpp 91, 116). -/
def tlb_tag (tlb : TLB) (vpn : Nat) : Nat := vpn >>> tlb.index_bits

/-- The `start_way` of the two helpers: 0 for core 0, `num_ways / 2` for the others. -/
def start_way (num_ways core_id : Nat) : Nat :=
  if core_id = 0 then 0 else num_ways / 2

/-- The `end_way` of the two helpers: `num_ways / 2` for core 0, `num_ways` for the
others. -/
def end_way (num_ways core_id : Nat) : Nat :=
  if core_id = 0 then num_ways / 2 else num_ways

/-- The test of find_entry_in_set on way `i` (tlb.cpp 49-51). -/
def entry_matches (ways : List TLBEntry) (tag core_id i : Nat) : Bool :=
  (ways.getD i TLBEntry.zero).valid && (ways.getD i TLBEntry.zero).tag == tag
    && (ways.getD i TLBEntry.zero).core_id == core_id

/-- The loop of find_entry_in_set (tlb.cpp 48-54): `remaining` iterations from way `i`. -/
def find_entry_scan (ways : List TLBEntry) (tag core_id : Nat) : Nat → Nat → Option Nat
  | 0, _ => none
  | remaining + 1, i =>
    if entry_matches ways tag core_id i then some i
    else find_entry_scan ways tag core_id remaining (i + 1)

/-- Embedding of `find_entry_in_set` (tlb.cpp 44-56): the index of the entry found, `none`
for NULL. -/
def find_entry_in_set (ways : List TLBEntry) (num_ways tag core_id : Nat) : Option Nat :=
  find_entry_scan ways tag core_id (end_way num_ways core_id - start_way num_ways core_id)
    (start_way num_ways core_id)

/-- The first loop of find_victim_in_set (tlb.cpp 66-70): the first invalid way. -/
def find_invalid_scan (ways : List TLBEntry) : Nat → Nat → Option Nat
  | 0, _ => none
  | remaining + 1, i =>
    if !(ways.getD i TLBEntry.zero).valid then some i
    else find_invalid_scan ways remaining (i + 1)

/-- The second loop of find_victim_in_set (tlb.cpp 73-77), with the index of `victim`. -/
def find_lru_scan (ways : List TLBEntry) : Nat → Nat → Nat → Nat
  | 0, _, victim => victim
  | remaining + 1, i, victim =>
    if (ways.getD i TLBEntry.zero).last_access < (ways.getD victim TLBEntry.zero).last_access
    then find_lru_scan ways remaining (i + 1) i
    else find_lru_scan ways remaining (i + 1) victim

/-- Embedding of `find_victim_in_set` (tlb.cpp 59-79): the index of the way returned. -/
def find_victim_in_set (ways : List TLBEntry) (num_ways core_id : Nat) : Nat :=
  match find_invalid_scan ways (end_way num_ways core_id - start_way num_ways core_id)
      (start_way num_ways core_id) with
  | some i => i
  | none =>
    find_lru_scan ways (end_way num_ways core_id - (start_way num_ways core_id + 1))
      (start_way num_ways core_id + 1) (start_way num_ways core_id)

/-- The statistics update that opens tlb_access (tlb.cpp 83-87). -/
def tlb_count_access (tlb : TLB) (is_write : Bool) : TLB :=
  if is_write then { tlb with stat_write_access := (tlb.stat_write_access + 1) % 2 ^ 64 }
  else { tlb with stat_read_access := (tlb.stat_read_access + 1) % 2 ^ 64 }

/-- The statistics update of a miss (tlb.cpp 104-108). -/
def tlb_count_miss (tlb : TLB) (is_write : Bool) : TLB :=
  if is_write then { tlb with stat_write_miss := (tlb.stat_write_miss + 1) % 2 ^ 64 }
  else { tlb with stat_read_miss := (tlb.stat_read_miss + 1) % 2 ^ 64 }

/-- Embedding of `tlb_access` (tlb.cpp 81-111).  The second component is the value stored
through `pfn`, if any. -/
def tlb_access (current_cycle : Nat) (tlb : TLB) (vpn : Nat) (is_write : Bool)
    (core_id : Nat) : TLBResult × Option Nat × TLB :=
  let tlb1 := tlb_count_access tlb is_write
  let index := tlb_index tlb1 vpn
  let tag := tlb_tag tlb1 vpn
  match find_entry_in_set (tlb1.sets.getD index ⟨[]⟩).ways tlb1.num_ways tag core_id with
  | some i =>
    let entry := tlb1.entry index i
    (TLBResult.TLB_HIT, some entry.pfn,
      tlb1.setEntry index i { entry with last_access := current_cycle })
  | none => (TLBResult.TLB_MISS, none, tlb_count_miss tlb1 is_write)

/-- The way that tlb_install writes (tlb.cpp 119-123): the entry found, or else the
victim. -/
def tlb_install_way (tlb : TLB) (vpn core_id : Nat) : Nat :=
  match find_entry_in_set (tlb.sets.getD (tlb_index tlb vpn) ⟨[]⟩).ways tlb.num_ways
      (tlb_tag tlb vpn) core_id with
  | some i => i
  | none => find_victim_in_set (tlb.sets.getD (tlb_index tlb vpn) ⟨[]⟩).ways tlb.num_ways core_id

/-- Embedding of `tlb_install` (tlb.cpp 113-131). -/
def tlb_install (current_cycle : Nat) (tlb : TLB) (vpn pfn : Nat) (is_write : Bool)
    (core_id : Nat) : TLB :=
  tlb.setEntry (tlb_index tlb vpn) (tlb_install_way tlb vpn core_id)
    { valid := true, dirty := is_write, tag := tlb_tag tlb vpn, pfn := pfn,
      core_id := core_id, last_access := current_cycle }

/-- Geometry of a TLB object: `num_sets` sets, each with room for `num_ways` ways, and an
index mask below the number of sets. -/
def TLB.wf (tlb : TLB) : Prop :=
  tlb.sets.length = tlb.num_sets ∧ (∀ s ∈ tlb.sets, tlb.num_ways ≤ s.ways.length) ∧
    tlb.index_mask < tlb.num_sets

instance (tlb : TLB) : Decidable tlb.wf := by
  unfold TLB.wf; infer_instance

/-- One call made on the TLB by its caller, with the value of `current_cycle` at the
call. -/
inductive TLBOp where
  | access (current_cycle vpn : Nat) (is_write : Bool) (core_id : Nat)
  | install (current_cycle vpn pfn : Nat) (is_write : Bool) (core_id : Nat)
deriving DecidableEq, Repr

/-- The core that makes a call. -/
def TLBOp.core_id : TLBOp → Nat
  | TLBOp.access _ _ _ c => c
  | TLBOp.install _ _ _ _ c => c

/-- The TLB after one call. -/
def tlb_apply (tlb : TLB) : TLBOp → TLB
  | TLBOp.access t v w c => (tlb_access t tlb v w c).2.2
  | TLBOp.install t v p w c => tlb_install t tlb v p w c

/-- What the accesses of core `k` return along a sequence of calls: for each of them, in
order, the HIT/MISS result and the value stored through `pfn`. -/
def tlb_results (k : Nat) : TLB → List TLBOp → List (TLBResult × Option Nat)
  | _, [] => []
  | tlb, TLBOp.access t v w c :: rest =>
    if c = k then
      ((tlb_access t tlb v w c).1, (tlb_access t tlb v w c).2.1)
        :: tlb_results k (tlb_access t tlb v w c).2.2 rest
    else tlb_results k (tlb_access t tlb v w c).2.2 rest
  | tlb, TLBOp.install t v p w c :: rest => tlb_results k (tlb_install t tlb v p w c) rest

/-- Whether core `core_id` uses the lower half of the ways (`lower = true`, core 0) or the
upper half (the other cores). -/
def core_in_half (lower : Bool) (core_id : Nat) : Bool :=
  if lower then decide (core_id = 0) else decide (core_id ≠ 0)

/-- Whether way `i` lies in the lower half `[0, num_ways / 2)` or in the upper half
`[num_ways / 2, num_ways)`. -/
def way_in_half (lower : Bool) (num_ways i : Nat) : Bool :=
  if lower then decide (i < num_ways / 2) else decide (num_ways / 2 ≤ i ∧ i < num_ways)

/-- Two TLB states look the same to the cores of one half: same number of ways, same index
bits and mask, and the same entry in every way of that half of every set. -/
def half_eq (lower : Bool) (t1 t2 : TLB) : Prop :=
  t1.num_ways = t2.num_ways ∧ t1.index_bits = t2.index_bits ∧
    t1.index_mask = t2.index_mask ∧
    ∀ s i, way_in_half lower t1.num_ways i = true → t1.entry s i = t2.entry s i

end SrcSp

/-! ## Theorems: cache -/

namespace Src

/-- C1 (concrete scenario, 4-way 16-set LRU cache): the code does not run the scenario as
stated.  On the cache that `cache_new` returns, the very first access, to line address 0,
returns HIT, because the lookup compares tags without looking at the valid bit and a
zeroed line has tag 0.  No install follows it; the installs after the misses of 16, 32,
48 and 64 fill the four invalid ways 0, 1, 2, 3 in turn, so the install of 64 goes to way 3
and evicts no valid line. -/
theorem scenario_first_access_hits :
    (cache_new 16 1024 4 16 ReplacementPolicy.LRU).num_sets = 16 ∧
    (cache_new 16 1024 4 16 ReplacementPolicy.LRU).num_ways = 4 ∧
    (cache_access 1 (cache_new 16 1024 4 16 ReplacementPolicy.LRU) 0 false 0).1
      = CacheResult.HIT ∧
    (run_accesses 0 (cache_new 16 1024 4 16 ReplacementPolicy.LRU) 1 [0, 16, 32, 48, 64]).1
      = [CacheResult.HIT, CacheResult.MISS, CacheResult.MISS, CacheResult.MISS,
         CacheResult.MISS] ∧
    cache_find_victim 5 0
      (run_accesses 0 (cache_new 16 1024 4 16 ReplacementPolicy.LRU) 1 [0, 16, 32, 48]).2
      0 0 = 3 ∧
    (run_accesses 0 (cache_new 16 1024 4 16 ReplacementPolicy.LRU) 1
      [0, 16, 32, 48, 64]).2.last_evicted_line.valid = false ∧
    (cache_access 6
      (run_accesses 0 (cache_new 16 1024 4 16 ReplacementPolicy.LRU) 1 [0, 16, 32, 48, 64]).2
      0 false 0).1 = CacheResult.MISS := by
  decide

/-- C2 (hit iff a valid line with the tag is present): on the cache that `cache_new`
returns, whatever the cycle, the write flag and the core, an access to line address 0
returns HIT although every way of every set is invalid. -/
theorem fresh_cache_access_hits_invalid_line (m cycle : Nat) (is_write : Bool)
    (core_id : Nat) :
    (cache_access cycle (cache_new (m + 4) 1024 4 16 ReplacementPolicy.LRU) 0 is_write
      core_id).1 = CacheResult.HIT ∧
    ∀ set_index i,
      ((cache_new (m + 4) 1024 4 16 ReplacementPolicy.LRU).line set_index i).valid = false := by
  refine ⟨?_, ?_⟩
  · simp [cache_access, cache_new, cache_tag, cache_set_index, cache_access_scan,
      List.replicate_succ, CacheLine.zero]
  · intro set_index i
    simp only [Cache.line, cache_new, List.getD_eq_getElem?_getD, List.getElem?_replicate]
    split_ifs
    · simp only [CacheLine.zero, Option.getD_some, List.getElem?_replicate]
      split_ifs <;> simp
    · simp [CacheLine.zero]

/-- The LRU loop stops at the first invalid way of the range it scans. -/
theorem lru_scan_first_invalid (ways : List CacheLine) :
    ∀ (k i mt v : Nat), (∃ j, i ≤ j ∧ j < i + k ∧ isValid ways j = false) →
      i ≤ lru_scan ways k i mt v ∧ lru_scan ways k i mt v < i + k ∧
      isValid ways (lru_scan ways k i mt v) = false ∧
      ∀ j, i ≤ j → j < lru_scan ways k i mt v → isValid ways j = true := by
  intro k
  induction k with
  | zero =>
    rintro i mt v ⟨j, h1, h2, _⟩
    omega
  | succ k ih =>
    rintro i mt v ⟨j, h1, h2, h3⟩
    unfold lru_scan
    by_cases hv : isValid ways i = false
    · have hv2 : (ways.getD i CacheLine.zero).valid = false := hv
      simp only [hv2, Bool.not_false, if_true]
      exact ⟨le_refl _, by omega, hv, fun j a b => absurd b (by omega)⟩
    · have hv1 : isValid ways i = true := by simpa using hv
      have hv2 : (ways.getD i CacheLine.zero).valid = true := hv1
      have hj : i + 1 ≤ j := by
        rcases Nat.lt_or_ge i j with h | h
        · exact h
        · have : j = i := by omega
          subst this
          rw [hv1] at h3
          exact absurd h3 (by simp)
      have hex : ∃ j, i + 1 ≤ j ∧ j < i + 1 + k ∧ isValid ways j = false :=
        ⟨j, hj, by omega, h3⟩
      simp only [hv2, Bool.not_true, Bool.false_eq_true, if_false]
      split
      · obtain ⟨a, b, c, d⟩ := ih (i + 1) (ways.getD i CacheLine.zero).last_access_time i hex
        refine ⟨by omega, by omega, c, ?_⟩
        intro j2 hj2 hlt
        rcases Nat.lt_or_ge i j2 with h | h
        · exact d j2 h hlt
        · have : j2 = i := by omega
          subst this
          exact hv1
      · obtain ⟨a, b, c, d⟩ := ih (i + 1) mt v hex
        refine ⟨by omega, by omega, c, ?_⟩
        intro j2 hj2 hlt
        rcases Nat.lt_or_ge i j2 with h | h
        · exact d j2 h hlt
        · have : j2 = i := by omega
          subst this
          exact hv1

/-- On a range of valid ways the LRU loop either keeps its initial victim, when no stamp in
the range is below the initial `min_time`, or returns the first way of the range that
carries the smallest stamp, which is then below the initial `min_time`. -/
theorem lru_scan_all_valid (ways : List CacheLine) :
    ∀ (k i mt v : Nat), (∀ j, i ≤ j → j < i + k → isValid ways j = true) →
      (lru_scan ways k i mt v = v ∧ ∀ j, i ≤ j → j < i + k → mt ≤ stamp ways j) ∨
      (i ≤ lru_scan ways k i mt v ∧ lru_scan ways k i mt v < i + k ∧
        stamp ways (lru_scan ways k i mt v) < mt ∧
        ∀ j, i ≤ j → j < i + k →
          stamp ways (lru_scan ways k i mt v) ≤ stamp ways j ∧
          (j < lru_scan ways k i mt v → stamp ways (lru_scan ways k i mt v) < stamp ways j)) := by
  intro k
  induction k with
  | zero =>
    intro i mt v _
    left
    exact ⟨rfl, fun j a b => absurd b (by omega)⟩
  | succ k ih =>
    intro i mt v hval
    have hv2 : (ways.getD i CacheLine.zero).valid = true := hval i (le_refl _) (by omega)
    have hval2 : ∀ j, i + 1 ≤ j → j < i + 1 + k → isValid ways j = true :=
      fun j a b => hval j (by omega) (by omega)
    unfold lru_scan
    simp only [hv2, Bool.not_true, Bool.false_eq_true, if_false]
    split
    · rename_i hlt
      have hlt2 : stamp ways i < mt := hlt
      right
      rcases ih (i + 1) (ways.getD i CacheLine.zero).last_access_time i hval2 with
        ⟨e, h⟩ | ⟨a, b, c, d⟩
      · rw [e]
        refine ⟨le_refl _, by omega, hlt2, ?_⟩
        intro j hj1 hj2
        rcases Nat.lt_or_ge i j with h2 | h2
        · exact ⟨h j h2 (by omega), fun x => absurd x (by omega)⟩
        · have : j = i := by omega
          subst this
          exact ⟨le_refl _, fun x => absurd x (by omega)⟩
      · have c2 : stamp ways (lru_scan ways k (i + 1) (ways.getD i CacheLine.zero).last_access_time i)
            < stamp ways i := c
        refine ⟨by omega, by omega, by omega, ?_⟩
        intro j hj1 hj2
        rcases Nat.lt_or_ge i j with h2 | h2
        · exact d j h2 (by omega)
        · have : j = i := by omega
          subst this
          exact ⟨by omega, fun _ => c2⟩
    · rename_i hge
      have hge2 : mt ≤ stamp ways i := by
        have : ¬ stamp ways i < mt := hge
        omega
      rcases ih (i + 1) mt v hval2 with ⟨e, h⟩ | ⟨a, b, c, d⟩
      · left
        refine ⟨e, ?_⟩
        intro j hj1 hj2
        rcases Nat.lt_or_ge i j with h2 | h2
        · exact h j h2 (by omega)
        · have : j = i := by omega
          subst this
          exact hge2
      · right
        refine ⟨by omega, by omega, c, ?_⟩
        intro j hj1 hj2
        rcases Nat.lt_or_ge i j with h2 | h2
        · exact d j h2 (by omega)
        · have : j = i := by omega
          subst this
          exact ⟨by omega, fun _ => by omega⟩

/-- C3 (LRU victim, all ways valid): under the LRU policy, in a set whose `num_ways` ways
are all valid and carry no stamp above the current cycle, `cache_find_victim` returns a
way below `num_ways` that has the smallest `last_access_time` of the set, and no way with
that same smallest stamp has a lower index. -/
theorem find_victim_lru_oldest_lowest_index (current_cycle rand : Nat) (c : Cache)
    (set_index core_id : Nat)
    (hpol : c.replacement_policy = ReplacementPolicy.LRU)
    (hn : 0 < c.num_ways) (hsmall : c.num_ways < 2 ^ 32)
    (hvalid : ∀ i, i < c.num_ways → (c.line set_index i).valid = true)
    (htime : ∀ i, i < c.num_ways → (c.line set_index i).last_access_time ≤ current_cycle) :
    cache_find_victim current_cycle rand c set_index core_id < c.num_ways ∧
    (∀ i, i < c.num_ways →
      (c.line set_index (cache_find_victim current_cycle rand c set_index core_id)).last_access_time
        ≤ (c.line set_index i).last_access_time) ∧
    (∀ i, i < c.num_ways →
      (c.line set_index i).last_access_time =
        (c.line set_index
          (cache_find_victim current_cycle rand c set_index core_id)).last_access_time →
      cache_find_victim current_cycle rand c set_index core_id ≤ i) := by
  have hmod : c.num_ways % 2 ^ 32 = c.num_ways := Nat.mod_eq_of_lt hsmall
  have hfv : cache_find_victim current_cycle rand c set_index core_id =
      lru_scan (c.sets.getD set_index ⟨[]⟩).ways c.num_ways 0 current_cycle 0 := by
    simp only [cache_find_victim, hpol, hmod]
  rw [hfv]
  have hval : ∀ j, 0 ≤ j → j < 0 + c.num_ways →
      isValid (c.sets.getD set_index ⟨[]⟩).ways j = true :=
    fun j _ h => hvalid j (by omega)
  have ht : ∀ j, j < c.num_ways → stamp (c.sets.getD set_index ⟨[]⟩).ways j ≤ current_cycle :=
    fun j h => htime j h
  rcases lru_scan_all_valid (c.sets.getD set_index ⟨[]⟩).ways c.num_ways 0 current_cycle 0 hval
    with ⟨e, h⟩ | ⟨_, b, _, d⟩
  · rw [e]
    have hall : ∀ j, j < c.num_ways →
        stamp (c.sets.getD set_index ⟨[]⟩).ways j = current_cycle :=
      fun j hj => le_antisymm (ht j hj) (h j (Nat.zero_le _) (by omega))
    refine ⟨hn, ?_, fun i _ _ => Nat.zero_le _⟩
    intro i hi
    have h0 := hall 0 hn
    have h1 := hall i hi
    show stamp _ 0 ≤ stamp _ i
    omega
  · refine ⟨by omega, ?_, ?_⟩
    · intro i hi
      exact (d i (Nat.zero_le _) (by omega)).1
    · intro i hi heq
      by_contra hlt
      have := (d i (Nat.zero_le _) (by omega)).2 (by omega)
      have heq2 : stamp (c.sets.getD set_index ⟨[]⟩).ways i =
          stamp (c.sets.getD set_index ⟨[]⟩).ways
            (lru_scan (c.sets.getD set_index ⟨[]⟩).ways c.num_ways 0 current_cycle 0) := heq
      omega

/-- C4 (LRU victim, some way invalid): under the LRU policy, in a set that has an invalid
way below `num_ways`, `cache_find_victim` returns the lowest invalid way: the returned way
is invalid and every way before it is valid, whatever the stamps are. -/
theorem find_victim_lru_first_invalid (current_cycle rand : Nat) (c : Cache)
    (set_index core_id : Nat)
    (hpol : c.replacement_policy = ReplacementPolicy.LRU)
    (hsmall : c.num_ways < 2 ^ 32)
    (hinv : ∃ i, i < c.num_ways ∧ (c.line set_index i).valid = false) :
    cache_find_victim current_cycle rand c set_index core_id < c.num_ways ∧
    (c.line set_index (cache_find_victim current_cycle rand c set_index core_id)).valid = false ∧
    (∀ j, j < cache_find_victim current_cycle rand c set_index core_id →
      (c.line set_index j).valid = true) := by
  have hmod : c.num_ways % 2 ^ 32 = c.num_ways := Nat.mod_eq_of_lt hsmall
  have hfv : cache_find_victim current_cycle rand c set_index core_id =
      lru_scan (c.sets.getD set_index ⟨[]⟩).ways c.num_ways 0 current_cycle 0 := by
    simp only [cache_find_victim, hpol, hmod]
  rw [hfv]
  obtain ⟨i, hi, hiv⟩ := hinv
  obtain ⟨_, b, c1, d⟩ := lru_scan_first_invalid (c.sets.getD set_index ⟨[]⟩).ways c.num_ways 0
    current_cycle 0 ⟨i, Nat.zero_le _, by omega, hiv⟩
  exact ⟨by omega, c1, fun j hj => d j (Nat.zero_le _) hj⟩

/-- Evaluation of C3 on set 0 of `sampleCache` at cycle 10: stamps 7, 3, 9, 3, victim 1. -/
theorem find_victim_lru_oldest_lowest_index_witness :
    cache_find_victim 10 0 sampleCache 0 0 = 1 ∧
    cache_find_victim 10 0 sampleCache 0 0 < sampleCache.num_ways ∧
    (∀ i, i < sampleCache.num_ways →
      (sampleCache.line 0 (cache_find_victim 10 0 sampleCache 0 0)).last_access_time
        ≤ (sampleCache.line 0 i).last_access_time) ∧
    (∀ i, i < sampleCache.num_ways →
      (sampleCache.line 0 i).last_access_time =
        (sampleCache.line 0 (cache_find_victim 10 0 sampleCache 0 0)).last_access_time →
      cache_find_victim 10 0 sampleCache 0 0 ≤ i) :=
  ⟨by decide, find_victim_lru_oldest_lowest_index 10 0 sampleCache 0 0 (by decide) (by decide)
    (by decide) (by decide) (by decide)⟩

/-- Evaluation of C4 on set 1 of `sampleCache`: way 2 is the first invalid way. -/
theorem find_victim_lru_first_invalid_witness :
    cache_find_victim 10 0 sampleCache 1 0 = 2 ∧
    cache_find_victim 10 0 sampleCache 1 0 < sampleCache.num_ways ∧
    (sampleCache.line 1 (cache_find_victim 10 0 sampleCache 1 0)).valid = false ∧
    (∀ j, j < cache_find_victim 10 0 sampleCache 1 0 → (sampleCache.line 1 j).valid = true) :=
  ⟨by decide, find_victim_lru_first_invalid 10 0 sampleCache 1 0 (by decide) (by decide)
    ⟨2, by decide, by decide⟩⟩

/-- Reading back the line just written, when set and way are inside the arrays. -/
theorem line_setLine_same (c : Cache) (s i : Nat) (l : CacheLine) (hs : s < c.sets.length)
    (hi : i < (c.sets.getD s ⟨[]⟩).ways.length) : (c.setLine s i l).line s i = l := by
  simp only [List.getD_eq_getElem?_getD, List.getElem?_eq_getElem hs, Option.getD_some] at hi
  simp [Cache.line, Cache.setLine, List.getD_eq_getElem?_getD, List.getElem?_set, hs, hi]

/-- A write to one way leaves every other way of the cache as it was. -/
theorem line_setLine_other (c : Cache) (s i : Nat) (l : CacheLine) (s2 i2 : Nat)
    (h : s2 ≠ s ∨ i2 ≠ i) : (c.setLine s i l).line s2 i2 = c.line s2 i2 := by
  by_cases hs : s2 = s
  · subst hs
    have hi : i ≠ i2 := by
      rcases h with h | h
      · exact absurd rfl h
      · exact fun e => h e.symm
    by_cases hlen : s2 < c.sets.length
    · simp [Cache.line, Cache.setLine, List.getD_eq_getElem?_getD, List.getElem?_set, hlen, hi]
    · have hnone : c.sets[s2]? = none := List.getElem?_eq_none (by omega)
      simp [Cache.line, Cache.setLine, List.getD_eq_getElem?_getD, List.getElem?_set, hlen,
        hnone]
  · have hs2 : s ≠ s2 := fun e => hs e.symm
    simp [Cache.line, Cache.setLine, List.getD_eq_getElem?_getD, List.getElem?_set, hs2]

/-- The lookup loop finds a way as soon as some way of its range carries the tag. -/
theorem cache_access_scan_ne_none (ways : List CacheLine) (tag : Nat) :
    ∀ (k i : Nat), (∃ j, i ≤ j ∧ j < i + k ∧ (ways.getD j CacheLine.zero).tag = tag) →
      cache_access_scan ways tag k i ≠ none := by
  intro k
  induction k with
  | zero =>
    rintro i ⟨j, h1, h2, _⟩
    omega
  | succ k ih =>
    rintro i ⟨j, h1, h2, h3⟩
    unfold cache_access_scan
    split
    · simp
    · rename_i hne
      apply ih
      refine ⟨j, ?_, by omega, h3⟩
      rcases Nat.lt_or_ge i j with h | h
      · exact h
      · have : j = i := by omega
        subst this
        exact absurd h3 hne

/-- The lookup loop returns the first way of its range that carries the tag. -/
theorem cache_access_scan_first (ways : List CacheLine) (tag : Nat) :
    ∀ (k i w : Nat), i ≤ w → w < i + k → (ways.getD w CacheLine.zero).tag = tag →
      (∀ j, i ≤ j → j < w → (ways.getD j CacheLine.zero).tag ≠ tag) →
      cache_access_scan ways tag k i = some w := by
  intro k
  induction k with
  | zero =>
    intro i w h1 h2
    omega
  | succ k ih =>
    intro i w h1 h2 h3 h4
    unfold cache_access_scan
    rcases Nat.lt_or_ge i w with h | h
    · rw [if_neg (h4 i (le_refl _) h)]
      exact ih (i + 1) w h (by omega) h3 (fun j a b => h4 j (by omega) b)
    · have : w = i := by omega
      subst this
      rw [if_pos h3]

/-- The LRU loop returns a way of its range or the initial victim. -/
theorem lru_scan_lt (ways : List CacheLine) :
    ∀ (k i mt v : Nat), v < i + k → lru_scan ways k i mt v < i + k := by
  intro k
  induction k with
  | zero =>
    intro i mt v h
    simpa [lru_scan] using h
  | succ k ih =>
    intro i mt v h
    unfold lru_scan
    split
    · omega
    · split
      · have := ih (i + 1) (ways.getD i CacheLine.zero).last_access_time i (by omega)
        omega
      · have := ih (i + 1) mt v (by omega)
        omega

/-- Every policy returns a way below `num_ways` on a cache that has at least one way. -/
theorem cache_find_victim_lt (current_cycle rand : Nat) (c : Cache) (set_index core_id : Nat)
    (hn : 1 ≤ c.num_ways) (hsmall : c.num_ways < 2 ^ 32) :
    cache_find_victim current_cycle rand c set_index core_id < c.num_ways := by
  have hmod : c.num_ways % 2 ^ 32 = c.num_ways := Nat.mod_eq_of_lt hsmall
  unfold cache_find_victim
  simp only [hmod]
  split
  · have := lru_scan_lt (c.sets.getD set_index ⟨[]⟩).ways c.num_ways 0 current_cycle 0 (by omega)
    omega
  · exact Nat.mod_lt _ (by omega)
  · omega
  · omega

/-- The set index computed for an address lies inside the array of sets. -/
theorem cache_set_index_lt (c : Cache) (line_addr : Nat) (hwf : c.wf) (hs : 1 ≤ c.num_sets) :
    cache_set_index c line_addr < c.sets.length := by
  unfold cache_set_index
  rw [hwf.1]
  have h1 : line_addr % c.num_sets < c.num_sets := Nat.mod_lt _ (by omega)
  have h2 : line_addr % c.num_sets % 2 ^ 32 ≤ line_addr % c.num_sets := Nat.mod_le _ _
  omega

/-- In a well-formed cache every set inside the array has room for `num_ways` ways. -/
theorem ways_length_of_wf (c : Cache) (s : Nat) (hwf : c.wf) (hs : s < c.sets.length) :
    c.num_ways ≤ (c.sets.getD s ⟨[]⟩).ways.length := by
  have hmem : c.sets.getD s ⟨[]⟩ ∈ c.sets := by
    rw [List.getD_eq_getElem?_getD, List.getElem?_eq_getElem hs]
    simp
  exact hwf.2.1 _ hmem

/-- C6 (hit after install, cache): on every well-formed cache with at least one set and one
way, under every replacement policy and every value drawn from the random generator,
`cache_install` of address `a` followed by `cache_access` of `a` returns HIT, whatever the
cycles, write flags and core ids of the two calls are. -/
theorem cache_hit_after_install (t t2 rand : Nat) (c : Cache) (a : Nat) (wr wr2 : Bool)
    (core core2 : Nat) (hwf : c.wf) (hs : 1 ≤ c.num_sets) (hn : 1 ≤ c.num_ways) :
    (cache_access t2 (cache_install t rand c a wr core) a wr2 core2).1 = CacheResult.HIT := by
  have hsi := cache_set_index_lt c a hwf hs
  have hv := cache_find_victim_lt t rand c (cache_set_index c a) core hn hwf.2.2
  have hlen := ways_length_of_wf c (cache_set_index c a) hwf hsi
  have hline := line_setLine_same
    { c with
      stat_dirty_evicts :=
        if (c.line (cache_set_index c a)
              (cache_find_victim t rand c (cache_set_index c a) core)).valid &&
            (c.line (cache_set_index c a)
              (cache_find_victim t rand c (cache_set_index c a) core)).dirty
        then (c.stat_dirty_evicts + 1) % 2 ^ 64 else c.stat_dirty_evicts
      last_evicted_line := c.line (cache_set_index c a)
        (cache_find_victim t rand c (cache_set_index c a) core) }
    (cache_set_index c a) (cache_find_victim t rand c (cache_set_index c a) core)
    { valid := true, dirty := wr, tag := cache_tag c a, line_addr := a, core_id := core,
      last_access_time := t } hsi (by simpa using lt_of_lt_of_le hv hlen)
  have hex : cache_access_scan
      ((cache_install t rand c a wr core).sets.getD (cache_set_index c a) ⟨[]⟩).ways
      (cache_tag c a) c.num_ways 0 ≠ none := by
    apply cache_access_scan_ne_none
    refine ⟨cache_find_victim t rand c (cache_set_index c a) core, Nat.zero_le _, by omega, ?_⟩
    have := congrArg CacheLine.tag hline
    exact this
  unfold cache_access
  have e1 : cache_tag (cache_install t rand c a wr core) a = cache_tag c a := rfl
  have e2 : cache_set_index (cache_install t rand c a wr core) a = cache_set_index c a := rfl
  have e3 : (cache_install t rand c a wr core).num_ways = c.num_ways := rfl
  simp only [e1, e2, e3]
  split
  · rfl
  · rename_i hnone
    exact absurd hnone hex

/-- Evaluation of C6 on `sampleCache`. -/
theorem cache_hit_after_install_witness :
    (cache_access 12 (cache_install 11 0 sampleCache 101 true 1) 101 false 0).1
      = CacheResult.HIT :=
  cache_hit_after_install 11 12 0 sampleCache 101 true false 1 0 (by decide) (by decide)
    (by decide)

/-- What a hitting `cache_access` returns: HIT and the cache with the access counters
advanced and way `w` of the indexed set refreshed. -/
theorem cache_access_of_scan_some (t : Nat) (c : Cache) (a : Nat) (wr : Bool) (core w : Nat)
    (h : cache_access_scan (c.sets.getD (cache_set_index c a) ⟨[]⟩).ways (cache_tag c a)
      c.num_ways 0 = some w) :
    cache_access t c a wr core =
      (CacheResult.HIT,
        Cache.setLine
          { c with
            stat_write_access := (c.stat_write_access + b2n wr) % 2 ^ 64
            stat_read_access := (c.stat_read_access + b2n (!wr)) % 2 ^ 64 }
          (cache_set_index c a) w
          { c.line (cache_set_index c a) w with
            dirty := if wr then true else (c.line (cache_set_index c a) w).dirty
            last_access_time := t }) := by
  unfold cache_access
  simp only [h]
  rfl

/-- C5 (LRU correctness): in a well-formed LRU cache with at least two ways, take a set
whose ways are all valid, and an access at cycle `t`, later than every stamp of the set,
that hits way `w` (the first way carrying the tag).  The access returns HIT and stamps `w`
with `t`.  The next install into that set, at any cycle `t2 ≥ t`, picks a victim `m` that
is not `w` and whose stamp was the smallest among the ways other than `w` (with pairwise
distinct stamps that way is unique; the statement does not need them distinct); it
overwrites exactly way `m` of the set with the new line and leaves every other way, `w`
included, as the access left it. -/
theorem lru_evicts_least_recent_after_hit (t t2 rand : Nat) (c : Cache) (a b : Nat)
    (wr wr2 : Bool) (core core2 w : Nat)
    (hwf : c.wf) (hpol : c.replacement_policy = ReplacementPolicy.LRU)
    (hsets : 1 ≤ c.num_sets) (hn : 2 ≤ c.num_ways)
    (hvalid : ∀ i, i < c.num_ways → (c.line (cache_set_index c a) i).valid = true)
    (hlater : ∀ i, i < c.num_ways → (c.line (cache_set_index c a) i).last_access_time < t)
    (hw : w < c.num_ways)
    (htag : (c.line (cache_set_index c a) w).tag = cache_tag c a)
    (hfirst : ∀ j, j < w → (c.line (cache_set_index c a) j).tag ≠ cache_tag c a)
    (hsame : cache_set_index c b = cache_set_index c a) (ht2 : t ≤ t2) :
    (cache_access t c a wr core).1 = CacheResult.HIT ∧
    ((cache_access t c a wr core).2.line (cache_set_index c a) w).last_access_time = t ∧
    cache_find_victim t2 rand (cache_access t c a wr core).2 (cache_set_index c a) core2
      < c.num_ways ∧
    cache_find_victim t2 rand (cache_access t c a wr core).2 (cache_set_index c a) core2 ≠ w ∧
    (∀ i, i < c.num_ways → i ≠ w →
      (c.line (cache_set_index c a)
        (cache_find_victim t2 rand (cache_access t c a wr core).2 (cache_set_index c a)
          core2)).last_access_time
        ≤ (c.line (cache_set_index c a) i).last_access_time) ∧
    (cache_install t2 rand (cache_access t c a wr core).2 b wr2 core2).line
        (cache_set_index c a)
        (cache_find_victim t2 rand (cache_access t c a wr core).2 (cache_set_index c a) core2)
      = { valid := true, dirty := wr2, tag := cache_tag c b, line_addr := b, core_id := core2,
          last_access_time := t2 } ∧
    (∀ i, i ≠ cache_find_victim t2 rand (cache_access t c a wr core).2 (cache_set_index c a)
        core2 →
      (cache_install t2 rand (cache_access t c a wr core).2 b wr2 core2).line
          (cache_set_index c a) i
        = (cache_access t c a wr core).2.line (cache_set_index c a) i) := by
  have hsi := cache_set_index_lt c a hwf hsets
  have hlen := ways_length_of_wf c (cache_set_index c a) hwf hsi
  have hscan : cache_access_scan (c.sets.getD (cache_set_index c a) ⟨[]⟩).ways (cache_tag c a)
      c.num_ways 0 = some w :=
    cache_access_scan_first _ _ c.num_ways 0 w (Nat.zero_le _) (by omega) htag
      (fun j _ hj => hfirst j hj)
  have hacc := cache_access_of_scan_some t c a wr core w hscan
  generalize hc1 : (cache_access t c a wr core).2 = c1 at *
  have hc1eq : c1 = Cache.setLine
      { c with
        stat_write_access := (c.stat_write_access + b2n wr) % 2 ^ 64
        stat_read_access := (c.stat_read_access + b2n (!wr)) % 2 ^ 64 }
      (cache_set_index c a) w
      { c.line (cache_set_index c a) w with
        dirty := if wr then true else (c.line (cache_set_index c a) w).dirty
        last_access_time := t } := by
    rw [← hc1, hacc]
  have hres : (cache_access t c a wr core).1 = CacheResult.HIT := by rw [hacc]
  -- the state after the access
  have hnw : c1.num_ways = c.num_ways := by rw [hc1eq]; rfl
  have hns : c1.num_sets = c.num_sets := by rw [hc1eq]; rfl
  have hp1 : c1.replacement_policy = ReplacementPolicy.LRU := by rw [hc1eq]; exact hpol
  have hsl : c1.sets.length = c.sets.length := by
    rw [hc1eq]; simp [Cache.setLine]
  have hlw : c1.line (cache_set_index c a) w =
      { c.line (cache_set_index c a) w with
        dirty := if wr then true else (c.line (cache_set_index c a) w).dirty
        last_access_time := t } := by
    rw [hc1eq]
    exact line_setLine_same _ _ _ _ hsi (lt_of_lt_of_le hw hlen)
  have hlo : ∀ i, i ≠ w → c1.line (cache_set_index c a) i = c.line (cache_set_index c a) i := by
    intro i hi
    rw [hc1eq]
    exact line_setLine_other _ _ _ _ _ _ (Or.inr hi)
  have hwl : c1.num_ways ≤ (c1.sets.getD (cache_set_index c a) ⟨[]⟩).ways.length := by
    rw [hnw, hc1eq]
    simp only [Cache.setLine, List.getD_eq_getElem?_getD, List.getElem?_set, hsi, if_true,
      Option.getD_some, List.length_set]
    simpa [List.getD_eq_getElem?_getD] using hlen
  -- the victim search after the access
  have hmod : c1.num_ways % 2 ^ 32 = c.num_ways := by rw [hnw]; exact Nat.mod_eq_of_lt hwf.2.2
  have hfv : cache_find_victim t2 rand c1 (cache_set_index c a) core2 =
      lru_scan (c1.sets.getD (cache_set_index c a) ⟨[]⟩).ways c.num_ways 0 t2 0 := by
    simp only [cache_find_victim, hp1, hmod]
  have hval1 : ∀ j, 0 ≤ j → j < 0 + c.num_ways →
      isValid (c1.sets.getD (cache_set_index c a) ⟨[]⟩).ways j = true := by
    intro j _ hj
    show (c1.line (cache_set_index c a) j).valid = true
    by_cases hjw : j = w
    · rw [hjw, hlw]; exact hvalid w hw
    · rw [hlo j hjw]; exact hvalid j (by omega)
  have hstw : stamp (c1.sets.getD (cache_set_index c a) ⟨[]⟩).ways w = t := by
    show (c1.line (cache_set_index c a) w).last_access_time = t
    rw [hlw]
  have hsto : ∀ j, j ≠ w → stamp (c1.sets.getD (cache_set_index c a) ⟨[]⟩).ways j =
      (c.line (cache_set_index c a) j).last_access_time := by
    intro j hj
    show (c1.line (cache_set_index c a) j).last_access_time = _
    rw [hlo j hj]
  -- some way other than w
  obtain ⟨j0, hj0n, hj0w⟩ : ∃ j0, j0 < c.num_ways ∧ j0 ≠ w := by
    by_cases h0 : w = 0
    · exact ⟨1, by omega, by omega⟩
    · exact ⟨0, by omega, fun e => h0 e.symm⟩
  have hj0t := hlater j0 hj0n
  have hmain : lru_scan (c1.sets.getD (cache_set_index c a) ⟨[]⟩).ways c.num_ways 0 t2 0
        < c.num_ways ∧
      lru_scan (c1.sets.getD (cache_set_index c a) ⟨[]⟩).ways c.num_ways 0 t2 0 ≠ w ∧
      ∀ i, i < c.num_ways → i ≠ w →
        (c.line (cache_set_index c a)
          (lru_scan (c1.sets.getD (cache_set_index c a) ⟨[]⟩).ways c.num_ways 0 t2
            0)).last_access_time ≤ (c.line (cache_set_index c a) i).last_access_time := by
    rcases lru_scan_all_valid (c1.sets.getD (cache_set_index c a) ⟨[]⟩).ways c.num_ways 0 t2 0
      hval1 with ⟨_, h⟩ | ⟨_, hb, _, hd⟩
    · have := h j0 (Nat.zero_le _) (by omega)
      rw [hsto j0 hj0w] at this
      omega
    · have hne : lru_scan (c1.sets.getD (cache_set_index c a) ⟨[]⟩).ways c.num_ways 0 t2 0
          ≠ w := by
        intro e
        have := (hd j0 (Nat.zero_le _) (by omega)).1
        rw [e, hstw, hsto j0 hj0w] at this
        omega
      refine ⟨by omega, hne, ?_⟩
      intro i hi hiw
      have := (hd i (Nat.zero_le _) (by omega)).1
      rw [hsto _ hne, hsto i hiw] at this
      exact this
  rw [hfv]
  refine ⟨hres, ?_, hmain.1, hmain.2.1, hmain.2.2, ?_, ?_⟩
  · rw [hlw]
  · have hidx : cache_set_index c1 b = cache_set_index c a := by
      unfold cache_set_index
      rw [hns]
      exact hsame
    have htg : cache_tag c1 b = cache_tag c b := by
      unfold cache_tag
      rw [hns]
    unfold cache_install
    simp only [hidx, htg, hfv]
    exact line_setLine_same _ _ _ _ (by rw [hsl] at *; exact hsi)
      (lt_of_lt_of_le hmain.1 (by rw [← hnw]; exact hwl))
  · intro i hi
    have hidx : cache_set_index c1 b = cache_set_index c a := by
      unfold cache_set_index
      rw [hns]
      exact hsame
    unfold cache_install
    simp only [hidx, hfv]
    exact line_setLine_other _ _ _ _ _ _ (Or.inr hi)

/-- Evaluation of C5 on set 0 of `sampleCache` (stamps 7, 3, 9, 3): the access to line
address 22 at cycle 10 hits way 1, the install of line address 100 at cycle 12 then
overwrites way 3. -/
theorem lru_evicts_least_recent_after_hit_witness :
    cache_find_victim 12 0 (cache_access 10 sampleCache 22 false 0).2
      (cache_set_index sampleCache 22) 0 = 3 ∧
    ((cache_access 10 sampleCache 22 false 0).1 = CacheResult.HIT ∧
    ((cache_access 10 sampleCache 22 false 0).2.line (cache_set_index sampleCache 22)
      1).last_access_time = 10 ∧
    cache_find_victim 12 0 (cache_access 10 sampleCache 22 false 0).2
        (cache_set_index sampleCache 22) 0 < sampleCache.num_ways ∧
    cache_find_victim 12 0 (cache_access 10 sampleCache 22 false 0).2
        (cache_set_index sampleCache 22) 0 ≠ 1 ∧
    (∀ i, i < sampleCache.num_ways → i ≠ 1 →
      (sampleCache.line (cache_set_index sampleCache 22)
        (cache_find_victim 12 0 (cache_access 10 sampleCache 22 false 0).2
          (cache_set_index sampleCache 22) 0)).last_access_time
        ≤ (sampleCache.line (cache_set_index sampleCache 22) i).last_access_time) ∧
    (cache_install 12 0 (cache_access 10 sampleCache 22 false 0).2 100 true 0).line
        (cache_set_index sampleCache 22)
        (cache_find_victim 12 0 (cache_access 10 sampleCache 22 false 0).2
          (cache_set_index sampleCache 22) 0)
      = { valid := true, dirty := true, tag := cache_tag sampleCache 100, line_addr := 100,
          core_id := 0, last_access_time := 12 } ∧
    (∀ i, i ≠ cache_find_victim 12 0 (cache_access 10 sampleCache 22 false 0).2
        (cache_set_index sampleCache 22) 0 →
      (cache_install 12 0 (cache_access 10 sampleCache 22 false 0).2 100 true 0).line
          (cache_set_index sampleCache 22) i
        = (cache_access 10 sampleCache 22 false 0).2.line (cache_set_index sampleCache 22) i)) :=
  ⟨by decide, lru_evicts_least_recent_after_hit 10 12 0 sampleCache 22 100 false true 0 0 1
    (by decide) (by decide) (by decide) (by decide) (by decide) (by decide) (by decide)
    (by decide) (by decide) (by decide) (by decide)⟩

end Src

/-! ## Theorems: secure TLB -/

namespace SrcCoat

set_option maxRecDepth 1000000 in
/-- C7 (RPLRU permutation invariant in every reachable state): the state that `tlb_new`
returns already breaks it.  For 8 entries, 4 ways, every way of set 0 has RPLRU state 4, so
the states are not a permutation of 1..4; after the first miss and install (page 0) the
states of set 0 are 1, 5, 5, 5, outside the documented range 1..num_ways. -/
theorem tlb_new_rplru_not_permutation :
    rplru_states (tlb_new 16 8 4 4096 false 1) 0 = [4, 4, 4, 4] ∧
    ¬ rplru_perm (tlb_new 16 8 4 4096 false 1) 0 ∧
    (tlb_run (tlb_new 16 8 4 4096 false 1) [0]).map (rplru_states · 0)
      = Except.ok [1, 5, 5, 5] := by
  decide

set_option maxRecDepth 1000000 in
/-- C9 (tlb_install always finds a victim): it does not.  On the 4-entry, 2-way TLB that
`tlb_new` returns, the accesses to pages 0, 1, 2 miss and install; the access to page 3
misses, and then both candidate slots of page 3 are valid with RPLRU state 1, so both
victim loops end with `victim_way = -1` and the install indexes outside `set_indices`.
The same happens on the 8-entry, 4-way TLB at the 19th page of the run 0, 1, 2, ..., in a
state where both sets do hold permutations of 1..4. -/
theorem tlb_install_finds_no_victim :
    (tlb_run (tlb_new 16 4 2 4096 false 1) [0, 1, 2]).toBool = true ∧
    tlb_run (tlb_new 16 4 2 4096 false 1) [0, 1, 2, 3] = Except.error Fault.out_of_bounds ∧
    (tlb_run (tlb_new 16 8 4 4096 false 1) (List.range 18)).map
      (fun t => (rplru_states t 0, rplru_states t 1))
      = Except.ok ([4, 2, 3, 1], [2, 1, 4, 3]) ∧
    tlb_run (tlb_new 16 8 4 4096 false 1) (List.range 19)
      = Except.error Fault.out_of_bounds := by
  decide

set_option maxRecDepth 1000000 in
/-- C10 as stated fails: in the shared TLB `sampleTLB`, way 0 of the only set holds a valid
entry with tag 7 that belongs to core 0.  For an access to page 7 by core 1 the claimed
condition (core match waived in shared mode) holds, yet tlb_access returns MISS. -/
theorem tlb_access_shared_core_mismatch_misses :
    sampleTLB.shared = true ∧
    (∃ i, i < sampleTLB.num_ways ∧ (tlb_slot sampleTLB 7 1 i).valid = true ∧
      (tlb_slot sampleTLB 7 1 i).tag = 7 ∧
      (sampleTLB.shared = true ∨ (tlb_slot sampleTLB 7 1 i).core_id = 1)) ∧
    tlb_access_result sampleTLB 7 false 1 = Except.ok TLBResult.TLB_MISS := by
  decide

/-- The lookup loop either finds no way, and then the hit test fails on its whole range,
or returns a way of its range that passes the hit test. -/
theorem tlb_access_scan_spec (tlb : TLB) (vpn core_id : Nat) (set_indices : List Nat) :
    ∀ (k i : Nat),
      (tlb_access_scan tlb vpn core_id set_indices k i = none ∧
        ∀ j, i ≤ j → j < i + k →
          tlb_hit_test tlb vpn core_id (set_indices.getD j 0) j = false) ∨
      (∃ w, tlb_access_scan tlb vpn core_id set_indices k i = some w ∧ i ≤ w ∧ w < i + k ∧
        tlb_hit_test tlb vpn core_id (set_indices.getD w 0) w = true) := by
  intro k
  induction k with
  | zero =>
    intro i
    left
    exact ⟨rfl, fun j a b => absurd b (by omega)⟩
  | succ k ih =>
    intro i
    unfold tlb_access_scan
    by_cases h : tlb_hit_test tlb vpn core_id (set_indices.getD i 0) i = true
    · right
      exact ⟨i, by rw [if_pos h], le_refl _, by omega, h⟩
    · rw [if_neg h]
      rcases ih (i + 1) with ⟨e, hall⟩ | ⟨w, e, h1, h2, h3⟩
      · left
        refine ⟨e, ?_⟩
        intro j hj1 hj2
        rcases Nat.lt_or_ge i j with h2 | h2
        · exact hall j h2 (by omega)
        · have : j = i := by omega
          subst this
          simpa using h
      · right
        exact ⟨w, e, by omega, by omega, h3⟩

/-- The hit test spelled out. -/
theorem tlb_hit_test_iff (tlb : TLB) (vpn core_id set_index i : Nat) :
    tlb_hit_test tlb vpn core_id set_index i = true ↔
      (tlb.entry set_index i).valid = true ∧ (tlb.entry set_index i).tag = vpn ∧
        (tlb.shared = false ∨ (tlb.entry set_index i).core_id = core_id) := by
  simp [tlb_hit_test, and_assoc]

/-- With a core id in range tlb_randomize returns the array of set indices. -/
theorem tlb_randomize_ok (tlb : TLB) (vpn core_id : Nat) (hcore : core_id < tlb.num_cores) :
    ∃ set_indices, tlb_randomize tlb vpn core_id = Except.ok set_indices := by
  unfold tlb_randomize
  rw [if_pos hcore]
  exact ⟨_, rfl⟩

/-- C10, amended: with `core_id < num_cores`, secure tlb_access returns, and it returns HIT
if and only if for some way `i < num_ways` the slot `(set_index[i], i)` is valid, its tag
equals `vpn`, and either the TLB is not in shared mode or the slot's core id equals the
requesting core id: the core-id match is required in shared mode and waived otherwise. -/
theorem tlb_access_hit_iff (tlb : TLB) (vpn : Nat) (is_write : Bool) (core_id : Nat)
    (hcore : core_id < tlb.num_cores) :
    ∃ r pfn t, tlb_access tlb vpn is_write core_id = Except.ok (r, pfn, t) ∧
      (r = TLBResult.TLB_HIT ↔
        ∃ i, i < tlb.num_ways ∧ (tlb_slot tlb vpn core_id i).valid = true ∧
          (tlb_slot tlb vpn core_id i).tag = vpn ∧
          (tlb.shared = false ∨ (tlb_slot tlb vpn core_id i).core_id = core_id)) := by
  obtain ⟨idx, hidx⟩ := tlb_randomize_ok tlb vpn core_id hcore
  have hslot : ∀ i, tlb_slot tlb vpn core_id i = tlb.entry (idx.getD i 0) i := by
    intro i
    unfold tlb_slot
    rw [hidx]
  simp only [hslot]
  have key : ∀ tlb1 : TLB, tlb1.sets = tlb.sets → tlb1.shared = tlb.shared →
      tlb1.num_ways = tlb.num_ways →
      (tlb_access_scan tlb1 vpn core_id idx tlb1.num_ways 0 = none ∧
        ¬ ∃ i, i < tlb.num_ways ∧ (tlb.entry (idx.getD i 0) i).valid = true ∧
          (tlb.entry (idx.getD i 0) i).tag = vpn ∧
          (tlb.shared = false ∨ (tlb.entry (idx.getD i 0) i).core_id = core_id)) ∨
      (∃ w, tlb_access_scan tlb1 vpn core_id idx tlb1.num_ways 0 = some w ∧
        ∃ i, i < tlb.num_ways ∧ (tlb.entry (idx.getD i 0) i).valid = true ∧
          (tlb.entry (idx.getD i 0) i).tag = vpn ∧
          (tlb.shared = false ∨ (tlb.entry (idx.getD i 0) i).core_id = core_id)) := by
    intro tlb1 h1 h2 h3
    have hent : ∀ a b, tlb1.entry a b = tlb.entry a b := by
      intro a b
      simp only [TLB.entry, h1]
    have htest : ∀ a b, tlb_hit_test tlb1 vpn core_id a b = true ↔
        (tlb.entry a b).valid = true ∧ (tlb.entry a b).tag = vpn ∧
          (tlb.shared = false ∨ (tlb.entry a b).core_id = core_id) := by
      intro a b
      rw [tlb_hit_test_iff, hent, h2]
    rcases tlb_access_scan_spec tlb1 vpn core_id idx tlb1.num_ways 0 with
      ⟨e, hall⟩ | ⟨w, e, _, hw, ht⟩
    · left
      refine ⟨e, ?_⟩
      rintro ⟨i, hi, hc⟩
      have := hall i (Nat.zero_le _) (by omega)
      rw [(htest _ _).mpr hc] at this
      exact absurd this (by simp)
    · right
      exact ⟨w, e, w, by omega, (htest _ _).mp ht⟩
  unfold tlb_access
  rw [if_neg (not_not.mpr hcore)]
  cases is_write
  · have hr : tlb_randomize { tlb with stat_read_access := (tlb.stat_read_access + 1) % 2 ^ 64 }
        vpn core_id = Except.ok idx := hidx
    simp only [Bool.false_eq_true, if_false, hr]
    rcases key { tlb with stat_read_access := (tlb.stat_read_access + 1) % 2 ^ 64 } rfl rfl rfl
      with ⟨e, hno⟩ | ⟨w, e, hyes⟩
    · simp only [e]
      exact ⟨_, _, _, rfl, by simp only [reduceCtorEq, false_iff]; exact hno⟩
    · simp only [e]
      exact ⟨_, _, _, rfl, by simp only [true_iff]; exact hyes⟩
  · have hr : tlb_randomize { tlb with stat_write_access := (tlb.stat_write_access + 1) % 2 ^ 64 }
        vpn core_id = Except.ok idx := hidx
    simp only [if_true, hr]
    rcases key { tlb with stat_write_access := (tlb.stat_write_access + 1) % 2 ^ 64 } rfl rfl rfl
      with ⟨e, hno⟩ | ⟨w, e, hyes⟩
    · simp only [e]
      exact ⟨_, _, _, rfl, by simp only [reduceCtorEq, false_iff]; exact hno⟩
    · simp only [e]
      exact ⟨_, _, _, rfl, by simp only [true_iff]; exact hyes⟩

set_option maxRecDepth 1000000 in
/-- Evaluation of the amended C10 on `sampleTLB`: page 7 hits for core 0, which owns the
entry. -/
theorem tlb_access_hit_iff_witness :
    tlb_access_result sampleTLB 7 false 0 = Except.ok TLBResult.TLB_HIT ∧
    ∃ r pfn t, tlb_access sampleTLB 7 false 0 = Except.ok (r, pfn, t) ∧
      (r = TLBResult.TLB_HIT ↔
        ∃ i, i < sampleTLB.num_ways ∧ (tlb_slot sampleTLB 7 0 i).valid = true ∧
          (tlb_slot sampleTLB 7 0 i).tag = 7 ∧
          (sampleTLB.shared = false ∨ (tlb_slot sampleTLB 7 0 i).core_id = 0)) :=
  ⟨by decide, tlb_access_hit_iff sampleTLB 7 false 0 (by decide)⟩

/-- The loop of tlb_update_rplru keeps the length of the array and changes exactly the
entries of its range, other than `w`, whose state is at most `old`: their state goes up by
one as a `uint8_t`. -/
theorem tlb_update_rplru_loop_spec (w old : Nat) :
    ∀ (k i : Nat) (ways : List TLBEntry),
      (tlb_update_rplru_loop w old k i ways).length = ways.length ∧
      ∀ j, (tlb_update_rplru_loop w old k i ways).getD j TLBEntry.zero =
        if i ≤ j ∧ j < i + k ∧ j ≠ w ∧ j < ways.length ∧
            (ways.getD j TLBEntry.zero).rplru_state ≤ old
        then { ways.getD j TLBEntry.zero with
          rplru_state := ((ways.getD j TLBEntry.zero).rplru_state + 1) % 2 ^ 8 }
        else ways.getD j TLBEntry.zero := by
  intro k
  induction k with
  | zero =>
    intro i ways
    refine ⟨rfl, fun j => ?_⟩
    rw [if_neg (by omega)]
    rfl
  | succ k ih =>
    intro i ways
    unfold tlb_update_rplru_loop
    by_cases hiw : i = w
    · rw [if_pos hiw]
      obtain ⟨hl, hg⟩ := ih (i + 1) ways
      refine ⟨hl, fun j => ?_⟩
      rw [hg j]
      by_cases hc : i + 1 ≤ j ∧ j < i + 1 + k ∧ j ≠ w ∧ j < ways.length ∧
          (ways.getD j TLBEntry.zero).rplru_state ≤ old
      · rw [if_pos hc, if_pos ⟨by omega, by omega, hc.2.2.1, hc.2.2.2.1, hc.2.2.2.2⟩]
      · rw [if_neg hc, if_neg]
        rintro ⟨a, b, c, d, e⟩
        exact hc ⟨by omega, by omega, c, d, e⟩
    · rw [if_neg hiw]
      by_cases hst : (ways.getD i TLBEntry.zero).rplru_state ≤ old
      · rw [if_pos hst]
        obtain ⟨hl, hg⟩ := ih (i + 1) (ways.set i { ways.getD i TLBEntry.zero with
          rplru_state := ((ways.getD i TLBEntry.zero).rplru_state + 1) % 2 ^ 8 })
        refine ⟨by rw [hl, List.length_set], fun j => ?_⟩
        rw [hg j]
        by_cases hji : j = i
        · subst hji
          rw [if_neg (by omega)]
          by_cases hlen : j < ways.length
          · rw [if_pos ⟨le_refl _, by omega, hiw, hlen, hst⟩]
            simp [List.getD_eq_getElem?_getD, List.getElem?_set, hlen]
          · rw [if_neg (fun h => hlen h.2.2.2.1)]
            have hnone : ways[j]? = none := List.getElem?_eq_none (by omega)
            simp [List.getD_eq_getElem?_getD, List.getElem?_set, hlen, hnone]
        · have hij : i ≠ j := fun e => hji e.symm
          have hget : (ways.set i { ways.getD i TLBEntry.zero with
              rplru_state := ((ways.getD i TLBEntry.zero).rplru_state + 1) % 2 ^ 8 }).getD j
                TLBEntry.zero = ways.getD j TLBEntry.zero := by
            simp [List.getD_eq_getElem?_getD, List.getElem?_set, hij]
          rw [hget, List.length_set]
          by_cases hc : i + 1 ≤ j ∧ j < i + 1 + k ∧ j ≠ w ∧ j < ways.length ∧
              (ways.getD j TLBEntry.zero).rplru_state ≤ old
          · rw [if_pos hc, if_pos ⟨by omega, by omega, hc.2.2.1, hc.2.2.2.1, hc.2.2.2.2⟩]
          · rw [if_neg hc, if_neg]
            rintro ⟨a, b, c, d, e⟩
            exact hc ⟨by omega, by omega, c, d, e⟩
      · rw [if_neg hst]
        obtain ⟨hl, hg⟩ := ih (i + 1) ways
        refine ⟨hl, fun j => ?_⟩
        rw [hg j]
        by_cases hji : j = i
        · subst hji
          rw [if_neg (by omega), if_neg (fun h => hst h.2.2.2.2)]
        · by_cases hc : i + 1 ≤ j ∧ j < i + 1 + k ∧ j ≠ w ∧ j < ways.length ∧
              (ways.getD j TLBEntry.zero).rplru_state ≤ old
          · rw [if_pos hc, if_pos ⟨by omega, by omega, hc.2.2.1, hc.2.2.2.1, hc.2.2.2.2⟩]
          · rw [if_neg hc, if_neg]
            rintro ⟨a, b, c, d, e⟩
            exact hc ⟨by omega, by omega, c, d, e⟩

/-- On the values `1, ..., n` (`n ≤ 255`) the state change `rplru_shift old`, for
`1 ≤ old ≤ n`, is a permutation. -/
theorem rplru_shift_perm (n old : Nat) (hn : n ≤ 255) (h1 : 1 ≤ old) (h2 : old ≤ n) :
    ((List.range' 1 n).map (rplru_shift old)).Perm (List.range' 1 n) := by
  have hinj : ∀ x ∈ List.range' 1 n, ∀ y ∈ List.range' 1 n,
      rplru_shift old x = rplru_shift old y → x = y := by
    intro x hx y hy
    rw [List.mem_range'_1] at hx hy
    unfold rplru_shift
    norm_num
    split_ifs <;> omega
  apply (List.perm_ext_iff_of_nodup (List.Nodup.map_on hinj (List.nodup_range' 1 n))
    (List.nodup_range' 1 n)).mpr
  intro a
  simp only [List.mem_map, List.mem_range'_1]
  constructor
  · rintro ⟨x, hx, rfl⟩
    unfold rplru_shift
    norm_num
    split_ifs <;> omega
  · intro ha
    by_cases ha1 : a = 1
    · refine ⟨old, by omega, ?_⟩
      unfold rplru_shift
      rw [if_pos rfl, ha1]
    · by_cases ha2 : a ≤ old
      · refine ⟨a - 1, by omega, ?_⟩
        unfold rplru_shift
        norm_num
        split_ifs <;> omega
      · refine ⟨a, by omega, ?_⟩
        unfold rplru_shift
        norm_num
        split_ifs <;> omega

/-- The list of RPLRU states has one element per way that lies inside the array. -/
theorem rplru_states_length (tlb : TLB) (s : Nat) :
    (rplru_states tlb s).length = min tlb.num_ways (tlb.sets.getD s ⟨[]⟩).ways.length := by
  unfold rplru_states
  rw [List.length_map, List.length_take]

/-- Element `j` of the list of RPLRU states is the state of way `j`. -/
theorem rplru_states_getElem (tlb : TLB) (s j : Nat) (h : j < (rplru_states tlb s).length) :
    (rplru_states tlb s)[j] = (tlb.entry s j).rplru_state := by
  have h2 := h
  rw [rplru_states_length] at h2
  have hj : j < (tlb.sets.getD s ⟨[]⟩).ways.length := by omega
  unfold TLB.entry
  rw [List.getD_eq_getElem?_getD _ j, List.getElem?_eq_getElem hj]
  simp [rplru_states]

/-- C8 (the RPLRU update preserves the permutation): when the RPLRU states of the ways of
physical set `s` form a permutation of `1, ..., num_ways`, with `num_ways ≤ 255`, then for
every way `w < num_ways` the states of the set after `tlb_update_rplru(s, w)` again form a
permutation of `1, ..., num_ways`, way `w` has state 1, and when `w` already had state 1
the whole TLB is unchanged. -/
theorem update_rplru_preserves_permutation (tlb : TLB) (s w : Nat)
    (hperm : rplru_perm tlb s) (hn : tlb.num_ways ≤ 255) (hw : w < tlb.num_ways) :
    rplru_perm (tlb_update_rplru tlb s w) s ∧
    ((tlb_update_rplru tlb s w).entry s w).rplru_state = 1 ∧
    ((tlb.entry s w).rplru_state = 1 → tlb_update_rplru tlb s w = tlb) := by
  have hlenS : (rplru_states tlb s).length = tlb.num_ways := by
    rw [hperm.length_eq, List.length_range']
  have hWn : tlb.num_ways ≤ (tlb.sets.getD s ⟨[]⟩).ways.length := by
    rw [rplru_states_length] at hlenS
    omega
  have hs : s < tlb.sets.length := by
    by_contra hge
    have h0 : tlb.sets.getD s ⟨[]⟩ = ⟨[]⟩ := by
      rw [List.getD_eq_getElem?_getD, List.getElem?_eq_none (by omega)]
      rfl
    rw [h0] at hWn
    simp at hWn
    omega
  by_cases h1 : ((tlb.sets.getD s ⟨[]⟩).ways.getD w TLBEntry.zero).rplru_state = 1
  · have e : tlb_update_rplru tlb s w = tlb := by
      unfold tlb_update_rplru
      rw [if_pos h1]
    rw [e]
    exact ⟨hperm, h1, fun _ => rfl⟩
  · have hwlen : w < (tlb.sets.getD s ⟨[]⟩).ways.length := by omega
    have e : tlb_update_rplru tlb s w = { tlb with sets := tlb.sets.set s (TLBSet.mk
        (tlb_update_rplru_loop w ((tlb.sets.getD s ⟨[]⟩).ways.getD w TLBEntry.zero).rplru_state
          tlb.num_ways 0
          ((tlb.sets.getD s ⟨[]⟩).ways.set w
            { (tlb.sets.getD s ⟨[]⟩).ways.getD w TLBEntry.zero with rplru_state := 1 }))) } := by
      unfold tlb_update_rplru
      rw [if_neg h1]
    obtain ⟨hl2, hg2⟩ := tlb_update_rplru_loop_spec w
      ((tlb.sets.getD s ⟨[]⟩).ways.getD w TLBEntry.zero).rplru_state tlb.num_ways 0
      ((tlb.sets.getD s ⟨[]⟩).ways.set w
        { (tlb.sets.getD s ⟨[]⟩).ways.getD w TLBEntry.zero with rplru_state := 1 })
    generalize hold : ((tlb.sets.getD s ⟨[]⟩).ways.getD w TLBEntry.zero).rplru_state = old at *
    generalize hways2 : tlb_update_rplru_loop w old tlb.num_ways 0
      ((tlb.sets.getD s ⟨[]⟩).ways.set w
        { (tlb.sets.getD s ⟨[]⟩).ways.getD w TLBEntry.zero with rplru_state := 1 }) = ways2 at *
    rw [List.length_set] at hl2
    have hnw : (tlb_update_rplru tlb s w).num_ways = tlb.num_ways := by rw [e]
    have hent : ∀ j, (tlb_update_rplru tlb s w).entry s j = ways2.getD j TLBEntry.zero := by
      intro j
      rw [e]
      simp [TLB.entry, List.getD_eq_getElem?_getD, List.getElem?_set, hs]
    have hW2 : ((tlb_update_rplru tlb s w).sets.getD s ⟨[]⟩).ways = ways2 := by
      rw [e]
      simp [List.getD_eq_getElem?_getD, List.getElem?_set, hs]
    have hnd : (rplru_states tlb s).Nodup := hperm.nodup_iff.mpr (List.nodup_range' 1 _)
    have holdw : (rplru_states tlb s)[w] = old := by
      rw [rplru_states_getElem]
      exact hold
    have hold_mem : old ∈ List.range' 1 tlb.num_ways := by
      rw [← hperm.mem_iff, ← holdw]
      exact List.getElem_mem _
    rw [List.mem_range'_1] at hold_mem
    -- the new state of each way
    have hst : ∀ j, j < tlb.num_ways → (ways2.getD j TLBEntry.zero).rplru_state =
        rplru_shift old (tlb.entry s j).rplru_state := by
      intro j hj
      rw [hg2 j]
      by_cases hjw : j = w
      · subst hjw
        rw [if_neg (fun h => h.2.2.1 rfl)]
        have : (tlb.entry s j).rplru_state = old := hold
        rw [this]
        unfold rplru_shift
        rw [if_pos rfl]
        have hwlen2 : j < (tlb.sets[s]?.getD ⟨[]⟩).ways.length := by
          simpa [List.getD_eq_getElem?_getD] using hwlen
        simp [List.getD_eq_getElem?_getD, List.getElem?_set, hwlen2]
      · have hwj : w ≠ j := fun e => hjw e.symm
        have hget : ((tlb.sets.getD s ⟨[]⟩).ways.set w
            { (tlb.sets.getD s ⟨[]⟩).ways.getD w TLBEntry.zero with rplru_state := 1 }).getD j
              TLBEntry.zero = tlb.entry s j := by
          simp [TLB.entry, List.getD_eq_getElem?_getD, List.getElem?_set, hwj]
        rw [hget]
        have hne : (tlb.entry s j).rplru_state ≠ old := by
          intro heq
          have h3 : (rplru_states tlb s)[j] = (rplru_states tlb s)[w] := by
            rw [holdw, rplru_states_getElem]
            exact heq
          exact hjw ((List.Nodup.getElem_inj_iff hnd).mp h3)
        unfold rplru_shift
        rw [if_neg hne]
        by_cases hle : (tlb.entry s j).rplru_state ≤ old
        · rw [if_pos hle, if_pos ⟨Nat.zero_le _, by omega, hjw, by rw [List.length_set]; omega, hle⟩]
        · rw [if_neg hle, if_neg (fun h => hle h.2.2.2.2)]
    have hlen2 : (rplru_states (tlb_update_rplru tlb s w) s).length = tlb.num_ways := by
      rw [rplru_states_length, hnw, hW2, hl2]
      omega
    have hmap : rplru_states (tlb_update_rplru tlb s w) s =
        (rplru_states tlb s).map (rplru_shift old) := by
      apply List.ext_getElem
      · rw [hlen2, List.length_map, hlenS]
      · intro j hj1 hj2
        rw [rplru_states_getElem, List.getElem_map, rplru_states_getElem, hent]
        exact hst j (by omega)
    refine ⟨?_, ?_, fun h => absurd (hold.symm.trans h) h1⟩
    · unfold rplru_perm
      rw [hmap, hnw]
      exact (List.Perm.map _ hperm).trans
        (rplru_shift_perm tlb.num_ways old hn hold_mem.1 (by omega))
    · rw [hent, hst w hw]
      have : (tlb.entry s w).rplru_state = old := hold
      rw [this]
      unfold rplru_shift
      rw [if_pos rfl]

/-- Evaluation of C8 on `sampleTLB` (states 3, 1, 4, 2): touching way 2 gives 4, 2, 1, 3. -/
theorem update_rplru_preserves_permutation_witness :
    rplru_states (tlb_update_rplru sampleTLB 0 2) 0 = [4, 2, 1, 3] ∧
    rplru_perm (tlb_update_rplru sampleTLB 0 2) 0 ∧
    ((tlb_update_rplru sampleTLB 0 2).entry 0 2).rplru_state = 1 ∧
    ((sampleTLB.entry 0 2).rplru_state = 1 → tlb_update_rplru sampleTLB 0 2 = sampleTLB) :=
  ⟨by decide, update_rplru_preserves_permutation sampleTLB 0 2 (by decide) (by decide)
    (by decide)⟩

end SrcCoat

/-! ## Theorems: DRAM -/

namespace Src

/-- The statistics update does not touch the row buffers. -/
theorem dram_count_row_buffers (dram : DRAM) (w : Bool) (delay : Nat) :
    (dram_count dram w delay).row_buffers = dram.row_buffers := by
  unfold dram_count
  split <;> rfl

/-- The delay of an open-page access, by the state of the addressed row buffer. -/
theorem dram_open_page_delay_eq (M : Mode) (C : Nat) (dram : DRAM) (a : Nat) (w : Bool)
    (hmode : M ≠ Mode.SIM_MODE_B) :
    (dram_access M C DRAMPolicy.OPEN_PAGE dram a w).1 =
      if (dram.row_buffers.getD (dram_bank C a) RowBuffer.zero).valid = true then
        if (dram.row_buffers.getD (dram_bank C a) RowBuffer.zero).row_id = dram_row_index C a
        then 55 else 145
      else 100 := by
  unfold dram_access
  rw [if_neg hmode]
  unfold dram_access_mode_CDEF
  simp only [DELAY_ACT, DELAY_CAS, DELAY_BUS, DELAY_PRE]
  generalize dram.row_buffers.getD (dram_bank C a) RowBuffer.zero = rb
  rcases rb with ⟨v, r⟩
  cases v <;> by_cases hr : r = dram_row_index C a <;> simp [hr]

/-- The row buffers after an open-page access: the addressed bank holds the requested row,
every other bank is as before, and the array keeps its length. -/
theorem dram_open_page_buffers (M : Mode) (C : Nat) (dram : DRAM) (a : Nat) (w : Bool)
    (hmode : M ≠ Mode.SIM_MODE_B) (hlen : dram.row_buffers.length = NUM_BANKS) :
    (dram_access M C DRAMPolicy.OPEN_PAGE dram a w).2.row_buffers.length = NUM_BANKS ∧
    (dram_access M C DRAMPolicy.OPEN_PAGE dram a w).2.row_buffers.getD (dram_bank C a)
      RowBuffer.zero = { valid := true, row_id := dram_row_index C a } ∧
    ∀ b, b ≠ dram_bank C a →
      (dram_access M C DRAMPolicy.OPEN_PAGE dram a w).2.row_buffers.getD b RowBuffer.zero
        = dram.row_buffers.getD b RowBuffer.zero := by
  have hb : dram_bank C a < dram.row_buffers.length := by
    rw [hlen]
    unfold dram_bank NUM_BANKS
    exact Nat.mod_lt _ (by norm_num)
  unfold dram_access
  rw [if_neg hmode]
  unfold dram_access_mode_CDEF
  simp only [dram_count_row_buffers]
  cases hv : (dram.row_buffers.getD (dram_bank C a) RowBuffer.zero).valid
  · simp only [Bool.false_and, Bool.not_false, Bool.false_eq_true, if_false, if_true,
      dram_open_row, List.length_set]
    refine ⟨hlen, ?_, ?_⟩
    · simp [List.getD_eq_getElem?_getD, List.getElem?_set, hb]
    · intro b hne
      have hne2 : dram_bank C a ≠ b := fun e => hne e.symm
      simp [List.getD_eq_getElem?_getD, List.getElem?_set, hne2]
  · by_cases hr : (dram.row_buffers.getD (dram_bank C a) RowBuffer.zero).row_id
        = dram_row_index C a
    · simp only [hr, bne_self_eq_false, Bool.and_false, Bool.not_true, Bool.false_eq_true,
        if_false]
      refine ⟨hlen, ?_, fun b _ => trivial⟩
      rw [← hr, ← hv]
    · have hr2 : ((dram.row_buffers.getD (dram_bank C a) RowBuffer.zero).row_id
          != dram_row_index C a) = true := by simpa using hr
      simp only [hr2, Bool.and_true, Bool.not_true, Bool.false_eq_true, if_false, if_true,
        dram_open_row, List.length_set]
      refine ⟨hlen, ?_, ?_⟩
      · simp [List.getD_eq_getElem?_getD, List.getElem?_set, hb]
      · intro b hne
        have hne2 : dram_bank C a ≠ b := fun e => hne e.symm
        simp [List.getD_eq_getElem?_getD, List.getElem?_set, hne2]

/-- A run of open-page accesses that all go to banks other than `bank` leaves the row buffer
of `bank` as it was. -/
theorem dram_run_other_banks (M : Mode) (C : Nat) (hmode : M ≠ Mode.SIM_MODE_B) (bank : Nat) :
    ∀ (accs : List (Nat × Bool)) (dram : DRAM), dram.row_buffers.length = NUM_BANKS →
      (∀ x ∈ accs, dram_bank C x.1 ≠ bank) →
      (dram_run M C DRAMPolicy.OPEN_PAGE dram accs).row_buffers.length = NUM_BANKS ∧
      (dram_run M C DRAMPolicy.OPEN_PAGE dram accs).row_buffers.getD bank RowBuffer.zero
        = dram.row_buffers.getD bank RowBuffer.zero := by
  intro accs
  induction accs with
  | nil =>
    intro dram hlen _
    exact ⟨hlen, rfl⟩
  | cons x rest ih =>
    intro dram hlen hall
    obtain ⟨h1, _, h3⟩ := dram_open_page_buffers M C dram x.1 x.2 hmode hlen
    obtain ⟨h4, h5⟩ := ih (dram_access M C DRAMPolicy.OPEN_PAGE dram x.1 x.2).2 h1
      (fun y hy => hall y (List.mem_cons_of_mem _ hy))
    unfold dram_run
    refine ⟨h4, ?_⟩
    rw [h5]
    exact h3 bank (fun e => hall x (List.mem_cons_self _ _) e.symm)

/-- C17 (open-page delay): in open-page mode `dram_access` returns 55 = CAS+BUS exactly
when the addressed row buffer is valid and holds the requested row, 100 = ACT+CAS+BUS
exactly when the buffer is invalid, and 145 = PRE+ACT+CAS+BUS exactly when it is valid
with another row; so the delay is one of 55, 100, 145 and never 0. -/
theorem dram_open_page_delay (M : Mode) (C : Nat) (dram : DRAM) (a : Nat) (w : Bool)
    (hmode : M ≠ Mode.SIM_MODE_B) :
    ((dram_access M C DRAMPolicy.OPEN_PAGE dram a w).1 = DELAY_CAS + DELAY_BUS ↔
      ((dram.row_buffers.getD (dram_bank C a) RowBuffer.zero).valid = true ∧
        (dram.row_buffers.getD (dram_bank C a) RowBuffer.zero).row_id = dram_row_index C a)) ∧
    ((dram_access M C DRAMPolicy.OPEN_PAGE dram a w).1 = DELAY_ACT + DELAY_CAS + DELAY_BUS ↔
      (dram.row_buffers.getD (dram_bank C a) RowBuffer.zero).valid = false) ∧
    ((dram_access M C DRAMPolicy.OPEN_PAGE dram a w).1
        = DELAY_PRE + DELAY_ACT + DELAY_CAS + DELAY_BUS ↔
      ((dram.row_buffers.getD (dram_bank C a) RowBuffer.zero).valid = true ∧
        (dram.row_buffers.getD (dram_bank C a) RowBuffer.zero).row_id ≠ dram_row_index C a)) ∧
    ((dram_access M C DRAMPolicy.OPEN_PAGE dram a w).1 = 55 ∨
      (dram_access M C DRAMPolicy.OPEN_PAGE dram a w).1 = 100 ∨
      (dram_access M C DRAMPolicy.OPEN_PAGE dram a w).1 = 145) ∧
    (dram_access M C DRAMPolicy.OPEN_PAGE dram a w).1 ≠ 0 := by
  rw [dram_open_page_delay_eq M C dram a w hmode]
  simp only [DELAY_ACT, DELAY_CAS, DELAY_BUS, DELAY_PRE]
  generalize dram.row_buffers.getD (dram_bank C a) RowBuffer.zero = rb
  rcases rb with ⟨v, r⟩
  cases v <;> by_cases hr : r = dram_row_index C a <;> simp [hr]

/-- Evaluation of C17 on `sampleDRAM` with 64-byte lines: line 1280 is in row 5 of bank 0,
which is open, so the access costs 55. -/
theorem dram_open_page_delay_witness :
    (dram_access Mode.SIM_MODE_C 64 DRAMPolicy.OPEN_PAGE sampleDRAM 1280 false).1 = 55 ∧
    (((dram_access Mode.SIM_MODE_C 64 DRAMPolicy.OPEN_PAGE sampleDRAM 1280 false).1
        = DELAY_CAS + DELAY_BUS ↔
      ((sampleDRAM.row_buffers.getD (dram_bank 64 1280) RowBuffer.zero).valid = true ∧
        (sampleDRAM.row_buffers.getD (dram_bank 64 1280) RowBuffer.zero).row_id
          = dram_row_index 64 1280)) ∧
    ((dram_access Mode.SIM_MODE_C 64 DRAMPolicy.OPEN_PAGE sampleDRAM 1280 false).1
        = DELAY_ACT + DELAY_CAS + DELAY_BUS ↔
      (sampleDRAM.row_buffers.getD (dram_bank 64 1280) RowBuffer.zero).valid = false) ∧
    ((dram_access Mode.SIM_MODE_C 64 DRAMPolicy.OPEN_PAGE sampleDRAM 1280 false).1
        = DELAY_PRE + DELAY_ACT + DELAY_CAS + DELAY_BUS ↔
      ((sampleDRAM.row_buffers.getD (dram_bank 64 1280) RowBuffer.zero).valid = true ∧
        (sampleDRAM.row_buffers.getD (dram_bank 64 1280) RowBuffer.zero).row_id
          ≠ dram_row_index 64 1280)) ∧
    ((dram_access Mode.SIM_MODE_C 64 DRAMPolicy.OPEN_PAGE sampleDRAM 1280 false).1 = 55 ∨
      (dram_access Mode.SIM_MODE_C 64 DRAMPolicy.OPEN_PAGE sampleDRAM 1280 false).1 = 100 ∨
      (dram_access Mode.SIM_MODE_C 64 DRAMPolicy.OPEN_PAGE sampleDRAM 1280 false).1 = 145) ∧
    (dram_access Mode.SIM_MODE_C 64 DRAMPolicy.OPEN_PAGE sampleDRAM 1280 false).1 ≠ 0) :=
  ⟨by decide, dram_open_page_delay Mode.SIM_MODE_C 64 sampleDRAM 1280 false (by decide)⟩

/-- C18 (open-page sequence): let `a` and `a2` map to the same bank and row and `b` to the
same bank and another row.  From any DRAM state with its 16 row buffers, the access to
`a2` returns 55 after an access to `a`, and 145 after an access to `a` and then one to
`b`; both hold with any runs of accesses to other banks in between, and for any read or
write flags. -/
theorem dram_open_page_sequence (M : Mode) (C : Nat) (dram : DRAM) (a a2 b : Nat)
    (w1 w2 w3 : Bool) (others1 others2 : List (Nat × Bool))
    (hmode : M ≠ Mode.SIM_MODE_B) (hlen : dram.row_buffers.length = NUM_BANKS)
    (hbank2 : dram_bank C a2 = dram_bank C a) (hrow2 : dram_row_index C a2 = dram_row_index C a)
    (hbankb : dram_bank C b = dram_bank C a) (hrowb : dram_row_index C b ≠ dram_row_index C a)
    (ho1 : ∀ x ∈ others1, dram_bank C x.1 ≠ dram_bank C a)
    (ho2 : ∀ x ∈ others2, dram_bank C x.1 ≠ dram_bank C a) :
    (dram_access M C DRAMPolicy.OPEN_PAGE
      (dram_run M C DRAMPolicy.OPEN_PAGE
        (dram_access M C DRAMPolicy.OPEN_PAGE dram a w1).2 others1) a2 w2).1 = 55 ∧
    (dram_access M C DRAMPolicy.OPEN_PAGE
      (dram_run M C DRAMPolicy.OPEN_PAGE
        (dram_access M C DRAMPolicy.OPEN_PAGE
          (dram_run M C DRAMPolicy.OPEN_PAGE
            (dram_access M C DRAMPolicy.OPEN_PAGE dram a w1).2 others1) b w3).2 others2)
      a2 w2).1 = 145 := by
  obtain ⟨l1, g1, _⟩ := dram_open_page_buffers M C dram a w1 hmode hlen
  obtain ⟨l2, g2⟩ := dram_run_other_banks M C hmode (dram_bank C a) others1
    (dram_access M C DRAMPolicy.OPEN_PAGE dram a w1).2 l1 ho1
  constructor
  · rw [dram_open_page_delay_eq M C _ a2 w2 hmode, hbank2, g2, g1, hrow2]
    simp
  · obtain ⟨l3, g3, _⟩ := dram_open_page_buffers M C
      (dram_run M C DRAMPolicy.OPEN_PAGE (dram_access M C DRAMPolicy.OPEN_PAGE dram a w1).2
        others1) b w3 hmode l2
    obtain ⟨_, g4⟩ := dram_run_other_banks M C hmode (dram_bank C a) others2 _ l3 ho2
    rw [hbankb] at g3
    rw [dram_open_page_delay_eq M C _ a2 w2 hmode, hbank2, g4, g3, hrow2]
    simp [hrowb]

/-- Evaluation of C18 from `sampleDRAM` with 64-byte lines: lines 0 and 1 are in row 0 of
bank 0, line 256 is in row 1 of bank 0, lines 16 and 40 are in banks 1 and 2. -/
theorem dram_open_page_sequence_witness :
    (dram_access Mode.SIM_MODE_C 64 DRAMPolicy.OPEN_PAGE
      (dram_run Mode.SIM_MODE_C 64 DRAMPolicy.OPEN_PAGE
        (dram_access Mode.SIM_MODE_C 64 DRAMPolicy.OPEN_PAGE sampleDRAM 0 false).2
        [(16, true), (40, false)]) 1 false).1 = 55 ∧
    (dram_access Mode.SIM_MODE_C 64 DRAMPolicy.OPEN_PAGE
      (dram_run Mode.SIM_MODE_C 64 DRAMPolicy.OPEN_PAGE
        (dram_access Mode.SIM_MODE_C 64 DRAMPolicy.OPEN_PAGE
          (dram_run Mode.SIM_MODE_C 64 DRAMPolicy.OPEN_PAGE
            (dram_access Mode.SIM_MODE_C 64 DRAMPolicy.OPEN_PAGE sampleDRAM 0 false).2
            [(16, true), (40, false)]) 256 true).2 [(16, false)])
      1 false).1 = 145 :=
  dram_open_page_sequence Mode.SIM_MODE_C 64 sampleDRAM 0 1 256 false false true
    [(16, true), (40, false)] [(16, false)] (by decide) (by decide) (by decide) (by decide)
    (by decide) (by decide) (by decide) (by decide)

/-- C19 (bank independence): after every open-page `dram_access` on a DRAM with its 16 row
buffers, the row buffer of the addressed bank is valid and holds the requested row, and
the row buffer of every other bank, valid flag and row id, is as before the access. -/
theorem dram_open_page_bank_independence (M : Mode) (C : Nat) (dram : DRAM) (a : Nat)
    (w : Bool) (hmode : M ≠ Mode.SIM_MODE_B) (hlen : dram.row_buffers.length = NUM_BANKS) :
    dram_bank C a < NUM_BANKS ∧
    ((dram_access M C DRAMPolicy.OPEN_PAGE dram a w).2.row_buffers.getD (dram_bank C a)
      RowBuffer.zero).valid = true ∧
    ((dram_access M C DRAMPolicy.OPEN_PAGE dram a w).2.row_buffers.getD (dram_bank C a)
      RowBuffer.zero).row_id = dram_row_index C a ∧
    (∀ b, b ≠ dram_bank C a →
      (dram_access M C DRAMPolicy.OPEN_PAGE dram a w).2.row_buffers.getD b RowBuffer.zero
        = dram.row_buffers.getD b RowBuffer.zero) ∧
    (dram_access M C DRAMPolicy.OPEN_PAGE dram a w).2.row_buffers.length = NUM_BANKS := by
  obtain ⟨l1, g1, h1⟩ := dram_open_page_buffers M C dram a w hmode hlen
  refine ⟨?_, ?_, ?_, h1, l1⟩
  · unfold dram_bank NUM_BANKS
    exact Nat.mod_lt _ (by norm_num)
  · rw [g1]
  · rw [g1]

/-- Evaluation of C19 on `sampleDRAM` with 64-byte lines: line 256 opens row 1 in bank 0. -/
theorem dram_open_page_bank_independence_witness :
    (dram_access Mode.SIM_MODE_D 64 DRAMPolicy.OPEN_PAGE sampleDRAM 256 true).2.row_buffers
      = [⟨true, 1⟩, ⟨true, 0⟩] ++ List.replicate 14 RowBuffer.zero ∧
    (dram_bank 64 256 < NUM_BANKS ∧
    ((dram_access Mode.SIM_MODE_D 64 DRAMPolicy.OPEN_PAGE sampleDRAM 256 true).2.row_buffers.getD
      (dram_bank 64 256) RowBuffer.zero).valid = true ∧
    ((dram_access Mode.SIM_MODE_D 64 DRAMPolicy.OPEN_PAGE sampleDRAM 256 true).2.row_buffers.getD
      (dram_bank 64 256) RowBuffer.zero).row_id = dram_row_index 64 256 ∧
    (∀ b, b ≠ dram_bank 64 256 →
      (dram_access Mode.SIM_MODE_D 64 DRAMPolicy.OPEN_PAGE sampleDRAM 256
          true).2.row_buffers.getD b RowBuffer.zero
        = sampleDRAM.row_buffers.getD b RowBuffer.zero) ∧
    (dram_access Mode.SIM_MODE_D 64 DRAMPolicy.OPEN_PAGE sampleDRAM 256
      true).2.row_buffers.length = NUM_BANKS) :=
  ⟨by decide, dram_open_page_bank_independence Mode.SIM_MODE_D 64 sampleDRAM 256 true
    (by decide) (by decide)⟩

/-- C20 (stateless DRAM modes): in fixed-latency mode (`SIM_MODE_B`, any page policy) and in
closed-page mode, `dram_access` returns 100 cycles whatever the address and the state,
leaves every row buffer unchanged, and adds, as 64-bit additions, 1 to the write access
counter and 100 to the write delay sum when `is_dram_write` holds, and to the read counter
and read delay sum otherwise; the counters of the other kind are unchanged. -/
theorem dram_stateless_modes (M : Mode) (C : Nat) (P : DRAMPolicy) (dram : DRAM) (a : Nat)
    (w : Bool) (h : M = Mode.SIM_MODE_B ∨ P = DRAMPolicy.CLOSE_PAGE) :
    (dram_access M C P dram a w).1 = 100 ∧
    (dram_access M C P dram a w).2.row_buffers = dram.row_buffers ∧
    (w = true →
      (dram_access M C P dram a w).2.stat_write_access = (dram.stat_write_access + 1) % 2 ^ 64 ∧
      (dram_access M C P dram a w).2.stat_write_delay = (dram.stat_write_delay + 100) % 2 ^ 64 ∧
      (dram_access M C P dram a w).2.stat_read_access = dram.stat_read_access ∧
      (dram_access M C P dram a w).2.stat_read_delay = dram.stat_read_delay) ∧
    (w = false →
      (dram_access M C P dram a w).2.stat_read_access = (dram.stat_read_access + 1) % 2 ^ 64 ∧
      (dram_access M C P dram a w).2.stat_read_delay = (dram.stat_read_delay + 100) % 2 ^ 64 ∧
      (dram_access M C P dram a w).2.stat_write_access = dram.stat_write_access ∧
      (dram_access M C P dram a w).2.stat_write_delay = dram.stat_write_delay) := by
  have key : dram_access M C P dram a w = (100, dram_count dram w 100) := by
    unfold dram_access
    by_cases hm : M = Mode.SIM_MODE_B
    · rw [if_pos hm]
      rfl
    · rw [if_neg hm]
      rcases h with h | h
      · exact absurd h hm
      · subst h
        rfl
  rw [key]
  refine ⟨rfl, dram_count_row_buffers _ _ _, ?_, ?_⟩
  · intro hw
    subst hw
    exact ⟨rfl, rfl, rfl, rfl⟩
  · intro hw
    subst hw
    exact ⟨rfl, rfl, rfl, rfl⟩

/-- Evaluation of C20 on `sampleDRAM`: a closed-page write in mode C. -/
theorem dram_stateless_modes_witness :
    (dram_access Mode.SIM_MODE_C 64 DRAMPolicy.CLOSE_PAGE sampleDRAM 256 true).2
      = { sampleDRAM with stat_write_access := 2, stat_write_delay := 200 } ∧
    ((dram_access Mode.SIM_MODE_C 64 DRAMPolicy.CLOSE_PAGE sampleDRAM 256 true).1 = 100 ∧
    (dram_access Mode.SIM_MODE_C 64 DRAMPolicy.CLOSE_PAGE sampleDRAM 256 true).2.row_buffers
      = sampleDRAM.row_buffers ∧
    (true = true →
      (dram_access Mode.SIM_MODE_C 64 DRAMPolicy.CLOSE_PAGE sampleDRAM 256
        true).2.stat_write_access = (sampleDRAM.stat_write_access + 1) % 2 ^ 64 ∧
      (dram_access Mode.SIM_MODE_C 64 DRAMPolicy.CLOSE_PAGE sampleDRAM 256
        true).2.stat_write_delay = (sampleDRAM.stat_write_delay + 100) % 2 ^ 64 ∧
      (dram_access Mode.SIM_MODE_C 64 DRAMPolicy.CLOSE_PAGE sampleDRAM 256
        true).2.stat_read_access = sampleDRAM.stat_read_access ∧
      (dram_access Mode.SIM_MODE_C 64 DRAMPolicy.CLOSE_PAGE sampleDRAM 256
        true).2.stat_read_delay = sampleDRAM.stat_read_delay) ∧
    (true = false →
      (dram_access Mode.SIM_MODE_C 64 DRAMPolicy.CLOSE_PAGE sampleDRAM 256
        true).2.stat_read_access = (sampleDRAM.stat_read_access + 1) % 2 ^ 64 ∧
      (dram_access Mode.SIM_MODE_C 64 DRAMPolicy.CLOSE_PAGE sampleDRAM 256
        true).2.stat_read_delay = (sampleDRAM.stat_read_delay + 100) % 2 ^ 64 ∧
      (dram_access Mode.SIM_MODE_C 64 DRAMPolicy.CLOSE_PAGE sampleDRAM 256
        true).2.stat_write_access = sampleDRAM.stat_write_access ∧
      (dram_access Mode.SIM_MODE_C 64 DRAMPolicy.CLOSE_PAGE sampleDRAM 256
        true).2.stat_write_delay = sampleDRAM.stat_write_delay)) :=
  ⟨by decide, dram_stateless_modes Mode.SIM_MODE_C 64 DRAMPolicy.CLOSE_PAGE sampleDRAM 256 true
    (Or.inr rfl)⟩

end Src

/-! ## Theorems: secure TLB, access and install -/

namespace SrcCoat

/-- The lookup loop reads only the sets and the shared flag of the TLB. -/
theorem tlb_access_scan_congr (tlb1 tlb : TLB) (vpn core_id : Nat) (idx : List Nat)
    (h1 : tlb1.sets = tlb.sets) (h2 : tlb1.shared = tlb.shared) :
    ∀ (k i : Nat), tlb_access_scan tlb1 vpn core_id idx k i
      = tlb_access_scan tlb vpn core_id idx k i := by
  intro k
  induction k with
  | zero => intro i; rfl
  | succ k ih =>
    intro i
    unfold tlb_access_scan
    rw [ih (i + 1)]
    simp only [tlb_hit_test, TLB.entry, h1, h2]

/-- What tlb_access returns when the lookup loop finds no way: MISS, no frame, and a state
that differs from the old one in the statistics and in the state of the requesting core. -/
theorem tlb_access_of_scan_none (tlb : TLB) (vpn : Nat) (w : Bool) (c : Nat) (idx : List Nat)
    (hcore : c < tlb.num_cores) (hidx : tlb_randomize tlb vpn c = Except.ok idx)
    (hscan : tlb_access_scan tlb vpn c idx tlb.num_ways 0 = none) :
    ∃ t, tlb_access tlb vpn w c = Except.ok (TLBResult.TLB_MISS, none, t) ∧
      t.sets = tlb.sets ∧ t.num_cores = tlb.num_cores ∧
      t.core_states = tlb.core_states.set c (miss_core_state (tlb.core c)) ∧
      t.stat_rerand_count =
        (if ((tlb.core c).miss_counter + 1) % 2 ^ 64 ≥ (tlb.core c).miss_threshold
          then (tlb.stat_rerand_count + 1) % 2 ^ 64 else tlb.stat_rerand_count) := by
  unfold tlb_access
  rw [if_neg (not_not.mpr hcore)]
  cases w
  · have hr : tlb_randomize { tlb with stat_read_access := (tlb.stat_read_access + 1) % 2 ^ 64 }
        vpn c = Except.ok idx := hidx
    have hs := tlb_access_scan_congr
      { tlb with stat_read_access := (tlb.stat_read_access + 1) % 2 ^ 64 } tlb vpn c idx rfl rfl
      tlb.num_ways 0
    simp only [Bool.false_eq_true, if_false, hr, hs, hscan]
    refine ⟨_, rfl, rfl, rfl, ?_, ?_⟩
    · simp only [miss_core_state, TLB.core, ge_iff_le, decide_eq_true_eq]
    · simp only [TLB.core, ge_iff_le, decide_eq_true_eq]
  · have hr : tlb_randomize { tlb with stat_write_access := (tlb.stat_write_access + 1) % 2 ^ 64 }
        vpn c = Except.ok idx := hidx
    have hs := tlb_access_scan_congr
      { tlb with stat_write_access := (tlb.stat_write_access + 1) % 2 ^ 64 } tlb vpn c idx rfl rfl
      tlb.num_ways 0
    simp only [if_true, hr, hs, hscan]
    refine ⟨_, rfl, rfl, rfl, ?_, ?_⟩
    · simp only [miss_core_state, TLB.core, ge_iff_le, decide_eq_true_eq]
    · simp only [TLB.core, ge_iff_le, decide_eq_true_eq]

/-- What tlb_access returns when the lookup loop finds way `i`: HIT, the frame stored in
the slot, and the state with the access counted and the RPLRU state of the slot
refreshed. -/
theorem tlb_access_of_scan_some (tlb : TLB) (vpn : Nat) (w : Bool) (c : Nat) (idx : List Nat)
    (i : Nat) (hcore : c < tlb.num_cores) (hidx : tlb_randomize tlb vpn c = Except.ok idx)
    (hscan : tlb_access_scan tlb vpn c idx tlb.num_ways 0 = some i) :
    ∃ t1 : TLB, t1.sets = tlb.sets ∧ t1.num_ways = tlb.num_ways ∧
      tlb_access tlb vpn w c = Except.ok (TLBResult.TLB_HIT,
        some ((tlb_update_rplru t1 (idx.getD i 0) i).entry (idx.getD i 0) i).pfn,
        tlb_update_rplru t1 (idx.getD i 0) i) := by
  unfold tlb_access
  rw [if_neg (not_not.mpr hcore)]
  cases w
  · have hr : tlb_randomize { tlb with stat_read_access := (tlb.stat_read_access + 1) % 2 ^ 64 }
        vpn c = Except.ok idx := hidx
    have hs := tlb_access_scan_congr
      { tlb with stat_read_access := (tlb.stat_read_access + 1) % 2 ^ 64 } tlb vpn c idx rfl rfl
      tlb.num_ways 0
    simp only [Bool.false_eq_true, if_false, hr, hs, hscan]
    exact ⟨{ tlb with stat_read_access := (tlb.stat_read_access + 1) % 2 ^ 64 }, rfl, rfl, rfl⟩
  · have hr : tlb_randomize { tlb with stat_write_access := (tlb.stat_write_access + 1) % 2 ^ 64 }
        vpn c = Except.ok idx := hidx
    have hs := tlb_access_scan_congr
      { tlb with stat_write_access := (tlb.stat_write_access + 1) % 2 ^ 64 } tlb vpn c idx rfl rfl
      tlb.num_ways 0
    simp only [if_true, hr, hs, hscan]
    exact ⟨{ tlb with stat_write_access := (tlb.stat_write_access + 1) % 2 ^ 64 }, rfl, rfl, rfl⟩

/-- The state after an access that returned MISS. -/
theorem tlb_access_miss_effect (tlb : TLB) (vpn : Nat) (w : Bool) (c : Nat)
    (h : tlb_access_result tlb vpn w c = Except.ok TLBResult.TLB_MISS) :
    c < tlb.num_cores ∧
    (tlb_access_state tlb vpn w c).sets = tlb.sets ∧
    (tlb_access_state tlb vpn w c).num_cores = tlb.num_cores ∧
    (tlb_access_state tlb vpn w c).core_states
      = tlb.core_states.set c (miss_core_state (tlb.core c)) ∧
    (tlb_access_state tlb vpn w c).stat_rerand_count =
      (if ((tlb.core c).miss_counter + 1) % 2 ^ 64 ≥ (tlb.core c).miss_threshold
        then (tlb.stat_rerand_count + 1) % 2 ^ 64 else tlb.stat_rerand_count) := by
  have hcore : c < tlb.num_cores := by
    by_contra hn
    unfold tlb_access_result tlb_access at h
    rw [if_pos hn] at h
    exact absurd h (by simp [Except.map])
  obtain ⟨idx, hidx⟩ := tlb_randomize_ok tlb vpn c hcore
  cases hscan : tlb_access_scan tlb vpn c idx tlb.num_ways 0 with
  | some i =>
    obtain ⟨t1, _, _, e⟩ := tlb_access_of_scan_some tlb vpn w c idx i hcore hidx hscan
    unfold tlb_access_result at h
    rw [e] at h
    exact absurd h (by simp [Except.map])
  | none =>
    obtain ⟨t, e, h1, h2, h3, h4⟩ := tlb_access_of_scan_none tlb vpn w c idx hcore hidx hscan
    unfold tlb_access_state
    rw [e]
    exact ⟨hcore, h1, h2, h3, h4⟩

/-- Reading the state of a core after writing the state of core `c`. -/
theorem core_set (tlb : TLB) (c d : Nat) (cs : TLBcoatCoreState)
    (hc : c < tlb.core_states.length) :
    (tlb.core_states.set c cs).getD d TLBcoatCoreState.zero
      = if d = c then cs else tlb.core d := by
  unfold TLB.core
  by_cases h : d = c
  · subst h
    simp [List.getD_eq_getElem?_getD, List.getElem?_set, hc]
  · have h2 : c ≠ d := fun e => h e.symm
    simp [List.getD_eq_getElem?_getD, List.getElem?_set, h, h2]

/-- A run of misses of core `c` leaves the state of every other core as it was. -/
theorem tlb_misses_other_cores (c : Nat) :
    ∀ (accs : List (Nat × Bool)) (tlb : TLB), c < tlb.core_states.length →
      tlb_all_miss c tlb accs = true →
      (tlb_access_run c tlb accs).core_states.length = tlb.core_states.length ∧
      ∀ d, d ≠ c → (tlb_access_run c tlb accs).core d = tlb.core d := by
  intro accs
  induction accs with
  | nil =>
    intro tlb _ _
    exact ⟨rfl, fun _ _ => rfl⟩
  | cons a rest ih =>
    intro tlb hc hall
    unfold tlb_all_miss at hall
    rw [Bool.and_eq_true, decide_eq_true_eq] at hall
    obtain ⟨_, _, _, h3, _⟩ := tlb_access_miss_effect tlb a.1 a.2 c hall.1
    have hlen : (tlb_access_state tlb a.1 a.2 c).core_states.length = tlb.core_states.length := by
      rw [h3, List.length_set]
    obtain ⟨i1, i2⟩ := ih (tlb_access_state tlb a.1 a.2 c) (by rw [hlen]; exact hc) hall.2
    unfold tlb_access_run
    refine ⟨by rw [i1, hlen], ?_⟩
    intro d hd
    rw [i2 d hd]
    show (tlb_access_state tlb a.1 a.2 c).core_states.getD d TLBcoatCoreState.zero = _
    rw [h3, core_set tlb c d _ hc, if_neg hd]

/-- A run of misses of core `c` that keeps its miss counter below the threshold only counts
the misses: rid, threshold and the re-randomization count stay. -/
theorem tlb_misses_below_threshold (c : Nat) :
    ∀ (accs : List (Nat × Bool)) (tlb : TLB), c < tlb.core_states.length →
      tlb_all_miss c tlb accs = true →
      (tlb.core c).miss_counter + accs.length < (tlb.core c).miss_threshold →
      (tlb.core c).miss_threshold < 2 ^ 64 →
      (tlb_access_run c tlb accs).core c =
        { miss_counter := (tlb.core c).miss_counter + accs.length, rid := (tlb.core c).rid,
          miss_threshold := (tlb.core c).miss_threshold } ∧
      (tlb_access_run c tlb accs).stat_rerand_count = tlb.stat_rerand_count := by
  intro accs
  induction accs with
  | nil =>
    intro tlb _ _ _ _
    exact ⟨rfl, rfl⟩
  | cons a rest ih =>
    intro tlb hc hall hlt h64
    unfold tlb_all_miss at hall
    rw [Bool.and_eq_true, decide_eq_true_eq] at hall
    obtain ⟨_, _, _, h3, h4⟩ := tlb_access_miss_effect tlb a.1 a.2 c hall.1
    rw [List.length_cons] at hlt
    have hmod : ((tlb.core c).miss_counter + 1) % 2 ^ 64 = (tlb.core c).miss_counter + 1 :=
      Nat.mod_eq_of_lt (by omega)
    have hno : ¬ ((tlb.core c).miss_counter + 1) % 2 ^ 64 ≥ (tlb.core c).miss_threshold := by
      rw [hmod]
      omega
    have hcs : (tlb_access_state tlb a.1 a.2 c).core c =
        { miss_counter := (tlb.core c).miss_counter + 1, rid := (tlb.core c).rid,
          miss_threshold := (tlb.core c).miss_threshold } := by
      show (tlb_access_state tlb a.1 a.2 c).core_states.getD c TLBcoatCoreState.zero = _
      rw [h3, core_set tlb c c _ hc, if_pos rfl]
      unfold miss_core_state
      rw [if_neg hno, hmod]
    have hlen : (tlb_access_state tlb a.1 a.2 c).core_states.length = tlb.core_states.length := by
      rw [h3, List.length_set]
    obtain ⟨i1, i2⟩ := ih (tlb_access_state tlb a.1 a.2 c) (by rw [hlen]; exact hc) hall.2
      (by rw [hcs]; simp only; omega) (by rw [hcs]; exact h64)
    unfold tlb_access_run
    rw [i1, i2, h4, if_neg hno, hcs, List.length_cons]
    refine ⟨?_, rfl⟩
    simp only [TLBcoatCoreState.mk.injEq, and_true]
    omega

/-- A prefix of a run of misses is a run of misses. -/
theorem tlb_all_miss_take (c : Nat) :
    ∀ (accs : List (Nat × Bool)) (tlb : TLB) (k : Nat), tlb_all_miss c tlb accs = true →
      tlb_all_miss c tlb (accs.take k) = true := by
  intro accs
  induction accs with
  | nil =>
    intro tlb k _
    simp [tlb_all_miss]
  | cons a rest ih =>
    intro tlb k hall
    cases k with
    | zero => simp [tlb_all_miss]
    | succ k =>
      unfold tlb_all_miss at hall
      rw [Bool.and_eq_true] at hall
      rw [List.take_succ_cons]
      unfold tlb_all_miss
      rw [Bool.and_eq_true]
      exact ⟨hall.1, ih _ k hall.2⟩

/-- Running a list and then one more access. -/
theorem tlb_access_run_append (c : Nat) (last : Nat × Bool) :
    ∀ (accs : List (Nat × Bool)) (tlb : TLB),
      tlb_access_run c tlb (accs ++ [last])
        = tlb_access_state (tlb_access_run c tlb accs) last.1 last.2 c := by
  intro accs
  induction accs with
  | nil => intro tlb; rfl
  | cons a rest ih =>
    intro tlb
    rw [List.cons_append]
    unfold tlb_access_run
    exact ih _

/-- A run of misses followed by a miss is a run of misses. -/
theorem tlb_all_miss_append (c : Nat) (last : Nat × Bool) :
    ∀ (accs : List (Nat × Bool)) (tlb : TLB), tlb_all_miss c tlb accs = true →
      tlb_access_result (tlb_access_run c tlb accs) last.1 last.2 c
        = Except.ok TLBResult.TLB_MISS →
      tlb_all_miss c tlb (accs ++ [last]) = true := by
  intro accs
  induction accs with
  | nil =>
    intro tlb _ hlast
    simp only [List.nil_append, tlb_all_miss, Bool.and_true, decide_eq_true_eq]
    exact hlast
  | cons a rest ih =>
    intro tlb hall hlast
    unfold tlb_all_miss at hall
    rw [Bool.and_eq_true] at hall
    rw [List.cons_append]
    unfold tlb_all_miss
    rw [Bool.and_eq_true]
    exact ⟨hall.1, ih _ hall.2 hlast⟩

/-- C11 (re-randomization cadence): let core `c` have miss counter 0 and miss threshold
`T ≥ 1`, and let `T` consecutive accesses of `c` (the `T - 1` of `accs`, then `last`) all
return MISS.  After the first `k ≤ T - 1` of them the state of `c` is miss counter `k`,
the old rid and threshold, and the re-randomization count is the old one; after the
`T`-th the miss counter is 0, the rid and the re-randomization count have gone up by one
(as 64-bit counters) and the threshold is `T`; after every prefix of the run the state of
every other core is as at the start. -/
theorem rerandomization_cadence (tlb : TLB) (c T : Nat) (accs : List (Nat × Bool))
    (last : Nat × Bool)
    (hcs : tlb.core_states.length = tlb.num_cores) (hcore : c < tlb.num_cores)
    (hcnt : (tlb.core c).miss_counter = 0) (hT : (tlb.core c).miss_threshold = T)
    (hT1 : 1 ≤ T) (hT64 : T < 2 ^ 64) (hlen : accs.length = T - 1)
    (hall : tlb_all_miss c tlb accs = true)
    (hlast : tlb_access_result (tlb_access_run c tlb accs) last.1 last.2 c
      = Except.ok TLBResult.TLB_MISS) :
    (∀ k, k ≤ T - 1 →
      (tlb_access_run c tlb (accs.take k)).core c =
        { miss_counter := k, rid := (tlb.core c).rid, miss_threshold := T } ∧
      (tlb_access_run c tlb (accs.take k)).stat_rerand_count = tlb.stat_rerand_count) ∧
    (tlb_access_run c tlb (accs ++ [last])).core c =
      { miss_counter := 0, rid := ((tlb.core c).rid + 1) % 2 ^ 64, miss_threshold := T } ∧
    (tlb_access_run c tlb (accs ++ [last])).stat_rerand_count
      = (tlb.stat_rerand_count + 1) % 2 ^ 64 ∧
    (∀ k d, d ≠ c → (tlb_access_run c tlb ((accs ++ [last]).take k)).core d = tlb.core d) := by
  have hc : c < tlb.core_states.length := by rw [hcs]; exact hcore
  have hpre : ∀ k, k ≤ T - 1 →
      (tlb_access_run c tlb (accs.take k)).core c =
        { miss_counter := k, rid := (tlb.core c).rid, miss_threshold := T } ∧
      (tlb_access_run c tlb (accs.take k)).stat_rerand_count = tlb.stat_rerand_count := by
    intro k hk
    have hl : (accs.take k).length = k := by
      rw [List.length_take]
      omega
    obtain ⟨h1, h2⟩ := tlb_misses_below_threshold c (accs.take k) tlb hc
      (tlb_all_miss_take c accs tlb k hall) (by rw [hcnt, hT, hl]; omega) (by rw [hT]; exact hT64)
    rw [hcnt, hT, hl, Nat.zero_add] at h1
    exact ⟨h1, h2⟩
  refine ⟨hpre, ?_, ?_, ?_⟩
  · obtain ⟨h1, _⟩ := hpre (T - 1) (le_refl _)
    rw [← hlen, List.take_length] at h1
    obtain ⟨_, _, _, h3, _⟩ := tlb_access_miss_effect _ last.1 last.2 c hlast
    obtain ⟨hl2, _⟩ := tlb_misses_other_cores c accs tlb hc hall
    rw [tlb_access_run_append]
    show (tlb_access_state _ last.1 last.2 c).core_states.getD c TLBcoatCoreState.zero = _
    rw [h3, core_set _ c c _ (by rw [hl2]; exact hc), if_pos rfl, h1]
    unfold miss_core_state
    have hmod : (accs.length + 1) % 2 ^ 64 = T := by
      rw [hlen]
      exact Nat.mod_eq_of_lt (by omega) |>.trans (by omega)
    simp only [hmod, ge_iff_le, le_refl, if_true]
  · obtain ⟨h1, h2⟩ := hpre (T - 1) (le_refl _)
    rw [← hlen, List.take_length] at h1 h2
    obtain ⟨_, _, _, _, h4⟩ := tlb_access_miss_effect _ last.1 last.2 c hlast
    rw [tlb_access_run_append, h4, h1, h2]
    have hmod : (accs.length + 1) % 2 ^ 64 = T := by
      rw [hlen]
      exact Nat.mod_eq_of_lt (by omega) |>.trans (by omega)
    simp only [hmod, ge_iff_le, le_refl, if_true]
  · intro k d hd
    exact (tlb_misses_other_cores c _ tlb hc
      (tlb_all_miss_take c _ tlb k (tlb_all_miss_append c last accs tlb hall hlast))).2 d hd

set_option maxRecDepth 1000000 in
/-- Evaluation of C11 on the TLB that `tlb_new` returns for 16 entries, 4 ways and 2 cores
(threshold 4): the first accesses of core 1 to pages 0, 1, 2, 3 all miss. -/
theorem rerandomization_cadence_witness :
    (tlb_access_run 1 (tlb_new 16 16 4 4096 false 2) [(0, false), (1, true), (2, false)]).core 1
      = { miss_counter := 3, rid := 0, miss_threshold := 4 } ∧
    ((∀ k, k ≤ 4 - 1 →
      (tlb_access_run 1 (tlb_new 16 16 4 4096 false 2)
          ([(0, false), (1, true), (2, false)].take k)).core 1 =
        { miss_counter := k, rid := ((tlb_new 16 16 4 4096 false 2).core 1).rid,
          miss_threshold := 4 } ∧
      (tlb_access_run 1 (tlb_new 16 16 4 4096 false 2)
          ([(0, false), (1, true), (2, false)].take k)).stat_rerand_count
        = (tlb_new 16 16 4 4096 false 2).stat_rerand_count) ∧
    (tlb_access_run 1 (tlb_new 16 16 4 4096 false 2)
        ([(0, false), (1, true), (2, false)] ++ [(3, false)])).core 1 =
      { miss_counter := 0, rid := (((tlb_new 16 16 4 4096 false 2).core 1).rid + 1) % 2 ^ 64,
        miss_threshold := 4 } ∧
    (tlb_access_run 1 (tlb_new 16 16 4 4096 false 2)
        ([(0, false), (1, true), (2, false)] ++ [(3, false)])).stat_rerand_count
      = ((tlb_new 16 16 4 4096 false 2).stat_rerand_count + 1) % 2 ^ 64 ∧
    (∀ k d, d ≠ 1 →
      (tlb_access_run 1 (tlb_new 16 16 4 4096 false 2)
          (([(0, false), (1, true), (2, false)] ++ [(3, false)]).take k)).core d
        = (tlb_new 16 16 4 4096 false 2).core d)) :=
  ⟨by decide, rerandomization_cadence (tlb_new 16 16 4 4096 false 2) 1 4
    [(0, false), (1, true), (2, false)] (3, false) (by decide) (by decide) (by decide)
    (by decide) (by decide) (by decide) (by decide) (by decide) (by decide)⟩

/-- The array that tlb_randomize returns: one index per way, each the masked shift of the
cipher output, and each below `num_sets` when there is at least one set. -/
theorem tlb_randomize_indices (tlb : TLB) (vpn c : Nat) (hcore : c < tlb.num_cores) :
    ∃ idx, tlb_randomize tlb vpn c = Except.ok idx ∧ idx.length = tlb.num_ways ∧
      ∀ i, i < tlb.num_ways →
        idx.getD i 0 =
          (tlb_prince_encrypt vpn (tlb.prince_key ^^^ c ^^^ (tlb.core c).rid) >>> (i * 4))
            &&& ((tlb.num_sets + 2 ^ 64 - 1) % 2 ^ 64) ∧
        (1 ≤ tlb.num_sets → idx.getD i 0 < tlb.num_sets) := by
  unfold tlb_randomize
  rw [if_pos hcore]
  refine ⟨_, rfl, by simp, ?_⟩
  intro i hi
  have hget : ((List.range tlb.num_ways).map fun i =>
      (tlb_prince_encrypt vpn (tlb.prince_key ^^^ c ^^^
        (tlb.core_states.getD c TLBcoatCoreState.zero).rid) >>> (i * 4))
        &&& ((tlb.num_sets + 2 ^ 64 - 1) % 2 ^ 64)).getD i 0 =
      (tlb_prince_encrypt vpn (tlb.prince_key ^^^ c ^^^ (tlb.core c).rid) >>> (i * 4))
        &&& ((tlb.num_sets + 2 ^ 64 - 1) % 2 ^ 64) := by
    simp [List.getD_eq_getElem?_getD, List.getElem?_map, List.getElem?_range hi, TLB.core]
  rw [hget]
  refine ⟨rfl, ?_⟩
  intro h1
  have hle := @Nat.and_le_right
    (tlb_prince_encrypt vpn (tlb.prince_key ^^^ c ^^^ (tlb.core c).rid) >>> (i * 4))
    ((tlb.num_sets + 2 ^ 64 - 1) % 2 ^ 64)
  have hm : (tlb.num_sets + 2 ^ 64 - 1) % 2 ^ 64 ≤ tlb.num_sets - 1 := by
    have e : tlb.num_sets + 2 ^ 64 - 1 = (tlb.num_sets - 1) + 2 ^ 64 := by omega
    rw [e, Nat.add_mod_right]
    exact Nat.mod_le _ _
  omega

/-- C13 (randomized mapping): for `core_id < num_cores` and `num_ways ≤ 16`, tlb_randomize
returns one set index per way, `set_indices[i] = (r >> 4i) & (num_sets - 1)` with the
64-bit subtraction, where `r = tlb_prince_encrypt(vpn, prince_key ^ core_id ^ rid)` for
the rid of the requesting core; when `1 ≤ num_sets < 2^64` the mask is `num_sets - 1` and
every index is below `num_sets`, whether `num_sets` is a power of two or not. -/
theorem tlb_randomize_mapping (tlb : TLB) (vpn c : Nat) (hcore : c < tlb.num_cores)
    (_hways : tlb.num_ways ≤ 16) (h64 : tlb.num_sets < 2 ^ 64) :
    ∃ idx, tlb_randomize tlb vpn c = Except.ok idx ∧ idx.length = tlb.num_ways ∧
      ∀ i, i < tlb.num_ways →
        idx.getD i 0 =
          (tlb_prince_encrypt vpn (tlb.prince_key ^^^ c ^^^ (tlb.core c).rid) >>> (4 * i))
            &&& ((tlb.num_sets + 2 ^ 64 - 1) % 2 ^ 64) ∧
        (1 ≤ tlb.num_sets →
          idx.getD i 0 =
            (tlb_prince_encrypt vpn (tlb.prince_key ^^^ c ^^^ (tlb.core c).rid) >>> (4 * i))
              &&& (tlb.num_sets - 1) ∧
          idx.getD i 0 < tlb.num_sets) := by
  obtain ⟨idx, h1, h2, h3⟩ := tlb_randomize_indices tlb vpn c hcore
  refine ⟨idx, h1, h2, ?_⟩
  intro i hi
  obtain ⟨e, hlt⟩ := h3 i hi
  rw [Nat.mul_comm] at e
  refine ⟨e, fun hs => ⟨?_, hlt hs⟩⟩
  have hm : (tlb.num_sets + 2 ^ 64 - 1) % 2 ^ 64 = tlb.num_sets - 1 := by
    have e2 : tlb.num_sets + 2 ^ 64 - 1 = (tlb.num_sets - 1) + 2 ^ 64 := by omega
    rw [e2, Nat.add_mod_right]
    exact Nat.mod_eq_of_lt (by omega)
  rw [e, hm]

set_option maxRecDepth 1000000 in
/-- Evaluation of C13 on the TLB that `tlb_new` returns for 12 entries and 4 ways (3 sets,
mask 2): page 5 of core 0 gets the set indices 2, 0, 0, 0. -/
theorem tlb_randomize_mapping_witness :
    tlb_randomize (tlb_new 16 12 4 4096 false 1) 5 0 = Except.ok [2, 0, 0, 0] ∧
    ∃ idx, tlb_randomize (tlb_new 16 12 4 4096 false 1) 5 0 = Except.ok idx ∧
      idx.length = (tlb_new 16 12 4 4096 false 1).num_ways ∧
      ∀ i, i < (tlb_new 16 12 4 4096 false 1).num_ways →
        idx.getD i 0 =
          (tlb_prince_encrypt 5 ((tlb_new 16 12 4 4096 false 1).prince_key ^^^ 0 ^^^
            ((tlb_new 16 12 4 4096 false 1).core 0).rid) >>> (4 * i))
            &&& (((tlb_new 16 12 4 4096 false 1).num_sets + 2 ^ 64 - 1) % 2 ^ 64) ∧
        (1 ≤ (tlb_new 16 12 4 4096 false 1).num_sets →
          idx.getD i 0 =
            (tlb_prince_encrypt 5 ((tlb_new 16 12 4 4096 false 1).prince_key ^^^ 0 ^^^
              ((tlb_new 16 12 4 4096 false 1).core 0).rid) >>> (4 * i))
              &&& ((tlb_new 16 12 4 4096 false 1).num_sets - 1) ∧
          idx.getD i 0 < (tlb_new 16 12 4 4096 false 1).num_sets) :=
  ⟨by decide, tlb_randomize_mapping (tlb_new 16 12 4 4096 false 1) 5 0 (by decide) (by decide)
    (by decide)⟩

/-- Reading back the entry just written, when set and way are inside the arrays. -/
theorem entry_setEntry_same (tlb : TLB) (s i : Nat) (e : TLBEntry) (hs : s < tlb.sets.length)
    (hi : i < (tlb.sets.getD s ⟨[]⟩).ways.length) : (tlb.setEntry s i e).entry s i = e := by
  simp only [List.getD_eq_getElem?_getD, List.getElem?_eq_getElem hs, Option.getD_some] at hi
  simp [TLB.entry, TLB.setEntry, List.getD_eq_getElem?_getD, List.getElem?_set, hs, hi]

/-- A write to one slot leaves every other slot of the TLB as it was. -/
theorem entry_setEntry_other (tlb : TLB) (s i : Nat) (e : TLBEntry) (s2 i2 : Nat)
    (h : s2 ≠ s ∨ i2 ≠ i) : (tlb.setEntry s i e).entry s2 i2 = tlb.entry s2 i2 := by
  by_cases hs : s2 = s
  · subst hs
    have hi : i ≠ i2 := by
      rcases h with h | h
      · exact absurd rfl h
      · exact fun e => h e.symm
    by_cases hlen : s2 < tlb.sets.length
    · simp [TLB.entry, TLB.setEntry, List.getD_eq_getElem?_getD, List.getElem?_set, hlen, hi]
    · have hnone : tlb.sets[s2]? = none := List.getElem?_eq_none (by omega)
      simp [TLB.entry, TLB.setEntry, List.getD_eq_getElem?_getD, List.getElem?_set, hlen,
        hnone]
  · have hs2 : s ≠ s2 := fun e => hs e.symm
    simp [TLB.entry, TLB.setEntry, List.getD_eq_getElem?_getD, List.getElem?_set, hs2]

/-- A write to a slot keeps the length of the array of its set. -/
theorem setEntry_ways_length (tlb : TLB) (s i : Nat) (e : TLBEntry) (hs : s < tlb.sets.length) :
    ((tlb.setEntry s i e).sets.getD s ⟨[]⟩).ways.length
      = (tlb.sets.getD s ⟨[]⟩).ways.length := by
  simp [TLB.setEntry, List.getD_eq_getElem?_getD, List.getElem?_set, hs]

/-- The two cases of tlb_update_rplru. -/
theorem tlb_update_rplru_cases (tlb : TLB) (s w : Nat) :
    (((tlb.sets.getD s ⟨[]⟩).ways.getD w TLBEntry.zero).rplru_state = 1 ∧
      tlb_update_rplru tlb s w = tlb) ∨
    (((tlb.sets.getD s ⟨[]⟩).ways.getD w TLBEntry.zero).rplru_state ≠ 1 ∧
      tlb_update_rplru tlb s w = { tlb with sets := tlb.sets.set s (TLBSet.mk
        (tlb_update_rplru_loop w ((tlb.sets.getD s ⟨[]⟩).ways.getD w TLBEntry.zero).rplru_state
          tlb.num_ways 0
          ((tlb.sets.getD s ⟨[]⟩).ways.set w
            { (tlb.sets.getD s ⟨[]⟩).ways.getD w TLBEntry.zero with rplru_state := 1 }))) }) := by
  by_cases h1 : ((tlb.sets.getD s ⟨[]⟩).ways.getD w TLBEntry.zero).rplru_state = 1
  · left
    refine ⟨h1, ?_⟩
    unfold tlb_update_rplru
    rw [if_pos h1]
  · right
    refine ⟨h1, ?_⟩
    unfold tlb_update_rplru
    rw [if_neg h1]

/-- On the array of one set, the RPLRU update changes nothing but RPLRU states. -/
theorem rplru_ways_fields (w old n : Nat) (W : List TLBEntry) (i : Nat) :
    ∃ st, (tlb_update_rplru_loop w old n 0
        (W.set w { W.getD w TLBEntry.zero with rplru_state := 1 })).getD i TLBEntry.zero
      = { W.getD i TLBEntry.zero with rplru_state := st } := by
  rw [(tlb_update_rplru_loop_spec w old n 0 _).2 i]
  have h1 : ∃ st1, (W.set w { W.getD w TLBEntry.zero with rplru_state := 1 }).getD i
      TLBEntry.zero = { W.getD i TLBEntry.zero with rplru_state := st1 } := by
    by_cases hiw : i = w
    · subst hiw
      by_cases hlen : i < W.length
      · exact ⟨1, by simp [List.getD_eq_getElem?_getD, List.getElem?_set, hlen]⟩
      · have hnone : W[i]? = none := List.getElem?_eq_none (by omega)
        exact ⟨0, by simp [List.getD_eq_getElem?_getD, List.getElem?_set, hlen, hnone,
          TLBEntry.zero]⟩
    · have hwi : w ≠ i := fun e => hiw e.symm
      exact ⟨(W.getD i TLBEntry.zero).rplru_state,
        by simp [List.getD_eq_getElem?_getD, List.getElem?_set, hwi]⟩
  obtain ⟨st1, e1⟩ := h1
  split
  · exact ⟨_, by rw [e1]⟩
  · exact ⟨st1, e1⟩

/-- The RPLRU update changes nothing but RPLRU states, and those only in the touched set. -/
theorem tlb_update_rplru_entry (tlb : TLB) (s w s2 i : Nat) :
    (∃ st, (tlb_update_rplru tlb s w).entry s2 i = { tlb.entry s2 i with rplru_state := st }) ∧
    (s2 ≠ s → (tlb_update_rplru tlb s w).entry s2 i = tlb.entry s2 i) := by
  rcases tlb_update_rplru_cases tlb s w with ⟨_, e0⟩ | ⟨_, e0⟩
  · rw [e0]
    exact ⟨⟨_, rfl⟩, fun _ => rfl⟩
  · rw [e0]
    by_cases hs : s2 = s
    · subst hs
      refine ⟨?_, fun h => absurd rfl h⟩
      by_cases hlen : s2 < tlb.sets.length
      · obtain ⟨st, e⟩ := rplru_ways_fields w
          ((tlb.sets.getD s2 ⟨[]⟩).ways.getD w TLBEntry.zero).rplru_state tlb.num_ways
          (tlb.sets.getD s2 ⟨[]⟩).ways i
        refine ⟨st, ?_⟩
        simp only [TLB.entry]
        rw [← e]
        simp [List.getD_eq_getElem?_getD, List.getElem?_set, hlen]
      · have hnone : tlb.sets[s2]? = none := List.getElem?_eq_none (by omega)
        exact ⟨0, by simp [TLB.entry, List.getD_eq_getElem?_getD, List.getElem?_set, hlen, hnone,
          TLBEntry.zero]⟩
    · have hs2 : s ≠ s2 := fun e => hs e.symm
      have e : ∀ (X : List TLBEntry),
          ({ tlb with sets := tlb.sets.set s (TLBSet.mk X) } : TLB).entry s2 i
            = tlb.entry s2 i := by
        intro X
        simp [TLB.entry, List.getD_eq_getElem?_getD, List.getElem?_set, hs2]
      exact ⟨⟨_, by rw [e]⟩, fun _ => e _⟩

/-- After the RPLRU update of a slot inside the arrays, that slot has state 1. -/
theorem tlb_update_rplru_state_one (tlb : TLB) (s w : Nat) (hs : s < tlb.sets.length)
    (hw : w < (tlb.sets.getD s ⟨[]⟩).ways.length) :
    ((tlb_update_rplru tlb s w).entry s w).rplru_state = 1 := by
  rcases tlb_update_rplru_cases tlb s w with ⟨h1, e0⟩ | ⟨_, e0⟩
  · rw [e0]
    exact h1
  · rw [e0]
    have hg := (tlb_update_rplru_loop_spec w
      ((tlb.sets.getD s ⟨[]⟩).ways.getD w TLBEntry.zero).rplru_state tlb.num_ways 0
      ((tlb.sets.getD s ⟨[]⟩).ways.set w
        { (tlb.sets.getD s ⟨[]⟩).ways.getD w TLBEntry.zero with rplru_state := 1 })).2 w
    rw [if_neg (fun h => h.2.2.1 rfl)] at hg
    have hent : ∀ (X : List TLBEntry),
        ({ tlb with sets := tlb.sets.set s (TLBSet.mk X) } : TLB).entry s w
          = X.getD w TLBEntry.zero := by
      intro X
      simp [TLB.entry, List.getD_eq_getElem?_getD, List.getElem?_set, hs]
    rw [hent, hg]
    have hw2 : w < (tlb.sets[s]?.getD ⟨[]⟩).ways.length := by
      simpa [List.getD_eq_getElem?_getD] using hw
    simp [List.getD_eq_getElem?_getD, List.getElem?_set, hw2]

/-- The RPLRU update keeps the geometry and everything outside the sets. -/
theorem tlb_update_rplru_frame (tlb : TLB) (s w : Nat) :
    (tlb_update_rplru tlb s w).num_ways = tlb.num_ways ∧
    (tlb_update_rplru tlb s w).num_sets = tlb.num_sets ∧
    (tlb_update_rplru tlb s w).num_cores = tlb.num_cores ∧
    (tlb_update_rplru tlb s w).shared = tlb.shared ∧
    (tlb_update_rplru tlb s w).prince_key = tlb.prince_key ∧
    (tlb_update_rplru tlb s w).core_states = tlb.core_states ∧
    (tlb_update_rplru tlb s w).sets.length = tlb.sets.length := by
  rcases tlb_update_rplru_cases tlb s w with ⟨_, e0⟩ | ⟨_, e0⟩
  · rw [e0]
    exact ⟨rfl, rfl, rfl, rfl, rfl, rfl, rfl⟩
  · rw [e0]
    exact ⟨rfl, rfl, rfl, rfl, rfl, rfl, by simp⟩

/-- The first victim loop either finds no way, and then every candidate of its range is
valid, or returns the first way of its range whose candidate slot is invalid. -/
theorem tlb_install_scan_invalid_spec (tlb : TLB) (idx : List Nat) :
    ∀ (k i : Nat),
      (tlb_install_scan_invalid tlb idx k i = none ∧
        ∀ j, i ≤ j → j < i + k → (tlb.entry (idx.getD j 0) j).valid = true) ∨
      (∃ v, tlb_install_scan_invalid tlb idx k i = some v ∧ i ≤ v ∧ v < i + k ∧
        (tlb.entry (idx.getD v 0) v).valid = false ∧
        ∀ j, i ≤ j → j < v → (tlb.entry (idx.getD j 0) j).valid = true) := by
  intro k
  induction k with
  | zero =>
    intro i
    left
    exact ⟨rfl, fun j a b => absurd b (by omega)⟩
  | succ k ih =>
    intro i
    unfold tlb_install_scan_invalid
    cases hv : (tlb.entry (idx.getD i 0) i).valid
    · right
      exact ⟨i, by simp, le_refl _, by omega, hv, fun j a b => absurd b (by omega)⟩
    · simp only [Bool.not_true, Bool.false_eq_true, if_false]
      rcases ih (i + 1) with ⟨e, hall⟩ | ⟨v, e, h1, h2, h3, h4⟩
      · left
        refine ⟨e, ?_⟩
        intro j hj1 hj2
        rcases Nat.lt_or_ge i j with h | h
        · exact hall j h (by omega)
        · have : j = i := by omega
          subst this
          exact hv
      · right
        refine ⟨v, e, by omega, by omega, h3, ?_⟩
        intro j hj1 hj2
        rcases Nat.lt_or_ge i j with h | h
        · exact h4 j h hj2
        · have : j = i := by omega
          subst this
          exact hv

/-- The second victim loop either finds no way, and then no candidate of its range has
RPLRU state `num_ways`, or returns the first way of its range whose candidate has it. -/
theorem tlb_install_scan_lru_spec (tlb : TLB) (idx : List Nat) :
    ∀ (k i : Nat),
      (tlb_install_scan_lru tlb idx k i = none ∧
        ∀ j, i ≤ j → j < i + k → (tlb.entry (idx.getD j 0) j).rplru_state ≠ tlb.num_ways) ∨
      (∃ v, tlb_install_scan_lru tlb idx k i = some v ∧ i ≤ v ∧ v < i + k ∧
        (tlb.entry (idx.getD v 0) v).rplru_state = tlb.num_ways ∧
        ∀ j, i ≤ j → j < v → (tlb.entry (idx.getD j 0) j).rplru_state ≠ tlb.num_ways) := by
  intro k
  induction k with
  | zero =>
    intro i
    left
    exact ⟨rfl, fun j a b => absurd b (by omega)⟩
  | succ k ih =>
    intro i
    unfold tlb_install_scan_lru
    by_cases hv : (tlb.entry (idx.getD i 0) i).rplru_state = tlb.num_ways
    · right
      exact ⟨i, by rw [if_pos hv], le_refl _, by omega, hv, fun j a b => absurd b (by omega)⟩
    · rw [if_neg hv]
      rcases ih (i + 1) with ⟨e, hall⟩ | ⟨v, e, h1, h2, h3, h4⟩
      · left
        refine ⟨e, ?_⟩
        intro j hj1 hj2
        rcases Nat.lt_or_ge i j with h | h
        · exact hall j h (by omega)
        · have : j = i := by omega
          subst this
          exact hv
      · right
        refine ⟨v, e, by omega, by omega, h3, ?_⟩
        intro j hj1 hj2
        rcases Nat.lt_or_ge i j with h | h
        · exact h4 j h hj2
        · have : j = i := by omega
          subst this
          exact hv

/-- A way returned by the victim loops is below `num_ways`. -/
theorem tlb_install_victim_lt (tlb : TLB) (idx : List Nat) (v : Nat)
    (h : tlb_install_victim tlb idx = some v) : v < tlb.num_ways := by
  unfold tlb_install_victim at h
  rcases tlb_install_scan_invalid_spec tlb idx tlb.num_ways 0 with ⟨e, _⟩ | ⟨v1, e, _, h2, _⟩
  · rw [e] at h
    rcases tlb_install_scan_lru_spec tlb idx tlb.num_ways 0 with ⟨e2, _⟩ | ⟨v2, e2, _, h3, _⟩
    · rw [e2] at h
      exact absurd h (by simp)
    · rw [e2] at h
      have : v2 = v := Option.some.inj h
      omega
  · rw [e] at h
    have : v1 = v := Option.some.inj h
    omega

/-- The victim loops return the lowest way whose candidate slot is invalid, if there is
one, and otherwise the lowest way whose candidate slot has RPLRU state `num_ways`. -/
theorem tlb_install_victim_of_choice (tlb : TLB) (idx : List Nat) (v : Nat)
    (hv : v < tlb.num_ways)
    (hchoice :
      ((tlb.entry (idx.getD v 0) v).valid = false ∧
        ∀ j, j < v → (tlb.entry (idx.getD j 0) j).valid = true) ∨
      ((∀ j, j < tlb.num_ways → (tlb.entry (idx.getD j 0) j).valid = true) ∧
        (tlb.entry (idx.getD v 0) v).rplru_state = tlb.num_ways ∧
        ∀ j, j < v → (tlb.entry (idx.getD j 0) j).rplru_state ≠ tlb.num_ways)) :
    tlb_install_victim tlb idx = some v := by
  unfold tlb_install_victim
  rcases hchoice with ⟨hinv, hbefore⟩ | ⟨hall, hst, hbefore⟩
  · rcases tlb_install_scan_invalid_spec tlb idx tlb.num_ways 0 with
      ⟨_, hval⟩ | ⟨v1, e, _, h2, h3, h4⟩
    · have := hval v (Nat.zero_le _) (by omega)
      rw [hinv] at this
      exact absurd this (by simp)
    · rw [e]
      have hvv : v1 = v := by
        rcases Nat.lt_trichotomy v1 v with h | h | h
        · have := hbefore v1 h
          rw [h3] at this
          exact absurd this (by simp)
        · exact h
        · have := h4 v (Nat.zero_le _) h
          rw [hinv] at this
          exact absurd this (by simp)
      rw [hvv]
  · rcases tlb_install_scan_invalid_spec tlb idx tlb.num_ways 0 with
      ⟨e, _⟩ | ⟨v1, _, _, h2, h3, _⟩
    · rw [e]
      rcases tlb_install_scan_lru_spec tlb idx tlb.num_ways 0 with
        ⟨_, hno⟩ | ⟨v2, e2, _, h5, h6, h7⟩
      · exact absurd hst (hno v (Nat.zero_le _) (by omega))
      · show tlb_install_scan_lru tlb idx tlb.num_ways 0 = some v
        rw [e2]
        have hvv : v2 = v := by
          rcases Nat.lt_trichotomy v2 v with h | h | h
          · exact absurd h6 (hbefore v2 h)
          · exact h
          · exact absurd hst (h7 v (Nat.zero_le _) h)
        rw [hvv]
    · have := hall v1 (by omega)
      rw [h3] at this
      exact absurd this (by simp)

/-- What tlb_install does once its loops have selected way `v`: it returns, the victim
slot holds the new entry with RPLRU state 1, every other slot keeps all its fields but
possibly the RPLRU state, slots of other sets are untouched, and the geometry, key and
per-core states are as before. -/
theorem tlb_install_effect (tlb : TLB) (vpn pfn : Nat) (w : Bool) (c : Nat) (idx : List Nat)
    (v : Nat) (hwf : tlb.wf) (hcore : c < tlb.num_cores)
    (hidx : tlb_randomize tlb vpn c = Except.ok idx)
    (hvict : tlb_install_victim tlb idx = some v) :
    ∃ t, tlb_install tlb vpn pfn w c = Except.ok t ∧
      t.entry (idx.getD v 0) v =
        { valid := true, dirty := w, tag := vpn, pfn := pfn, core_id := c, rplru_state := 1 } ∧
      (∀ s i, (s ≠ idx.getD v 0 ∨ i ≠ v) →
        ∃ st, t.entry s i = { tlb.entry s i with rplru_state := st }) ∧
      (∀ s i, s ≠ idx.getD v 0 → t.entry s i = tlb.entry s i) ∧
      t.num_ways = tlb.num_ways ∧ t.num_sets = tlb.num_sets ∧ t.num_cores = tlb.num_cores ∧
      t.shared = tlb.shared ∧ t.prince_key = tlb.prince_key ∧
      t.core_states = tlb.core_states ∧ t.sets.length = tlb.sets.length := by
  have hv := tlb_install_victim_lt tlb idx v hvict
  obtain ⟨idx2, hidx2, _, hbound⟩ := tlb_randomize_indices tlb vpn c hcore
  have hii : idx2 = idx := by
    rw [hidx] at hidx2
    exact (Except.ok.inj hidx2).symm
  subst hii
  have hs : idx2.getD v 0 < tlb.sets.length := by
    rw [hwf.1]
    exact (hbound v hv).2 hwf.2.1
  have hmem : tlb.sets.getD (idx2.getD v 0) ⟨[]⟩ ∈ tlb.sets := by
    rw [List.getD_eq_getElem?_getD, List.getElem?_eq_getElem hs]
    simp
  have hwl : v < (tlb.sets.getD (idx2.getD v 0) ⟨[]⟩).ways.length :=
    lt_of_lt_of_le hv (hwf.2.2.2.1 _ hmem)
  have e : tlb_install tlb vpn pfn w c = Except.ok
      (tlb_update_rplru
        (tlb.setEntry (idx2.getD v 0) v
          { tlb.entry (idx2.getD v 0) v with
            valid := true, dirty := w, tag := vpn, pfn := pfn, core_id := c })
        (idx2.getD v 0) v) := by
    unfold tlb_install
    rw [if_neg (not_not.mpr hcore)]
    simp only [hidx, hvict]
  have hsame := entry_setEntry_same tlb (idx2.getD v 0) v
    { tlb.entry (idx2.getD v 0) v with
      valid := true, dirty := w, tag := vpn, pfn := pfn, core_id := c } hs hwl
  have hXlen : (tlb.setEntry (idx2.getD v 0) v
      { tlb.entry (idx2.getD v 0) v with
        valid := true, dirty := w, tag := vpn, pfn := pfn, core_id := c }).sets.length
      = tlb.sets.length := by
    simp [TLB.setEntry]
  have hXw : v < ((tlb.setEntry (idx2.getD v 0) v
      { tlb.entry (idx2.getD v 0) v with
        valid := true, dirty := w, tag := vpn, pfn := pfn, core_id := c }).sets.getD
        (idx2.getD v 0) ⟨[]⟩).ways.length := by
    rw [setEntry_ways_length tlb _ _ _ hs]
    exact hwl
  obtain ⟨f1, f2, f3, f4, f5, f6, f7⟩ := tlb_update_rplru_frame
    (tlb.setEntry (idx2.getD v 0) v
      { tlb.entry (idx2.getD v 0) v with
        valid := true, dirty := w, tag := vpn, pfn := pfn, core_id := c })
    (idx2.getD v 0) v
  refine ⟨_, e, ?_, ?_, ?_, f1, f2, f3, f4, f5, f6, f7.trans hXlen⟩
  · obtain ⟨⟨st, h1⟩, _⟩ := tlb_update_rplru_entry
      (tlb.setEntry (idx2.getD v 0) v
        { tlb.entry (idx2.getD v 0) v with
          valid := true, dirty := w, tag := vpn, pfn := pfn, core_id := c })
      (idx2.getD v 0) v (idx2.getD v 0) v
    have h2 := tlb_update_rplru_state_one _ (idx2.getD v 0) v (by rw [hXlen]; exact hs) hXw
    rw [h1] at h2
    rw [h1, hsame]
    simp only at h2
    rw [h2]
  · intro s i hne
    obtain ⟨⟨st, h1⟩, _⟩ := tlb_update_rplru_entry
      (tlb.setEntry (idx2.getD v 0) v
        { tlb.entry (idx2.getD v 0) v with
          valid := true, dirty := w, tag := vpn, pfn := pfn, core_id := c })
      (idx2.getD v 0) v s i
    rw [entry_setEntry_other tlb _ _ _ s i hne] at h1
    exact ⟨st, h1⟩
  · intro s i hne
    obtain ⟨_, h1⟩ := tlb_update_rplru_entry
      (tlb.setEntry (idx2.getD v 0) v
        { tlb.entry (idx2.getD v 0) v with
          valid := true, dirty := w, tag := vpn, pfn := pfn, core_id := c })
      (idx2.getD v 0) v s i
    rw [h1 hne, entry_setEntry_other tlb _ _ _ s i (Or.inl hne)]

/-- C12 (tlb_install, victim choice and effect): in a well-formed TLB with
`core_id < num_cores`, let `v < num_ways` be the lowest way whose candidate slot
`(set_index[v], v)`, computed with the core's current rid, is invalid or, when every
candidate is valid, the lowest way whose candidate has RPLRU state `num_ways`.  Then the
victim loops select `v`, tlb_install returns, the slot `(set_index[v], v)` holds
valid = true, dirty = is_write, tag = vpn, pfn, core_id and RPLRU state 1, every other slot
of the TLB keeps its valid, dirty, tag, pfn and core_id, and RPLRU states are unchanged
outside the physical set of the victim. -/
theorem tlb_install_victim_and_effect (tlb : TLB) (vpn pfn : Nat) (w : Bool) (c v : Nat)
    (hwf : tlb.wf) (hcore : c < tlb.num_cores) (hv : v < tlb.num_ways)
    (hchoice :
      ((tlb_slot tlb vpn c v).valid = false ∧
        ∀ j, j < v → (tlb_slot tlb vpn c j).valid = true) ∨
      ((∀ j, j < tlb.num_ways → (tlb_slot tlb vpn c j).valid = true) ∧
        (tlb_slot tlb vpn c v).rplru_state = tlb.num_ways ∧
        ∀ j, j < v → (tlb_slot tlb vpn c j).rplru_state ≠ tlb.num_ways)) :
    tlb_victim_way tlb vpn c = some v ∧
    ∃ t, tlb_install tlb vpn pfn w c = Except.ok t ∧
      t.entry (tlb_slot_index tlb vpn c v) v =
        { valid := true, dirty := w, tag := vpn, pfn := pfn, core_id := c, rplru_state := 1 } ∧
      (∀ s i, (s ≠ tlb_slot_index tlb vpn c v ∨ i ≠ v) →
        (t.entry s i).valid = (tlb.entry s i).valid ∧
        (t.entry s i).dirty = (tlb.entry s i).dirty ∧
        (t.entry s i).tag = (tlb.entry s i).tag ∧
        (t.entry s i).pfn = (tlb.entry s i).pfn ∧
        (t.entry s i).core_id = (tlb.entry s i).core_id) ∧
      (∀ s i, s ≠ tlb_slot_index tlb vpn c v →
        (t.entry s i).rplru_state = (tlb.entry s i).rplru_state) := by
  obtain ⟨idx, hidx⟩ := tlb_randomize_ok tlb vpn c hcore
  have hslot : ∀ i, tlb_slot tlb vpn c i = tlb.entry (idx.getD i 0) i := by
    intro i
    unfold tlb_slot
    rw [hidx]
  have hsi : tlb_slot_index tlb vpn c v = idx.getD v 0 := by
    unfold tlb_slot_index
    rw [hidx]
  simp only [hslot] at hchoice
  have hvict := tlb_install_victim_of_choice tlb idx v hv hchoice
  obtain ⟨t, e, h1, h2, h3, _⟩ := tlb_install_effect tlb vpn pfn w c idx v hwf hcore hidx hvict
  refine ⟨by unfold tlb_victim_way; rw [hidx]; exact hvict, t, e, by rw [hsi]; exact h1, ?_, ?_⟩
  · intro s i hne
    rw [hsi] at hne
    obtain ⟨st, h⟩ := h2 s i hne
    rw [h]
    exact ⟨rfl, rfl, rfl, rfl, rfl⟩
  · intro s i hne
    rw [hsi] at hne
    rw [h3 s i hne]

set_option maxRecDepth 1000000 in
/-- Evaluation of C12 on `sampleTLB` (one set, all ways valid, states 3, 1, 4, 2): the
victim is way 2, the only way with state 4. -/
theorem tlb_install_victim_and_effect_witness :
    (tlb_install sampleTLB 40 77 true 1).map (rplru_states · 0) = Except.ok [4, 2, 1, 3] ∧
    (tlb_victim_way sampleTLB 40 1 = some 2 ∧
    ∃ t, tlb_install sampleTLB 40 77 true 1 = Except.ok t ∧
      t.entry (tlb_slot_index sampleTLB 40 1 2) 2 =
        { valid := true, dirty := true, tag := 40, pfn := 77, core_id := 1, rplru_state := 1 } ∧
      (∀ s i, (s ≠ tlb_slot_index sampleTLB 40 1 2 ∨ i ≠ 2) →
        (t.entry s i).valid = (sampleTLB.entry s i).valid ∧
        (t.entry s i).dirty = (sampleTLB.entry s i).dirty ∧
        (t.entry s i).tag = (sampleTLB.entry s i).tag ∧
        (t.entry s i).pfn = (sampleTLB.entry s i).pfn ∧
        (t.entry s i).core_id = (sampleTLB.entry s i).core_id) ∧
      (∀ s i, s ≠ tlb_slot_index sampleTLB 40 1 2 →
        (t.entry s i).rplru_state = (sampleTLB.entry s i).rplru_state)) :=
  ⟨by decide, tlb_install_victim_and_effect sampleTLB 40 77 true 1 2 (by decide) (by decide)
    (by decide) (Or.inr ⟨by decide, by decide, by decide⟩)⟩

set_option maxRecDepth 1000000 in
/-- The 64 plaintext-flip distances at the sample point, by evaluation of the cipher. -/
theorem plaintext_flip_distances_sample :
    plaintext_flip_distances 0 0x0011223344556677 =
      [10, 3, 5, 7, 6, 10, 8, 6, 7, 4, 8, 11, 7, 6, 8, 6,
       9, 10, 9, 7, 9, 4, 11, 11, 10, 4, 8, 7, 11, 8, 10, 9,
       12, 8, 12, 10, 9, 9, 5, 9, 3, 8, 8, 8, 9, 11, 6, 12,
       7, 7, 11, 7, 3, 7, 5, 9, 8, 8, 6, 9, 6, 6, 6, 8] := by
  decide

set_option maxRecDepth 1000000 in
/-- The 64 key-flip distances at the sample point, by evaluation of the cipher. -/
theorem key_flip_distances_sample :
    key_flip_distances 0 0x0011223344556677 =
      [8, 10, 6, 8, 6, 10, 9, 13, 7, 9, 8, 7, 8, 9, 9, 3,
       12, 8, 5, 8, 9, 9, 8, 6, 8, 4, 7, 6, 10, 8, 8, 8,
       8, 7, 8, 7, 8, 10, 6, 10, 4, 7, 9, 10, 6, 7, 13, 9,
       7, 7, 11, 9, 8, 9, 11, 6, 8, 8, 7, 6, 4, 6, 9, 8] := by
  decide

/-- C16 as stated fails at its own sample point `x = 0`, `k = 0x0011223344556677`: the
mean Hamming distance over the 64 single-bit flips of `x` is not between 24 and 40 (the
sum over the 64 flips is below 24 * 64), and neither is the mean over the flips of `k`. -/
theorem cipher_diffusion_not_near_half :
    ¬ (24 * 64 ≤ (plaintext_flip_distances 0 0x0011223344556677).sum ∧
        (plaintext_flip_distances 0 0x0011223344556677).sum ≤ 40 * 64) ∧
    ¬ (24 * 64 ≤ (key_flip_distances 0 0x0011223344556677).sum ∧
        (key_flip_distances 0 0x0011223344556677).sum ≤ 40 * 64) := by
  rw [plaintext_flip_distances_sample, key_flip_distances_sample]
  decide

/-- C16, amended: at the sample point `x = 0`, `k = 0x0011223344556677` the Hamming
distances over the 64 single-bit flips of `x` sum to 501 and those over the 64 flips of
`k` to 507, so both means lie between 7 and 8 of 64 bits; no single flip changes more than
16 output bits. -/
theorem cipher_diffusion_sample :
    (plaintext_flip_distances 0 0x0011223344556677).sum = 501 ∧
    (key_flip_distances 0 0x0011223344556677).sum = 507 ∧
    (∀ d ∈ plaintext_flip_distances 0 0x0011223344556677, d ≤ 16) ∧
    (∀ d ∈ key_flip_distances 0 0x0011223344556677, d ≤ 16) := by
  rw [plaintext_flip_distances_sample, key_flip_distances_sample]
  decide

end SrcCoat

/-! ## Theorems: secure TLB, the cipher as a permutation -/

namespace SrcCoat

/-- The loop condition of prince_gf2_mul_16 is the test of bit `i`. -/
theorem mul_cond_iff (inp i : Nat) : ((inp >>> i) &&& 1 ≠ 0) ↔ inp.testBit i = true := by
  rw [Nat.and_one_is_mod, Nat.testBit_to_div_mod, Nat.shiftRight_eq_div_pow, decide_eq_true_eq]
  omega

/-- The loop of prince_gf2_mul_16 is linear over GF(2) in the input and the accumulator. -/
theorem mul_loop_xor (mat : List Nat) :
    ∀ (k i a b oa ob : Nat),
      prince_gf2_mul_16_loop (a ^^^ b) mat k i (oa ^^^ ob)
        = prince_gf2_mul_16_loop a mat k i oa ^^^ prince_gf2_mul_16_loop b mat k i ob := by
  intro k
  induction k with
  | zero => intro i a b oa ob; rfl
  | succ k ih =>
    intro i a b oa ob
    unfold prince_gf2_mul_16_loop
    rw [← ih]
    congr 1
    simp only [mul_cond_iff, Nat.testBit_xor]
    generalize mat.getD i 0 = m
    cases a.testBit i <;> cases b.testBit i
    · simp
    · simp only [Bool.false_bne, if_true, Bool.false_eq_true, if_false]
      rw [Nat.xor_assoc]
    · simp only [Bool.bne_false, if_true, Bool.false_eq_true, if_false]
      rw [Nat.xor_assoc, Nat.xor_assoc, Nat.xor_comm ob m]
    · simp only [bne_self_eq_false, Bool.false_eq_true, if_false, if_true]
      rw [Nat.xor_assoc, Nat.xor_comm ob m, ← Nat.xor_assoc m, Nat.xor_self, Nat.zero_xor]

/-- prince_gf2_mul_16 is linear over GF(2). -/
theorem mul_xor (mat : List Nat) (a b : Nat) :
    prince_gf2_mul_16 (a ^^^ b) mat = prince_gf2_mul_16 a mat ^^^ prince_gf2_mul_16 b mat := by
  unfold prince_gf2_mul_16
  have h := mul_loop_xor mat 16 0 a b 0 0
  rw [Nat.xor_self] at h
  exact h

/-- The loop of prince_gf2_mul_16 stays below `2^16` when the rows do. -/
theorem mul_loop_lt (inp : Nat) (mat : List Nat) (hmat : ∀ j, mat.getD j 0 < 2 ^ 16) :
    ∀ (k i out : Nat), out < 2 ^ 16 → prince_gf2_mul_16_loop inp mat k i out < 2 ^ 16 := by
  intro k
  induction k with
  | zero => intro i out h; exact h
  | succ k ih =>
    intro i out h
    unfold prince_gf2_mul_16_loop
    apply ih
    split
    · exact Nat.xor_lt_two_pow h (hmat i)
    · exact h

/-- A row of a list read with default 0 is below a bound that all rows and 0 meet. -/
theorem getD_lt (mat : List Nat) (B : Nat) (hB : 0 < B) (h : ∀ m ∈ mat, m < B) (j : Nat) :
    mat.getD j 0 < B := by
  rw [List.getD_eq_getElem?_getD]
  cases hj : mat[j]? with
  | none => exact hB
  | some m => exact h m (List.getElem?_mem hj)

/-- The rows of `PRINCE_M0` are 16-bit values. -/
theorem M0_lt (j : Nat) : PRINCE_M0.getD j 0 < 2 ^ 16 :=
  getD_lt PRINCE_M0 (2 ^ 16) (by norm_num) (by decide) j

/-- The rows of `PRINCE_M1` are 16-bit values. -/
theorem M1_lt (j : Nat) : PRINCE_M1.getD j 0 < 2 ^ 16 :=
  getD_lt PRINCE_M1 (2 ^ 16) (by norm_num) (by decide) j

/-- Applying a linear map `f` with `f 0 = 0` after the loop is the loop over the mapped
rows. -/
theorem mul_loop_map (mat : List Nat) (f : Nat → Nat) (hf0 : f 0 = 0)
    (hf : ∀ a b, f (a ^^^ b) = f a ^^^ f b) :
    ∀ (k i v out : Nat),
      f (prince_gf2_mul_16_loop v mat k i out)
        = prince_gf2_mul_16_loop v (mat.map f) k i (f out) := by
  intro k
  induction k with
  | zero => intro i v out; rfl
  | succ k ih =>
    intro i v out
    unfold prince_gf2_mul_16_loop
    rw [ih]
    congr 1
    have hg : (mat.map f).getD i 0 = f (mat.getD i 0) := by
      have := List.getD_map mat 0 (n := i) f
      rw [hf0] at this
      exact this
    split
    · rw [hf, hg]
    · rfl

/-- XOR with a power of two above the value adds it. -/
theorem xor_two_pow_of_lt (out i : Nat) (h : out < 2 ^ i) : out ^^^ 2 ^ i = out + 2 ^ i := by
  apply Nat.eq_of_testBit_eq
  intro j
  rw [Nat.testBit_xor, Nat.testBit_two_pow, Nat.add_comm]
  rcases Nat.lt_trichotomy j i with hj | hj | hj
  · rw [Nat.testBit_two_pow_add_gt hj]
    have : decide (i = j) = false := by simp; omega
    rw [this]
    simp
  · subst hj
    rw [Nat.testBit_two_pow_add_eq, Nat.testBit_lt_two_pow h]
    simp
  · have h1 : out < 2 ^ j := lt_of_lt_of_le h (Nat.pow_le_pow_right (by norm_num) (by omega))
    have h2 : 2 ^ i + out < 2 ^ j := by
      have : 2 ^ (i + 1) ≤ 2 ^ j := Nat.pow_le_pow_right (by norm_num) (by omega)
      rw [Nat.pow_succ] at this
      omega
    rw [Nat.testBit_lt_two_pow h1, Nat.testBit_lt_two_pow h2]
    have : decide (i = j) = false := by simp; omega
    rw [this]
    rfl

/-- Row `i` of `unit_rows` is `2^i`. -/
theorem unit_rows_getD (i : Nat) (h : i < 16) : unit_rows.getD i 0 = 2 ^ i := by
  unfold unit_rows
  simp [List.getD_eq_getElem?_getD, List.getElem?_map, List.getElem?_range h]

/-- Over the unit rows the loop puts the bits `i, ..., i + k - 1` of the input back. -/
theorem mul_loop_unit_rows (v : Nat) :
    ∀ (k i out : Nat), i + k ≤ 16 → out < 2 ^ i →
      prince_gf2_mul_16_loop v unit_rows k i out = out + ((v >>> i) % 2 ^ k) * 2 ^ i := by
  intro k
  induction k with
  | zero =>
    intro i out _ _
    simp [prince_gf2_mul_16_loop, Nat.mod_one]
  | succ k ih =>
    intro i out hik hout
    unfold prince_gf2_mul_16_loop
    rw [unit_rows_getD i (by omega), Nat.and_one_is_mod]
    have hpow : (2 : Nat) ^ (i + 1) = 2 * 2 ^ i := by rw [Nat.pow_succ]; omega
    have hsr : v >>> (i + 1) = (v >>> i) / 2 := by
      rw [Nat.shiftRight_add, Nat.shiftRight_eq_div_pow _ 1, Nat.pow_one]
    have hmod : (v >>> i) % 2 ^ (k + 1) = (v >>> i) % 2 + 2 * ((v >>> i) / 2 % 2 ^ k) := by
      rw [Nat.pow_succ, Nat.mul_comm, Nat.mod_mul]
    rcases Nat.mod_two_eq_zero_or_one (v >>> i) with h0 | h1
    · rw [if_neg (by omega), ih (i + 1) out (by omega) (by rw [hpow]; omega), hsr, hmod, h0,
        hpow]
      ring
    · rw [if_pos (by omega), xor_two_pow_of_lt out i hout,
        ih (i + 1) (out + 2 ^ i) (by omega) (by rw [hpow]; omega), hsr, hmod, h1, hpow]
      ring

/-- With input 0 the loop of prince_gf2_mul_16 returns its accumulator. -/
theorem mul_loop_zero (mat : List Nat) :
    ∀ (k i out : Nat), prince_gf2_mul_16_loop 0 mat k i out = out := by
  intro k
  induction k with
  | zero => intro i out; rfl
  | succ k ih =>
    intro i out
    unfold prince_gf2_mul_16_loop
    rw [ih]
    simp

/-- prince_gf2_mul_16 maps 0 to 0. -/
theorem mul_zero (mat : List Nat) : prince_gf2_mul_16 0 mat = 0 :=
  mul_loop_zero mat 16 0 0

/-- prince_gf2_mul_16 returns a 16-bit value for the matrix `PRINCE_M0`. -/
theorem mul_M0_lt (v : Nat) : prince_gf2_mul_16 v PRINCE_M0 < 2 ^ 16 :=
  mul_loop_lt v PRINCE_M0 M0_lt 16 0 0 (by norm_num)

/-- prince_gf2_mul_16 returns a 16-bit value for the matrix `PRINCE_M1`. -/
theorem mul_M1_lt (v : Nat) : prince_gf2_mul_16 v PRINCE_M1 < 2 ^ 16 :=
  mul_loop_lt v PRINCE_M1 M1_lt 16 0 0 (by norm_num)

set_option maxRecDepth 100000 in
/-- The matrix `PRINCE_M0` times itself is the identity: each row is mapped to its unit
vector. -/
theorem M0_rows_map : PRINCE_M0.map (fun x => prince_gf2_mul_16 x PRINCE_M0) = unit_rows := by
  decide

set_option maxRecDepth 100000 in
/-- The matrix `PRINCE_M1` times itself is the identity. -/
theorem M1_rows_map : PRINCE_M1.map (fun x => prince_gf2_mul_16 x PRINCE_M1) = unit_rows := by
  decide

/-- Multiplying twice by a matrix whose square is the identity gives back the low 16 bits
of the input. -/
theorem mul_mul_of_rows_map (mat : List Nat)
    (h : mat.map (fun x => prince_gf2_mul_16 x mat) = unit_rows) (v : Nat) :
    prince_gf2_mul_16 (prince_gf2_mul_16 v mat) mat = v % 2 ^ 16 := by
  have hm := mul_loop_map mat (fun x => prince_gf2_mul_16 x mat) (mul_zero mat)
    (fun a b => mul_xor mat a b) 16 0 v 0
  simp only at hm
  rw [h, mul_zero, mul_loop_unit_rows v 16 0 0 (by norm_num) (by norm_num)] at hm
  conv_lhs => rw [show prince_gf2_mul_16 v mat = prince_gf2_mul_16_loop v mat 16 0 0 from rfl]
  rw [hm]
  simp

/-- prince_gf2_mul_16 with `PRINCE_M0` is injective on 16-bit lanes. -/
theorem mul_M0_inj (a b : Nat)
    (h : prince_gf2_mul_16 a PRINCE_M0 = prince_gf2_mul_16 b PRINCE_M0) :
    a % 2 ^ 16 = b % 2 ^ 16 := by
  rw [← mul_mul_of_rows_map PRINCE_M0 M0_rows_map a, ← mul_mul_of_rows_map PRINCE_M0 M0_rows_map b,
    h]

/-- prince_gf2_mul_16 with `PRINCE_M1` is injective on 16-bit lanes. -/
theorem mul_M1_inj (a b : Nat)
    (h : prince_gf2_mul_16 a PRINCE_M1 = prince_gf2_mul_16 b PRINCE_M1) :
    a % 2 ^ 16 = b % 2 ^ 16 := by
  rw [← mul_mul_of_rows_map PRINCE_M1 M1_rows_map a, ← mul_mul_of_rows_map PRINCE_M1 M1_rows_map b,
    h]

/-- Four 16-bit lanes joined by shifts and ORs are their weighted sum. -/
theorem lanes_or_eq (o0 o1 o2 o3 : Nat) (h0 : o0 < 2 ^ 16) (h1 : o1 < 2 ^ 16)
    (h2 : o2 < 2 ^ 16) (h3 : o3 < 2 ^ 16) :
    ((o3 <<< 48) % 2 ^ 64) ||| ((o2 <<< 32) % 2 ^ 64) ||| ((o1 <<< 16) % 2 ^ 64) ||| o0
      = o3 * 2 ^ 48 + o2 * 2 ^ 32 + o1 * 2 ^ 16 + o0 := by
  rw [Nat.shiftLeft_eq, Nat.shiftLeft_eq, Nat.shiftLeft_eq]
  rw [Nat.mod_eq_of_lt (by omega), Nat.mod_eq_of_lt (by omega), Nat.mod_eq_of_lt (by omega)]
  have e1 : o3 * 2 ^ 48 = 2 ^ 48 * o3 := Nat.mul_comm _ _
  have s1 : o3 * 2 ^ 48 ||| o2 * 2 ^ 32 = 2 ^ 32 * (o3 * 2 ^ 16 + o2) := by
    rw [e1, ← Nat.mul_add_lt_is_or (by omega) o3]
    omega
  rw [s1]
  have s2 : 2 ^ 32 * (o3 * 2 ^ 16 + o2) ||| o1 * 2 ^ 16
      = 2 ^ 16 * ((o3 * 2 ^ 16 + o2) * 2 ^ 16 + o1) := by
    rw [← Nat.mul_add_lt_is_or (by omega) (o3 * 2 ^ 16 + o2)]
    omega
  rw [s2, ← Nat.mul_add_lt_is_or h0]
  omega

/-- prince_m_prime_layer as the weighted sum of its four lane products. -/
theorem m_prime_eq (x : Nat) :
    prince_m_prime_layer x =
      prince_gf2_mul_16 (x >>> 48) PRINCE_M0 * 2 ^ 48
        + prince_gf2_mul_16 (x >>> 32) PRINCE_M1 * 2 ^ 32
        + prince_gf2_mul_16 (x >>> 16) PRINCE_M1 * 2 ^ 16
        + prince_gf2_mul_16 x PRINCE_M0 := by
  unfold prince_m_prime_layer
  exact lanes_or_eq _ _ _ _ (mul_M0_lt _) (mul_M1_lt _) (mul_M1_lt _) (mul_M0_lt _)

/-- prince_m_prime_layer returns a 64-bit value. -/
theorem m_prime_lt (x : Nat) : prince_m_prime_layer x < 2 ^ 64 := by
  rw [m_prime_eq]
  have h0 := mul_M0_lt x
  have h1 := mul_M1_lt (x >>> 16)
  have h2 := mul_M1_lt (x >>> 32)
  have h3 := mul_M0_lt (x >>> 48)
  omega

/-- prince_m_prime_layer is injective on 64-bit values. -/
theorem m_prime_inj (x y : Nat) (hx : x < 2 ^ 64) (hy : y < 2 ^ 64)
    (h : prince_m_prime_layer x = prince_m_prime_layer y) : x = y := by
  rw [m_prime_eq, m_prime_eq] at h
  have a0 := mul_M0_lt x
  have a1 := mul_M1_lt (x >>> 16)
  have a2 := mul_M1_lt (x >>> 32)
  have a3 := mul_M0_lt (x >>> 48)
  have b0 := mul_M0_lt y
  have b1 := mul_M1_lt (y >>> 16)
  have b2 := mul_M1_lt (y >>> 32)
  have b3 := mul_M0_lt (y >>> 48)
  have e0 : prince_gf2_mul_16 x PRINCE_M0 = prince_gf2_mul_16 y PRINCE_M0 := by omega
  have e1 : prince_gf2_mul_16 (x >>> 16) PRINCE_M1 = prince_gf2_mul_16 (y >>> 16) PRINCE_M1 := by
    omega
  have e2 : prince_gf2_mul_16 (x >>> 32) PRINCE_M1 = prince_gf2_mul_16 (y >>> 32) PRINCE_M1 := by
    omega
  have e3 : prince_gf2_mul_16 (x >>> 48) PRINCE_M0 = prince_gf2_mul_16 (y >>> 48) PRINCE_M0 := by
    omega
  have l0 := mul_M0_inj _ _ e0
  have l1 := mul_M1_inj _ _ e1
  have l2 := mul_M1_inj _ _ e2
  have l3 := mul_M0_inj _ _ e3
  rw [Nat.shiftRight_eq_div_pow] at l1 l2 l3
  omega

/-- Every S-box entry is a nibble. -/
theorem sbox_lt (n : Nat) : PRINCE_SBOX.getD n 0 < 16 :=
  getD_lt PRINCE_SBOX 16 (by norm_num) (by decide) n

/-- The S-box is injective on nibbles. -/
theorem sbox_inj : ∀ a < 16, ∀ b < 16,
    PRINCE_SBOX.getD a 0 = PRINCE_SBOX.getD b 0 → a = b := by
  decide

/-- The index used by prince_s_layer for nibble `j` is `(block / 16^j) % 16`. -/
theorem nibble_index (block j : Nat) :
    (block >>> (j <<< 2)) &&& 0xF = (block / 16 ^ j) % 16 := by
  rw [Nat.shiftLeft_eq, Nat.shiftRight_eq_div_pow,
    show (0xF : Nat) = 2 ^ 4 - 1 from rfl, Nat.and_pow_two_sub_one_eq_mod,
    show (2 : Nat) ^ 2 = 4 from rfl, Nat.mul_comm j 4, Nat.pow_mul]

/-- Every S-box output of a nibble is itself a nibble. -/
theorem s_nibble_lt (block j : Nat) : s_nibble block j < 16 := sbox_lt _

/-- The partial sum over nibbles `0..i` fits in `i + 1` nibbles. -/
theorem s_sum_lt (block : Nat) : ∀ i, s_sum block i < 16 ^ (i + 1) := by
  intro i
  induction i with
  | zero => simpa [s_sum] using s_nibble_lt block 0
  | succ i ih =>
    have hs := s_nibble_lt block (i + 1)
    have hp : 0 < 16 ^ (i + 1) := by positivity
    have e : 16 ^ (i + 1 + 1) = 16 * 16 ^ (i + 1) := by rw [Nat.pow_succ, Nat.mul_comm]
    have hm : s_nibble block (i + 1) * 16 ^ (i + 1) ≤ 15 * 16 ^ (i + 1) :=
      Nat.mul_le_mul_right _ (by omega)
    simp only [s_sum]
    omega

/-- ORing a nibble into a multiple of 16 adds it. -/
theorem or_nibble (out s : Nat) (ho : out % 16 = 0) (hs : s < 16) : out ||| s = out + s := by
  obtain ⟨q, rfl⟩ : ∃ q, out = 2 ^ 4 * q := ⟨out / 16, by omega⟩
  rw [Nat.mul_add_lt_is_or hs]

/-- The loop of prince_s_layer, run for nibbles `i, ..., 1` from an accumulator that is a
multiple of 16 and leaves room for them, shifts the accumulator up and adds the S-box
outputs; no bit is lost to the 64-bit truncation. -/
theorem s_loop_spec (block : Nat) :
    ∀ (i out : Nat), i ≤ 15 → out % 16 = 0 → out < 16 ^ (16 - i) →
      prince_s_layer_loop block i out + s_nibble block 0 = out * 16 ^ i + s_sum block i := by
  intro i
  induction i with
  | zero => intro out _ _ _; simp [prince_s_layer_loop, s_sum]
  | succ i ih =>
    intro out hi ho hlt
    have hs : s_nibble block (i + 1) < 16 := s_nibble_lt block (i + 1)
    have e1 : 16 ^ (16 - (i + 1)) = 16 * 16 ^ (14 - i) := by
      rw [show 16 - (i + 1) = (14 - i) + 1 by omega, Nat.pow_succ, Nat.mul_comm]
    have e2 : 16 ^ (16 - i) = 16 * (16 * 16 ^ (14 - i)) := by
      rw [show 16 - i = (14 - i) + 1 + 1 by omega, Nat.pow_succ, Nat.pow_succ]
      ring
    have hle : 16 ^ (16 - i) ≤ 2 ^ 64 := by
      rw [show (2 : Nat) ^ 64 = 16 ^ 16 by norm_num]
      exact Nat.pow_le_pow_right (by norm_num) (by omega)
    rw [e1] at hlt
    have hstep : ((out ||| PRINCE_SBOX.getD ((block >>> ((i + 1) <<< 2)) &&& 0xF) 0) <<< 4)
        % 2 ^ 64 = (out + s_nibble block (i + 1)) * 16 := by
      rw [show PRINCE_SBOX.getD ((block >>> ((i + 1) <<< 2)) &&& 0xF) 0
        = s_nibble block (i + 1) from rfl, or_nibble out _ ho hs, Nat.shiftLeft_eq,
        show (2 : Nat) ^ 4 = 16 from rfl]
      apply Nat.mod_eq_of_lt
      omega
    show prince_s_layer_loop block i
        (((out ||| PRINCE_SBOX.getD ((block >>> ((i + 1) <<< 2)) &&& 0xF) 0) <<< 4) % 2 ^ 64)
        + s_nibble block 0 = _
    rw [hstep, ih _ (by omega) (by omega) (by rw [e2]; omega)]
    simp only [s_sum]
    ring

/-- The partial sums are congruent to the first nibble modulo 16: the loop result is a
multiple of 16. -/
theorem s_loop_mod (block : Nat) :
    ∀ (i out : Nat), 0 < i → prince_s_layer_loop block i out % 16 = 0 := by
  intro i
  induction i with
  | zero => intro out h; omega
  | succ i ih =>
    intro out _
    unfold prince_s_layer_loop
    rcases Nat.eq_zero_or_pos i with h0 | h0
    · subst h0
      unfold prince_s_layer_loop
      rw [Nat.shiftLeft_eq]
      omega
    · exact ih _ h0

/-- prince_s_layer is the sum of the sixteen S-box outputs at their nibble positions. -/
theorem s_layer_eq (block : Nat) : prince_s_layer block = s_sum block 15 := by
  have h := s_loop_spec block 15 0 (by norm_num) (by norm_num) (by norm_num)
  have hm := s_loop_mod block 15 0 (by norm_num)
  unfold prince_s_layer
  rw [or_nibble _ _ hm (sbox_lt _)]
  have e : PRINCE_SBOX.getD (block &&& 0xF) 0 = s_nibble block 0 := rfl
  rw [e, h]
  simp

/-- prince_s_layer returns a 64-bit value. -/
theorem s_layer_lt (block : Nat) : prince_s_layer block < 2 ^ 64 := by
  rw [s_layer_eq]
  exact s_sum_lt block 15

/-- Equal partial sums force equal low nibbles. -/
theorem s_sum_inj (x y : Nat) :
    ∀ i, s_sum x i = s_sum y i → x % 16 ^ (i + 1) = y % 16 ^ (i + 1) := by
  intro i
  induction i with
  | zero =>
    intro h
    simp only [s_sum, s_nibble, nibble_index] at h
    have := sbox_inj _ (Nat.mod_lt _ (by norm_num)) _ (Nat.mod_lt _ (by norm_num)) h
    simpa using this
  | succ i ih =>
    intro h
    simp only [s_sum] at h
    have hx := s_sum_lt x i
    have hy := s_sum_lt y i
    have hp : 0 < 16 ^ (i + 1) := by positivity
    have hlow : s_sum x i = s_sum y i := by
      have := congrArg (· % 16 ^ (i + 1)) h
      simpa [Nat.add_mul_mod_self_right, Nat.mod_eq_of_lt hx, Nat.mod_eq_of_lt hy] using this
    have hhigh : s_nibble x (i + 1) = s_nibble y (i + 1) := by
      rw [hlow] at h
      exact Nat.eq_of_mul_eq_mul_right hp (Nat.add_left_cancel h)
    simp only [s_nibble, nibble_index] at hhigh
    have hn := sbox_inj _ (Nat.mod_lt _ (by norm_num)) _ (Nat.mod_lt _ (by norm_num)) hhigh
    rw [Nat.mod_pow_succ (b := 16) (k := i + 1), Nat.mod_pow_succ (b := 16) (k := i + 1),
      ih hlow, hn]

/-- prince_s_layer is injective on 64-bit values. -/
theorem s_layer_inj (x y : Nat) (hx : x < 2 ^ 64) (hy : y < 2 ^ 64)
    (h : prince_s_layer x = prince_s_layer y) : x = y := by
  rw [s_layer_eq, s_layer_eq] at h
  have := s_sum_inj x y 15 h
  rwa [show (16 : Nat) ^ (15 + 1) = 2 ^ 64 by norm_num, Nat.mod_eq_of_lt hx,
    Nat.mod_eq_of_lt hy] at this

/-- One keyed round `v ↦ prince_s_layer (prince_m_prime_layer (v ^^^ k ^^^ c))` stays within
64 bits and is injective on 64-bit values. -/
theorem round_inj (k c : Nat) (hk : k < 2 ^ 64) (hc : c < 2 ^ 64) (x y : Nat)
    (hx : x < 2 ^ 64) (hy : y < 2 ^ 64)
    (h : prince_s_layer (prince_m_prime_layer (x ^^^ k ^^^ c))
      = prince_s_layer (prince_m_prime_layer (y ^^^ k ^^^ c))) : x = y := by
  have hxk : x ^^^ k ^^^ c < 2 ^ 64 := Nat.xor_lt_two_pow (Nat.xor_lt_two_pow hx hk) hc
  have hyk : y ^^^ k ^^^ c < 2 ^ 64 := Nat.xor_lt_two_pow (Nat.xor_lt_two_pow hy hk) hc
  have h1 := s_layer_inj _ _ (m_prime_lt _) (m_prime_lt _) h
  have h2 := m_prime_inj _ _ hxk hyk h1
  exact Nat.xor_left_inj.mp (Nat.xor_left_inj.mp h2)

/-- The cipher tlb_prince_encrypt written as the composition of its layers. -/
theorem tlb_prince_encrypt_eq (x k : Nat) :
    tlb_prince_encrypt x k =
      prince_m_prime_layer (prince_s_layer
        (prince_s_layer (prince_m_prime_layer
          (prince_s_layer (prince_m_prime_layer (x ^^^ k ^^^ 0x13198a2e03707344))
            ^^^ k ^^^ 0xa4093822299f31d0)) ^^^ k)) := rfl

/-- The cipher tlb_prince_encrypt returns a 64-bit value. -/
theorem tlb_prince_encrypt_lt (x k : Nat) : tlb_prince_encrypt x k < 2 ^ 64 := by
  rw [tlb_prince_encrypt_eq]
  exact m_prime_lt _

/-- For a 64-bit key the cipher tlb_prince_encrypt is injective on 64-bit values. -/
theorem tlb_prince_encrypt_inj (k : Nat) (hk : k < 2 ^ 64) (x y : Nat)
    (hx : x < 2 ^ 64) (hy : y < 2 ^ 64)
    (h : tlb_prince_encrypt x k = tlb_prince_encrypt y k) : x = y := by
  rw [tlb_prince_encrypt_eq, tlb_prince_encrypt_eq] at h
  have h1 := m_prime_inj _ _ (s_layer_lt _) (s_layer_lt _) h
  have h2 := s_layer_inj _ _ (Nat.xor_lt_two_pow (s_layer_lt _) hk)
    (Nat.xor_lt_two_pow (s_layer_lt _) hk) h1
  have h3 := Nat.xor_left_inj.mp h2
  have h4 := round_inj k 0xa4093822299f31d0 hk (by norm_num) _ _ (s_layer_lt _) (s_layer_lt _) h3
  exact round_inj k 0x13198a2e03707344 hk (by norm_num) x y hx hy h4

/-- An injective map of the 64-bit values into themselves reaches every 64-bit value. -/
theorem surj_of_inj_64 (f : Nat → Nat) (hlt : ∀ x, f x < 2 ^ 64)
    (hinj : ∀ x y, x < 2 ^ 64 → y < 2 ^ 64 → f x = f y → x = y) (z : Nat) (hz : z < 2 ^ 64) :
    ∃ x, x < 2 ^ 64 ∧ f x = z := by
  let g : Fin (2 ^ 64) → Fin (2 ^ 64) := fun a => ⟨f a.val, hlt a.val⟩
  have hg : Function.Injective g := by
    intro a b hab
    have : f a.val = f b.val := congrArg Fin.val hab
    exact Fin.ext (hinj _ _ a.isLt b.isLt this)
  have hs : Function.Surjective g := (Finite.injective_iff_surjective).mp hg
  obtain ⟨a, ha⟩ := hs ⟨z, hz⟩
  exact ⟨a.val, a.isLt, congrArg Fin.val ha⟩

/-- C15: for every 64-bit key `k`, tlb_prince_encrypt with key `k` is a bijection on the
64-bit values: it maps 64-bit values to 64-bit values, equal outputs come from equal inputs,
and every 64-bit value is the output of some 64-bit input. -/
theorem tlb_prince_encrypt_keyed_permutation (k : Nat) (hk : k < 2 ^ 64) :
    (∀ x, tlb_prince_encrypt x k < 2 ^ 64) ∧
    (∀ x y, x < 2 ^ 64 → y < 2 ^ 64 →
      tlb_prince_encrypt x k = tlb_prince_encrypt y k → x = y) ∧
    (∀ z, z < 2 ^ 64 → ∃ x, x < 2 ^ 64 ∧ tlb_prince_encrypt x k = z) :=
  ⟨fun x => tlb_prince_encrypt_lt x k, tlb_prince_encrypt_inj k hk,
    surj_of_inj_64 (fun x => tlb_prince_encrypt x k) (fun x => tlb_prince_encrypt_lt x k)
      (tlb_prince_encrypt_inj k hk)⟩

/-- The key `0x0011223344556677` is a 64-bit key, so tlb_prince_encrypt with that key is a
bijection on the 64-bit values. -/
theorem tlb_prince_encrypt_keyed_permutation_witness :
    0x0011223344556677 < 2 ^ 64 ∧
    ((∀ x, tlb_prince_encrypt x 0x0011223344556677 < 2 ^ 64) ∧
    (∀ x y, x < 2 ^ 64 → y < 2 ^ 64 →
      tlb_prince_encrypt x 0x0011223344556677 = tlb_prince_encrypt y 0x0011223344556677 →
        x = y) ∧
    (∀ z, z < 2 ^ 64 → ∃ x, x < 2 ^ 64 ∧ tlb_prince_encrypt x 0x0011223344556677 = z)) :=
  ⟨by norm_num, tlb_prince_encrypt_keyed_permutation 0x0011223344556677 (by norm_num)⟩

end SrcCoat

/-! ## Theorems: cache, install, statistics and the unique-tag invariant -/

namespace Src

/-- A way returned by the lookup loop lies in its range and carries the tag. -/
theorem cache_access_scan_some (ways : List CacheLine) (tag : Nat) :
    ∀ (k i w : Nat), cache_access_scan ways tag k i = some w →
      i ≤ w ∧ w < i + k ∧ (ways.getD w CacheLine.zero).tag = tag := by
  intro k
  induction k with
  | zero => intro i w h; simp [cache_access_scan] at h
  | succ k ih =>
    intro i w h
    unfold cache_access_scan at h
    split at h
    · rename_i ht
      have hw : i = w := Option.some.inj h
      subst hw
      exact ⟨Nat.le_refl _, by omega, ht⟩
    · obtain ⟨h1, h2, h3⟩ := ih (i + 1) w h
      exact ⟨by omega, by omega, h3⟩

/-- When the lookup loop finds nothing, no way of its range carries the tag. -/
theorem cache_access_scan_none (ways : List CacheLine) (tag : Nat) :
    ∀ (k i : Nat), cache_access_scan ways tag k i = none →
      ∀ j, i ≤ j → j < i + k → (ways.getD j CacheLine.zero).tag ≠ tag := by
  intro k i h j h1 h2 ht
  exact cache_access_scan_ne_none ways tag k i ⟨j, h1, h2, ht⟩ h

/-- The result of cache_access when the lookup loop finds nothing: MISS, and only the four
access and miss counters are written. -/
theorem cache_access_of_scan_none (t : Nat) (c : Cache) (a : Nat) (wr : Bool) (core : Nat)
    (h : cache_access_scan (c.sets.getD (cache_set_index c a) ⟨[]⟩).ways (cache_tag c a)
      c.num_ways 0 = none) :
    cache_access t c a wr core =
      (CacheResult.MISS,
        { c with
          stat_write_access := (c.stat_write_access + b2n wr) % 2 ^ 64
          stat_read_access := (c.stat_read_access + b2n (!wr)) % 2 ^ 64
          stat_write_miss := (c.stat_write_miss + b2n wr) % 2 ^ 64
          stat_read_miss := (c.stat_read_miss + b2n (!wr)) % 2 ^ 64 }) := by
  unfold cache_access
  have e1 : cache_tag { c with
      stat_write_access := (c.stat_write_access + b2n wr) % 2 ^ 64
      stat_read_access := (c.stat_read_access + b2n (!wr)) % 2 ^ 64 } a = cache_tag c a := rfl
  have e2 : cache_set_index { c with
      stat_write_access := (c.stat_write_access + b2n wr) % 2 ^ 64
      stat_read_access := (c.stat_read_access + b2n (!wr)) % 2 ^ 64 } a
      = cache_set_index c a := rfl
  simp only [h]

/-- The two outcomes of cache_access: the lookup loop finds a way `w` and the result is
HIT, or it finds none and the result is MISS. -/
theorem cache_access_cases (t : Nat) (c : Cache) (a : Nat) (wr : Bool) (core : Nat) :
    (∃ w, cache_access_scan (c.sets.getD (cache_set_index c a) ⟨[]⟩).ways (cache_tag c a)
        c.num_ways 0 = some w ∧ (cache_access t c a wr core).1 = CacheResult.HIT) ∨
    (cache_access_scan (c.sets.getD (cache_set_index c a) ⟨[]⟩).ways (cache_tag c a)
        c.num_ways 0 = none ∧ (cache_access t c a wr core).1 = CacheResult.MISS) := by
  cases h : cache_access_scan (c.sets.getD (cache_set_index c a) ⟨[]⟩).ways (cache_tag c a)
      c.num_ways 0 with
  | none => exact Or.inr ⟨rfl, by rw [cache_access_of_scan_none t c a wr core h]⟩
  | some w => exact Or.inl ⟨w, rfl, by rw [cache_access_of_scan_some t c a wr core w h]⟩

/-- A write to one way keeps the geometry of the cache. -/
theorem setLine_wf (c : Cache) (s i : Nat) (l : CacheLine) (hwf : c.wf) :
    (c.setLine s i l).wf := by
  obtain ⟨h1, h2, h3⟩ := hwf
  refine ⟨?_, ?_, h3⟩
  · show (c.sets.set s _).length = c.num_sets
    rw [List.length_set]
    exact h1
  · intro x hx
    have hx2 : x ∈ c.sets.set s (CacheSet.mk ((c.sets.getD s ⟨[]⟩).ways.set i l)) := hx
    by_cases hs : s < c.sets.length
    · rcases List.mem_or_eq_of_mem_set hx2 with hm | he
      · exact h2 x hm
      · subst he
        show c.num_ways ≤ ((c.sets.getD s ⟨[]⟩).ways.set i l).length
        rw [List.length_set]
        exact ways_length_of_wf c s ⟨h1, h2, h3⟩ hs
    · rw [List.set_eq_of_length_le (by omega)] at hx2
      exact h2 x hx2

/-- With at least one and at most `2^32` sets the narrowed set index is
`line_addr % num_sets`. -/
theorem cache_set_index_eq (c : Cache) (a : Nat) (hs : 1 ≤ c.num_sets)
    (h32 : c.num_sets ≤ 2 ^ 32) : cache_set_index c a = a % c.num_sets := by
  unfold cache_set_index
  have h1 : a % c.num_sets < c.num_sets := Nat.mod_lt _ (by omega)
  exact Nat.mod_eq_of_lt (by omega)

/-- The narrowed tag is `line_addr / num_sets` as long as that quotient fits in 32 bits. -/
theorem cache_tag_eq (c : Cache) (a : Nat) (h : a / c.num_sets < 2 ^ 32) :
    cache_tag c a = a / c.num_sets :=
  Nat.mod_eq_of_lt h

/-- The ways of a cache after cache_install: the victim way of the indexed set holds the
new line and every other way is as before. -/
theorem cache_install_lines (t rand : Nat) (c : Cache) (a : Nat) (wr : Bool) (core : Nat)
    (hwf : c.wf) (hs : 1 ≤ c.num_sets) (hn : 1 ≤ c.num_ways) :
    (cache_install t rand c a wr core).line (cache_set_index c a)
        (cache_find_victim t rand c (cache_set_index c a) core)
      = { valid := true, dirty := wr, tag := cache_tag c a, line_addr := a, core_id := core,
          last_access_time := t } ∧
    ∀ s i, (s ≠ cache_set_index c a ∨
        i ≠ cache_find_victim t rand c (cache_set_index c a) core) →
      (cache_install t rand c a wr core).line s i = c.line s i := by
  have hsi := cache_set_index_lt c a hwf hs
  have hv := cache_find_victim_lt t rand c (cache_set_index c a) core hn hwf.2.2
  have hlen := ways_length_of_wf c (cache_set_index c a) hwf hsi
  constructor
  · unfold cache_install
    exact line_setLine_same _ _ _ _ hsi (lt_of_lt_of_le hv hlen)
  · intro s i h
    unfold cache_install
    exact line_setLine_other _ _ _ _ s i h

/-- The fields of the cache that cache_install writes outside the array of sets: the
snapshot of the victim and the dirty-eviction counter; the other counters and the geometry
are as before. -/
theorem cache_install_fields (t rand : Nat) (c : Cache) (a : Nat) (wr : Bool) (core : Nat) :
    (cache_install t rand c a wr core).last_evicted_line
      = c.line (cache_set_index c a) (cache_find_victim t rand c (cache_set_index c a) core) ∧
    (cache_install t rand c a wr core).stat_dirty_evicts
      = (if (c.line (cache_set_index c a)
              (cache_find_victim t rand c (cache_set_index c a) core)).valid &&
            (c.line (cache_set_index c a)
              (cache_find_victim t rand c (cache_set_index c a) core)).dirty
         then (c.stat_dirty_evicts + 1) % 2 ^ 64 else c.stat_dirty_evicts) ∧
    (cache_install t rand c a wr core).stat_read_access = c.stat_read_access ∧
    (cache_install t rand c a wr core).stat_write_access = c.stat_write_access ∧
    (cache_install t rand c a wr core).stat_read_miss = c.stat_read_miss ∧
    (cache_install t rand c a wr core).stat_write_miss = c.stat_write_miss ∧
    (cache_install t rand c a wr core).num_sets = c.num_sets ∧
    (cache_install t rand c a wr core).num_ways = c.num_ways ∧
    (cache_install t rand c a wr core).replacement_policy = c.replacement_policy :=
  ⟨rfl, rfl, rfl, rfl, rfl, rfl, rfl, rfl, rfl⟩

/-- The geometry of a cache survives cache_install. -/
theorem cache_install_wf (t rand : Nat) (c : Cache) (a : Nat) (wr : Bool) (core : Nat)
    (hwf : c.wf) : (cache_install t rand c a wr core).wf := by
  unfold cache_install
  exact setLine_wf _ _ _ _ hwf

set_option maxRecDepth 100000 in
/-- C22 (static way partitioning) fails on the code: the SWP branch of cache_find_victim is
empty and the quota `SWP_CORE0_WAYS` is never read, so the victim is way 0 for every core.
On the 4-way cache of `cache_new(1024, 4, 16, SWP)` every call returns way 0; with a quota
of 2 ways for core 0, the call for core 1 does not return a way in `[2, 4)`, and after one
install by core 0 (way 0 valid, way 1 invalid) the call for core 0 returns the valid way 0
and not the first invalid way of `[0, 2)`. -/
theorem swp_find_victim_ignores_quota :
    (∀ t rand s core,
      cache_find_victim t rand (cache_new 16 1024 4 16 ReplacementPolicy.SWP) s core = 0) ∧
    ¬ (2 ≤ cache_find_victim 2 0
          (cache_install 1 0 (cache_new 16 1024 4 16 ReplacementPolicy.SWP) 0 false 0) 0 1 ∧
        cache_find_victim 2 0
          (cache_install 1 0 (cache_new 16 1024 4 16 ReplacementPolicy.SWP) 0 false 0) 0 1
          < 4) ∧
    ((cache_install 1 0 (cache_new 16 1024 4 16 ReplacementPolicy.SWP) 0 false 0).line 0
      0).valid = true ∧
    ((cache_install 1 0 (cache_new 16 1024 4 16 ReplacementPolicy.SWP) 0 false 0).line 0
      1).valid = false ∧
    cache_find_victim 2 0
      (cache_install 1 0 (cache_new 16 1024 4 16 ReplacementPolicy.SWP) 0 false 0) 0 0 = 0 :=
  ⟨fun _ _ _ _ => rfl, by decide, by decide, by decide, by decide⟩

/-- C23 (victim index in range): for every replacement policy, set index, core id, cycle and
value of `rand()`, on a cache with `1 ≤ num_ways < 2^32` the way that cache_find_victim
returns is below `num_ways`; for RANDOM it is `rand() % num_ways`, for SWP and DWP it is
way 0. -/
theorem cache_find_victim_in_range (current_cycle rand : Nat) (c : Cache)
    (set_index core_id : Nat) (hn : 1 ≤ c.num_ways) (hsmall : c.num_ways < 2 ^ 32) :
    cache_find_victim current_cycle rand c set_index core_id < c.num_ways ∧
    (c.replacement_policy = ReplacementPolicy.RANDOM →
      cache_find_victim current_cycle rand c set_index core_id = rand % c.num_ways) ∧
    (c.replacement_policy = ReplacementPolicy.SWP ∨
        c.replacement_policy = ReplacementPolicy.DWP →
      cache_find_victim current_cycle rand c set_index core_id = 0) := by
  have hmod : c.num_ways % 2 ^ 32 = c.num_ways := Nat.mod_eq_of_lt hsmall
  refine ⟨?_, ?_, ?_⟩
  · unfold cache_find_victim
    simp only [hmod]
    cases c.replacement_policy with
    | LRU =>
      have := lru_scan_lt (c.sets.getD set_index ⟨[]⟩).ways c.num_ways 0 current_cycle 0
        (by omega)
      simpa using this
    | RANDOM => exact Nat.mod_lt _ (by omega)
    | SWP => exact hn
    | DWP => exact hn
  · intro hp
    unfold cache_find_victim
    rw [hp, hmod]
  · intro hp
    unfold cache_find_victim
    rcases hp with hp | hp <;> rw [hp]

set_option maxRecDepth 100000 in
/-- Evaluation of C23 on the 4-way RANDOM cache of `cache_new(1024, 4, 16, RANDOM)` with
`rand() = 7`: the victim is way 3. -/
theorem cache_find_victim_in_range_witness :
    cache_find_victim 5 7 (cache_new 16 1024 4 16 ReplacementPolicy.RANDOM) 2 1 = 3 ∧
    (cache_find_victim 5 7 (cache_new 16 1024 4 16 ReplacementPolicy.RANDOM) 2 1
      < (cache_new 16 1024 4 16 ReplacementPolicy.RANDOM).num_ways ∧
    ((cache_new 16 1024 4 16 ReplacementPolicy.RANDOM).replacement_policy
        = ReplacementPolicy.RANDOM →
      cache_find_victim 5 7 (cache_new 16 1024 4 16 ReplacementPolicy.RANDOM) 2 1
        = 7 % (cache_new 16 1024 4 16 ReplacementPolicy.RANDOM).num_ways) ∧
    ((cache_new 16 1024 4 16 ReplacementPolicy.RANDOM).replacement_policy
          = ReplacementPolicy.SWP ∨
        (cache_new 16 1024 4 16 ReplacementPolicy.RANDOM).replacement_policy
          = ReplacementPolicy.DWP →
      cache_find_victim 5 7 (cache_new 16 1024 4 16 ReplacementPolicy.RANDOM) 2 1 = 0)) :=
  ⟨by decide, cache_find_victim_in_range 5 7 (cache_new 16 1024 4 16 ReplacementPolicy.RANDOM)
    2 1 (by decide) (by decide)⟩

set_option maxRecDepth 100000 in
/-- C24 (cache_install postcondition) fails on the code in its tag: the tag is narrowed to
`unsigned int` before it is stored.  On the 16-set cache of `cache_new(1024, 4, 16, LRU)`
the install of line address `2^36 + 16` (set 0, `line_addr div num_sets = 2^32 + 1`) by
core 1 at cycle 1 writes way 0 with tag 1; the other fields of the way and the snapshot
in `last_evicted_line` are as the claim says. -/
theorem cache_install_stores_narrowed_tag :
    (cache_new 16 1024 4 16 ReplacementPolicy.LRU).num_sets = 16 ∧
    68719476752 % 16 = 0 ∧ 68719476752 / 16 = 4294967297 ∧
    cache_find_victim 1 0 (cache_new 16 1024 4 16 ReplacementPolicy.LRU) 0 1 = 0 ∧
    (cache_install 1 0 (cache_new 16 1024 4 16 ReplacementPolicy.LRU) 68719476752 true 1).line
        0 0
      = { valid := true, dirty := true, tag := 1, line_addr := 68719476752, core_id := 1,
          last_access_time := 1 } ∧
    ((cache_install 1 0 (cache_new 16 1024 4 16 ReplacementPolicy.LRU) 68719476752 true
        1).line 0 0).tag ≠ 68719476752 / 16 ∧
    (cache_install 1 0 (cache_new 16 1024 4 16 ReplacementPolicy.LRU) 68719476752 true
        1).last_evicted_line = (cache_new 16 1024 4 16 ReplacementPolicy.LRU).line 0 0 := by
  decide

/-- C25 (dirty-eviction counting): cache_install adds 1, as a 64-bit increment, to
`stat_dirty_evicts` exactly when the victim way was valid and dirty before the install and
leaves the counter as it was otherwise; an install into an invalid way leaves it as it
was. -/
theorem cache_install_dirty_evicts (t rand : Nat) (c : Cache) (a : Nat) (wr : Bool)
    (core : Nat) :
    (cache_install t rand c a wr core).stat_dirty_evicts =
      (if (c.line (cache_set_index c a)
              (cache_find_victim t rand c (cache_set_index c a) core)).valid = true ∧
            (c.line (cache_set_index c a)
              (cache_find_victim t rand c (cache_set_index c a) core)).dirty = true
       then (c.stat_dirty_evicts + 1) % 2 ^ 64 else c.stat_dirty_evicts) ∧
    ((c.line (cache_set_index c a)
        (cache_find_victim t rand c (cache_set_index c a) core)).valid = false →
      (cache_install t rand c a wr core).stat_dirty_evicts = c.stat_dirty_evicts) := by
  have h := (cache_install_fields t rand c a wr core).2.1
  generalize c.line (cache_set_index c a)
    (cache_find_victim t rand c (cache_set_index c a) core) = v at h ⊢
  rw [h]
  rcases v with ⟨vv, vd, _, _, _, _⟩
  cases vv <;> cases vd <;> simp

/-- C26 (cache_install frame): on a cache with `1 ≤ num_sets ≤ 2^32`, cache_install leaves
every way other than the victim way of set `line_addr % num_sets` as it was, in that set
and in every other set, and it leaves the read and write access counters and the read and
write miss counters as they were. -/
theorem cache_install_frame (t rand : Nat) (c : Cache) (a : Nat) (wr : Bool) (core : Nat)
    (hs : 1 ≤ c.num_sets) (h32 : c.num_sets ≤ 2 ^ 32) :
    (∀ s i, (s ≠ a % c.num_sets ∨ i ≠ cache_find_victim t rand c (a % c.num_sets) core) →
      (cache_install t rand c a wr core).line s i = c.line s i) ∧
    (cache_install t rand c a wr core).stat_read_access = c.stat_read_access ∧
    (cache_install t rand c a wr core).stat_write_access = c.stat_write_access ∧
    (cache_install t rand c a wr core).stat_read_miss = c.stat_read_miss ∧
    (cache_install t rand c a wr core).stat_write_miss = c.stat_write_miss := by
  refine ⟨?_, rfl, rfl, rfl, rfl⟩
  intro s i h
  rw [← cache_set_index_eq c a hs h32] at h
  unfold cache_install
  exact line_setLine_other _ _ _ _ s i h

set_option maxRecDepth 100000 in
/-- Evaluation of C26 on `sampleCache`: the install of line address 101 goes to way 2 of
set 1, and every other way and the four access and miss counters are as before. -/
theorem cache_install_frame_witness :
    101 % sampleCache.num_sets = 1 ∧ cache_find_victim 11 0 sampleCache 1 1 = 2 ∧
    ((∀ s i, (s ≠ 101 % sampleCache.num_sets ∨
        i ≠ cache_find_victim 11 0 sampleCache (101 % sampleCache.num_sets) 1) →
      (cache_install 11 0 sampleCache 101 true 1).line s i = sampleCache.line s i) ∧
    (cache_install 11 0 sampleCache 101 true 1).stat_read_access
      = sampleCache.stat_read_access ∧
    (cache_install 11 0 sampleCache 101 true 1).stat_write_access
      = sampleCache.stat_write_access ∧
    (cache_install 11 0 sampleCache 101 true 1).stat_read_miss = sampleCache.stat_read_miss ∧
    (cache_install 11 0 sampleCache 101 true 1).stat_write_miss
      = sampleCache.stat_write_miss) :=
  ⟨by decide, by decide, cache_install_frame 11 0 sampleCache 101 true 1 (by decide)
    (by decide)⟩

/-- C27 (no auto-install): when cache_access returns MISS, the array of sets is as before,
so every way of every set keeps valid, dirty, tag, line address, core id and timestamp;
`last_evicted_line`, the dirty-eviction counter, the geometry and the policy are as before;
the access and miss counters of the kind of the access go up by one, as 64-bit
counters. -/
theorem cache_access_miss_frame (t : Nat) (c : Cache) (a : Nat) (wr : Bool) (core : Nat)
    (h : (cache_access t c a wr core).1 = CacheResult.MISS) :
    (cache_access t c a wr core).2.sets = c.sets ∧
    (∀ s i, (cache_access t c a wr core).2.line s i = c.line s i) ∧
    (cache_access t c a wr core).2.last_evicted_line = c.last_evicted_line ∧
    (cache_access t c a wr core).2.stat_dirty_evicts = c.stat_dirty_evicts ∧
    (cache_access t c a wr core).2.num_sets = c.num_sets ∧
    (cache_access t c a wr core).2.num_ways = c.num_ways ∧
    (cache_access t c a wr core).2.size = c.size ∧
    (cache_access t c a wr core).2.line_size = c.line_size ∧
    (cache_access t c a wr core).2.replacement_policy = c.replacement_policy ∧
    (cache_access t c a wr core).2.stat_write_access
      = (c.stat_write_access + b2n wr) % 2 ^ 64 ∧
    (cache_access t c a wr core).2.stat_read_access
      = (c.stat_read_access + b2n (!wr)) % 2 ^ 64 ∧
    (cache_access t c a wr core).2.stat_write_miss = (c.stat_write_miss + b2n wr) % 2 ^ 64 ∧
    (cache_access t c a wr core).2.stat_read_miss
      = (c.stat_read_miss + b2n (!wr)) % 2 ^ 64 := by
  rcases cache_access_cases t c a wr core with ⟨w, _, hhit⟩ | ⟨hnone, _⟩
  · rw [hhit] at h
    exact absurd h (by decide)
  · rw [cache_access_of_scan_none t c a wr core hnone]
    exact ⟨rfl, fun _ _ => rfl, rfl, rfl, rfl, rfl, rfl, rfl, rfl, rfl, rfl, rfl, rfl⟩

set_option maxRecDepth 100000 in
/-- Evaluation of C27 on `sampleCache`: the read of line address 100 (set 0, tag 50) misses
and changes no line. -/
theorem cache_access_miss_frame_witness :
    (cache_access 10 sampleCache 100 false 0).1 = CacheResult.MISS ∧
    (cache_access 10 sampleCache 100 false 0).2.stat_read_miss = 1 ∧
    ((cache_access 10 sampleCache 100 false 0).2.sets = sampleCache.sets ∧
    (∀ s i, (cache_access 10 sampleCache 100 false 0).2.line s i = sampleCache.line s i) ∧
    (cache_access 10 sampleCache 100 false 0).2.last_evicted_line
      = sampleCache.last_evicted_line ∧
    (cache_access 10 sampleCache 100 false 0).2.stat_dirty_evicts
      = sampleCache.stat_dirty_evicts ∧
    (cache_access 10 sampleCache 100 false 0).2.num_sets = sampleCache.num_sets ∧
    (cache_access 10 sampleCache 100 false 0).2.num_ways = sampleCache.num_ways ∧
    (cache_access 10 sampleCache 100 false 0).2.size = sampleCache.size ∧
    (cache_access 10 sampleCache 100 false 0).2.line_size = sampleCache.line_size ∧
    (cache_access 10 sampleCache 100 false 0).2.replacement_policy
      = sampleCache.replacement_policy ∧
    (cache_access 10 sampleCache 100 false 0).2.stat_write_access
      = (sampleCache.stat_write_access + b2n false) % 2 ^ 64 ∧
    (cache_access 10 sampleCache 100 false 0).2.stat_read_access
      = (sampleCache.stat_read_access + b2n (!false)) % 2 ^ 64 ∧
    (cache_access 10 sampleCache 100 false 0).2.stat_write_miss
      = (sampleCache.stat_write_miss + b2n false) % 2 ^ 64 ∧
    (cache_access 10 sampleCache 100 false 0).2.stat_read_miss
      = (sampleCache.stat_read_miss + b2n (!false)) % 2 ^ 64) :=
  ⟨by decide, by decide, cache_access_miss_frame 10 sampleCache 100 false 0 (by decide)⟩

set_option maxRecDepth 100000 in
/-- C30 (exact index/tag arithmetic) fails on the code: tag and set index are narrowed to
`unsigned int`.  On the 16-set cache of `cache_new(1024, 4, 16, LRU)` the line addresses 16
and `2^36 + 16` have the same set index 0 and the same narrowed tag 1, although their
quotients by `num_sets` are 1 and `2^32 + 1`; after the install of line address 16 into
way 0, the access to `2^36 + 16` returns HIT on that way. -/
theorem cache_tag_narrowing_aliases :
    (cache_new 16 1024 4 16 ReplacementPolicy.LRU).num_sets = 16 ∧
    16 / 16 = 1 ∧ 68719476752 / 16 = 4294967297 ∧
    cache_set_index (cache_new 16 1024 4 16 ReplacementPolicy.LRU) 16 = 0 ∧
    cache_set_index (cache_new 16 1024 4 16 ReplacementPolicy.LRU) 68719476752 = 0 ∧
    cache_tag (cache_new 16 1024 4 16 ReplacementPolicy.LRU) 16 = 1 ∧
    cache_tag (cache_new 16 1024 4 16 ReplacementPolicy.LRU) 68719476752 = 1 ∧
    ((cache_install 1 0 (cache_new 16 1024 4 16 ReplacementPolicy.LRU) 16 false 0).line 0
      0).line_addr = 16 ∧
    (∀ i, i < 4 → i ≠ 0 →
      ((cache_install 1 0 (cache_new 16 1024 4 16 ReplacementPolicy.LRU) 16 false 0).line 0
        i).tag = 0) ∧
    (cache_access 2 (cache_install 1 0 (cache_new 16 1024 4 16 ReplacementPolicy.LRU) 16 false 0)
      68719476752 false 0).1 = CacheResult.HIT ∧
    ((cache_access 2
      (cache_install 1 0 (cache_new 16 1024 4 16 ReplacementPolicy.LRU) 16 false 0)
      68719476752 false 0).2.line 0 0).last_access_time = 2 := by
  decide

/-- The counters after cache_access, in the arithmetic of the source: the access counters
get `is_write` and `!is_write` added, the miss counters get the same added when the result
is MISS and are as before when it is HIT, and the dirty-eviction counter is as before. -/
theorem cache_access_stats (t : Nat) (c : Cache) (a : Nat) (wr : Bool) (core : Nat) :
    (cache_access t c a wr core).2.stat_write_access
      = (c.stat_write_access + b2n wr) % 2 ^ 64 ∧
    (cache_access t c a wr core).2.stat_read_access
      = (c.stat_read_access + b2n (!wr)) % 2 ^ 64 ∧
    (cache_access t c a wr core).2.stat_write_miss
      = (if (cache_access t c a wr core).1 = CacheResult.MISS
         then (c.stat_write_miss + b2n wr) % 2 ^ 64 else c.stat_write_miss) ∧
    (cache_access t c a wr core).2.stat_read_miss
      = (if (cache_access t c a wr core).1 = CacheResult.MISS
         then (c.stat_read_miss + b2n (!wr)) % 2 ^ 64 else c.stat_read_miss) ∧
    (cache_access t c a wr core).2.stat_dirty_evicts = c.stat_dirty_evicts := by
  cases h : cache_access_scan (c.sets.getD (cache_set_index c a) ⟨[]⟩).ways (cache_tag c a)
      c.num_ways 0 with
  | none =>
    rw [cache_access_of_scan_none t c a wr core h]
    exact ⟨rfl, rfl, by simp, by simp, rfl⟩
  | some w =>
    rw [cache_access_of_scan_some t c a wr core w h]
    exact ⟨rfl, rfl, by simp; rfl, by simp; rfl, rfl⟩

/-- Along a run of calls that makes fewer than `2^64` accesses in all, the miss counters
stay at or below the access counters and the access counters together count the
accesses. -/
theorem cache_run_stats : ∀ (ops : List CacheOp) (c : Cache),
    c.stat_read_miss ≤ c.stat_read_access → c.stat_write_miss ≤ c.stat_write_access →
    c.stat_read_access + c.stat_write_access + count_accesses ops < 2 ^ 64 →
    (cache_run c ops).stat_read_miss ≤ (cache_run c ops).stat_read_access ∧
    (cache_run c ops).stat_write_miss ≤ (cache_run c ops).stat_write_access ∧
    (cache_run c ops).stat_read_access + (cache_run c ops).stat_write_access
      = c.stat_read_access + c.stat_write_access + count_accesses ops := by
  intro ops
  induction ops with
  | nil => intro c h1 h2 _; exact ⟨h1, h2, rfl⟩
  | cons op rest ih =>
    intro c h1 h2 h3
    cases op with
    | access t a w k =>
      simp only [count_accesses] at h3
      obtain ⟨e1, e2, e3, e4, _⟩ := cache_access_stats t c a w k
      have hw : (c.stat_write_access + b2n w) % 2 ^ 64 = c.stat_write_access + b2n w := by
        apply Nat.mod_eq_of_lt
        unfold b2n
        split <;> omega
      have hr : (c.stat_read_access + b2n (!w)) % 2 ^ 64 = c.stat_read_access + b2n (!w) := by
        apply Nat.mod_eq_of_lt
        unfold b2n
        split <;> omega
      have hb : b2n w + b2n (!w) = 1 := by cases w <;> rfl
      have hwm : (cache_access t c a w k).2.stat_write_miss ≤ c.stat_write_miss + b2n w := by
        rw [e3]
        split
        · exact Nat.mod_le _ _
        · omega
      have hrm : (cache_access t c a w k).2.stat_read_miss ≤ c.stat_read_miss + b2n (!w) := by
        rw [e4]
        split
        · exact Nat.mod_le _ _
        · omega
      rw [hw] at e1
      rw [hr] at e2
      obtain ⟨i1, i2, i3⟩ := ih (cache_access t c a w k).2 (by rw [e2]; omega)
        (by rw [e1]; omega) (by rw [e1, e2]; omega)
      refine ⟨i1, i2, ?_⟩
      show (cache_run (cache_access t c a w k).2 rest).stat_read_access
        + (cache_run (cache_access t c a w k).2 rest).stat_write_access = _
      rw [i3, e1, e2]
      simp only [count_accesses]
      omega
    | install t r a w k =>
      exact ih (cache_install t r c a w k) h1 h2 h3

/-- C28 (cache statistics): on a cache whose counters hold 64-bit values, a write access
adds 1 to `stat_write_access` and leaves `stat_read_access` and `stat_read_miss` as they
were, and it adds 1 to `stat_write_miss` exactly when it returns MISS; a read access does
the same on the read counters; no access changes `stat_dirty_evicts` (additions are 64-bit
additions).  Hence after every sequence of cache_access and cache_install calls on the
cache of cache_new that makes fewer than `2^64` accesses, `stat_read_miss ≤
stat_read_access` and `stat_write_miss ≤ stat_write_access`. -/
theorem cache_access_statistics (t : Nat) (c : Cache) (a : Nat) (wr : Bool) (core : Nat)
    (M size assoc ls : Nat) (pol : ReplacementPolicy) (ops : List CacheOp)
    (h64 : c.stats64) (hlen : count_accesses ops < 2 ^ 64) :
    (wr = true →
      (cache_access t c a wr core).2.stat_write_access = (c.stat_write_access + 1) % 2 ^ 64 ∧
      (cache_access t c a wr core).2.stat_read_access = c.stat_read_access ∧
      (cache_access t c a wr core).2.stat_read_miss = c.stat_read_miss ∧
      (cache_access t c a wr core).2.stat_write_miss
        = (if (cache_access t c a wr core).1 = CacheResult.MISS
           then (c.stat_write_miss + 1) % 2 ^ 64 else c.stat_write_miss)) ∧
    (wr = false →
      (cache_access t c a wr core).2.stat_read_access = (c.stat_read_access + 1) % 2 ^ 64 ∧
      (cache_access t c a wr core).2.stat_write_access = c.stat_write_access ∧
      (cache_access t c a wr core).2.stat_write_miss = c.stat_write_miss ∧
      (cache_access t c a wr core).2.stat_read_miss
        = (if (cache_access t c a wr core).1 = CacheResult.MISS
           then (c.stat_read_miss + 1) % 2 ^ 64 else c.stat_read_miss)) ∧
    (cache_access t c a wr core).2.stat_dirty_evicts = c.stat_dirty_evicts ∧
    (cache_run (cache_new M size assoc ls pol) ops).stat_read_miss
      ≤ (cache_run (cache_new M size assoc ls pol) ops).stat_read_access ∧
    (cache_run (cache_new M size assoc ls pol) ops).stat_write_miss
      ≤ (cache_run (cache_new M size assoc ls pol) ops).stat_write_access := by
  obtain ⟨e1, e2, e3, e4, e5⟩ := cache_access_stats t c a wr core
  obtain ⟨b1, b2, b3, b4, _⟩ := h64
  have hrun := cache_run_stats ops (cache_new M size assoc ls pol) (Nat.le_refl _)
    (Nat.le_refl _) (by
      show 0 + 0 + count_accesses ops < 2 ^ 64
      omega)
  refine ⟨?_, ?_, e5, hrun.1, hrun.2.1⟩
  · intro hw
    subst hw
    simp only [b2n, Bool.not_true, if_true, Bool.false_eq_true, if_false, Nat.add_zero] at e1 e2 e3 e4
    rw [Nat.mod_eq_of_lt b1] at e2
    rw [Nat.mod_eq_of_lt b3] at e4
    refine ⟨e1, e2, ?_, e3⟩
    rw [e4]
    simp
  · intro hw
    subst hw
    simp only [b2n, Bool.not_false, if_true, Bool.false_eq_true, if_false, Nat.add_zero] at e1 e2 e3 e4
    rw [Nat.mod_eq_of_lt b2] at e1
    rw [Nat.mod_eq_of_lt b4] at e3
    refine ⟨e2, e1, ?_, e4⟩
    rw [e3]
    simp

set_option maxRecDepth 100000 in
/-- Evaluation of C28: a write to line address 100 on `sampleCache` misses, and a run of
two read accesses to line address 16 with the install after the miss on the cache of
`cache_new(1024, 4, 16, LRU)` ends with one read miss in two read accesses. -/
theorem cache_access_statistics_witness :
    (cache_access 10 sampleCache 100 true 0).1 = CacheResult.MISS ∧
    (cache_run (cache_new 16 1024 4 16 ReplacementPolicy.LRU)
      [CacheOp.access 1 16 false 0, CacheOp.install 1 0 16 false 0,
       CacheOp.access 2 16 false 0]).stat_read_miss = 1 ∧
    (cache_run (cache_new 16 1024 4 16 ReplacementPolicy.LRU)
      [CacheOp.access 1 16 false 0, CacheOp.install 1 0 16 false 0,
       CacheOp.access 2 16 false 0]).stat_read_access = 2 ∧
    sampleCache.stats64 ∧
    count_accesses [CacheOp.access 1 16 false 0, CacheOp.install 1 0 16 false 0,
       CacheOp.access 2 16 false 0] < 2 ^ 64 ∧
    ((true = true →
      (cache_access 10 sampleCache 100 true 0).2.stat_write_access
        = (sampleCache.stat_write_access + 1) % 2 ^ 64 ∧
      (cache_access 10 sampleCache 100 true 0).2.stat_read_access
        = sampleCache.stat_read_access ∧
      (cache_access 10 sampleCache 100 true 0).2.stat_read_miss = sampleCache.stat_read_miss ∧
      (cache_access 10 sampleCache 100 true 0).2.stat_write_miss
        = (if (cache_access 10 sampleCache 100 true 0).1 = CacheResult.MISS
           then (sampleCache.stat_write_miss + 1) % 2 ^ 64 else sampleCache.stat_write_miss)) ∧
    (true = false →
      (cache_access 10 sampleCache 100 true 0).2.stat_read_access
        = (sampleCache.stat_read_access + 1) % 2 ^ 64 ∧
      (cache_access 10 sampleCache 100 true 0).2.stat_write_access
        = sampleCache.stat_write_access ∧
      (cache_access 10 sampleCache 100 true 0).2.stat_write_miss
        = sampleCache.stat_write_miss ∧
      (cache_access 10 sampleCache 100 true 0).2.stat_read_miss
        = (if (cache_access 10 sampleCache 100 true 0).1 = CacheResult.MISS
           then (sampleCache.stat_read_miss + 1) % 2 ^ 64 else sampleCache.stat_read_miss)) ∧
    (cache_access 10 sampleCache 100 true 0).2.stat_dirty_evicts
      = sampleCache.stat_dirty_evicts ∧
    (cache_run (cache_new 16 1024 4 16 ReplacementPolicy.LRU)
      [CacheOp.access 1 16 false 0, CacheOp.install 1 0 16 false 0,
       CacheOp.access 2 16 false 0]).stat_read_miss
      ≤ (cache_run (cache_new 16 1024 4 16 ReplacementPolicy.LRU)
        [CacheOp.access 1 16 false 0, CacheOp.install 1 0 16 false 0,
         CacheOp.access 2 16 false 0]).stat_read_access ∧
    (cache_run (cache_new 16 1024 4 16 ReplacementPolicy.LRU)
      [CacheOp.access 1 16 false 0, CacheOp.install 1 0 16 false 0,
       CacheOp.access 2 16 false 0]).stat_write_miss
      ≤ (cache_run (cache_new 16 1024 4 16 ReplacementPolicy.LRU)
        [CacheOp.access 1 16 false 0, CacheOp.install 1 0 16 false 0,
         CacheOp.access 2 16 false 0]).stat_write_access) :=
  ⟨by decide, by decide, by decide, by decide, by decide,
    cache_access_statistics 10 sampleCache 100 true 0 16 1024 4 16 ReplacementPolicy.LRU
      [CacheOp.access 1 16 false 0, CacheOp.install 1 0 16 false 0,
       CacheOp.access 2 16 false 0] (by decide) (by decide)⟩

/-- Every line of the cache that cache_new returns is the zeroed line. -/
theorem cache_new_line (M size assoc ls : Nat) (pol : ReplacementPolicy) (s i : Nat) :
    (cache_new M size assoc ls pol).line s i = CacheLine.zero := by
  simp only [cache_new, Cache.line, List.getD_eq_getElem?_getD, List.getElem?_replicate]
  split
  · simp only [Option.getD_some, List.getElem?_replicate]
    split <;> rfl
  · rfl

/-- The cache that cache_new returns has the geometry `Cache.wf` when the associativity is
at most the size of the array of ways and fits an `unsigned int`. -/
theorem cache_new_wf (M size assoc ls : Nat) (pol : ReplacementPolicy) (hmax : assoc ≤ M)
    (h32 : assoc < 2 ^ 32) : (cache_new M size assoc ls pol).wf := by
  refine ⟨?_, ?_, h32⟩
  · simp [cache_new]
  · intro s hs
    have hs2 : s ∈ List.replicate (size / ((assoc * ls) % 2 ^ 64))
        (CacheSet.mk (List.replicate M CacheLine.zero)) := hs
    rw [List.eq_of_mem_replicate hs2]
    show assoc ≤ (List.replicate M CacheLine.zero).length
    rw [List.length_replicate]
    exact hmax

/-- The geometry of a cache survives cache_access. -/
theorem cache_access_wf (t : Nat) (c : Cache) (a : Nat) (wr : Bool) (core : Nat)
    (hwf : c.wf) :
    (cache_access t c a wr core).2.wf ∧ (cache_access t c a wr core).2.num_sets = c.num_sets ∧
    (cache_access t c a wr core).2.num_ways = c.num_ways := by
  cases h : cache_access_scan (c.sets.getD (cache_set_index c a) ⟨[]⟩).ways (cache_tag c a)
      c.num_ways 0 with
  | none =>
    rw [cache_access_of_scan_none t c a wr core h]
    exact ⟨hwf, rfl, rfl⟩
  | some w =>
    rw [cache_access_of_scan_some t c a wr core w h]
    exact ⟨setLine_wf _ _ _ _ hwf, rfl, rfl⟩

/-- The access cache_access never changes the valid bit or the tag of a line. -/
theorem cache_access_valid_tag (t : Nat) (c : Cache) (a : Nat) (wr : Bool) (core : Nat)
    (hwf : c.wf) (hs : 1 ≤ c.num_sets) (s i : Nat) :
    ((cache_access t c a wr core).2.line s i).valid = (c.line s i).valid ∧
    ((cache_access t c a wr core).2.line s i).tag = (c.line s i).tag := by
  cases h : cache_access_scan (c.sets.getD (cache_set_index c a) ⟨[]⟩).ways (cache_tag c a)
      c.num_ways 0 with
  | none =>
    rw [cache_access_of_scan_none t c a wr core h]
    exact ⟨rfl, rfl⟩
  | some w =>
    rw [cache_access_of_scan_some t c a wr core w h]
    dsimp only
    obtain ⟨_, hw, _⟩ := cache_access_scan_some _ _ _ _ _ h
    have hsi := cache_set_index_lt c a hwf hs
    have hlen := ways_length_of_wf c (cache_set_index c a) hwf hsi
    by_cases he : s = cache_set_index c a ∧ i = w
    · obtain ⟨e1, e2⟩ := he
      subst e1 e2
      have key : ∀ (c1 : Cache), c1.sets = c.sets → ∀ l,
          (c1.setLine (cache_set_index c a) i l).line (cache_set_index c a) i = l := by
        intro c1 h1 l
        exact line_setLine_same c1 _ _ l (by rw [h1]; exact hsi) (by rw [h1]; omega)
      rw [key]
      · exact ⟨rfl, rfl⟩
      · rfl
    · rw [line_setLine_other _ _ _ _ s i (by
        by_cases e1 : s = cache_set_index c a
        · exact Or.inr (fun e2 => he ⟨e1, e2⟩)
        · exact Or.inl e1)]
      exact ⟨rfl, rfl⟩

/-- The invariant behind the unique-tag property under the calling protocol: the geometry,
unique tags, and, when an access to `a` has just missed, no way of the set of `a` with the
tag of `a`. -/
theorem unique_tags_run : ∀ (ops : List CacheOp) (c : Cache) (pending : Option Nat),
    c.wf → 1 ≤ c.num_sets → 1 ≤ c.num_ways → c.unique_tags →
    (∀ a, pending = some a →
      ∀ i, i < c.num_ways → (c.line (cache_set_index c a) i).tag ≠ cache_tag c a) →
    install_follows_miss c pending ops = true → (cache_run c ops).unique_tags := by
  intro ops
  induction ops with
  | nil => intro c _ _ _ _ hu _ _; exact hu
  | cons op rest ih =>
    intro c pending hwf hs hn hu hp hprot
    cases op with
    | access t a w k =>
      simp only [install_follows_miss] at hprot
      obtain ⟨hwf2, g1, g2⟩ := cache_access_wf t c a w k hwf
      have hvt := cache_access_valid_tag t c a w k hwf hs
      apply ih (cache_access t c a w k).2 _ hwf2 (by rw [g1]; exact hs) (by rw [g2]; exact hn)
        _ _ hprot
      · intro s hs1 i hi j hj h1 h2
        rw [g1] at hs1
        rw [g2] at hi
        rw [(hvt s i).1] at h1
        rw [(hvt s j).1] at h2
        rw [(hvt s i).2, (hvt s j).2]
        exact hu s hs1 i hi j hj h1 h2
      · intro b hb i hi
        rw [g2] at hi
        have e1 : cache_set_index (cache_access t c a w k).2 b = cache_set_index c b := by
          unfold cache_set_index
          rw [g1]
        have e2 : cache_tag (cache_access t c a w k).2 b = cache_tag c b := by
          unfold cache_tag
          rw [g1]
        rw [e1, e2, (hvt _ i).2]
        rcases cache_access_cases t c a w k with ⟨_, _, hhit⟩ | ⟨hnone, hmiss⟩
        · rw [hhit] at hb
          simp at hb
        · rw [hmiss] at hb
          simp only [if_true] at hb
          have hab : a = b := Option.some.inj hb
          subst hab
          exact cache_access_scan_none _ _ _ _ hnone i (Nat.zero_le _) (by omega)
    | install t r a w k =>
      simp only [install_follows_miss, Bool.and_eq_true, decide_eq_true_eq] at hprot
      obtain ⟨hpend, hprot2⟩ := hprot
      have hne := hp a hpend
      obtain ⟨hnew, hother⟩ := cache_install_lines t r c a w k hwf hs hn
      have hv := cache_find_victim_lt t r c (cache_set_index c a) k hn hwf.2.2
      apply ih (cache_install t r c a w k) none (cache_install_wf t r c a w k hwf) hs hn _
        (by intro b hb; simp at hb) hprot2
      intro s hs1 i hi j hj h1 h2
      have hs2 : s < c.num_sets := hs1
      have hi2 : i < c.num_ways := hi
      by_cases e1 : s = cache_set_index c a ∧
          i = cache_find_victim t r c (cache_set_index c a) k
      · obtain ⟨es, ei⟩ := e1
        subst es ei
        rw [hnew, hother _ j (Or.inr (by omega))]
        exact fun e => hne j (by omega) e.symm
      · have n1 : s ≠ cache_set_index c a ∨
            i ≠ cache_find_victim t r c (cache_set_index c a) k := by
          by_cases e : s = cache_set_index c a
          · exact Or.inr (fun e2 => e1 ⟨e, e2⟩)
          · exact Or.inl e
        by_cases e2 : s = cache_set_index c a ∧
            j = cache_find_victim t r c (cache_set_index c a) k
        · obtain ⟨es, ej⟩ := e2
          subst es ej
          rw [hnew, hother _ i n1]
          exact hne i hi2
        · have n2 : s ≠ cache_set_index c a ∨
              j ≠ cache_find_victim t r c (cache_set_index c a) k := by
            by_cases e : s = cache_set_index c a
            · exact Or.inr (fun e3 => e2 ⟨e, e3⟩)
            · exact Or.inl e
          rw [hother s i n1] at h1 ⊢
          rw [hother s j n2] at h2 ⊢
          exact hu s hs2 i hi2 j hj h1 h2

set_option maxRecDepth 100000 in
/-- C29 as stated fails: cache_install does not look for the tag in the set.  On the cache
of `cache_new(1024, 4, 16, LRU)` two installs of line address 16 in a row, which is a
sequence of calls but not the calling protocol, leave ways 0 and 1 of set 0 both valid with
tag 1. -/
theorem install_twice_duplicates_tag :
    install_follows_miss (cache_new 16 1024 4 16 ReplacementPolicy.LRU) none
      [CacheOp.install 1 0 16 false 0, CacheOp.install 2 0 16 false 0] = false ∧
    ((cache_run (cache_new 16 1024 4 16 ReplacementPolicy.LRU)
      [CacheOp.install 1 0 16 false 0, CacheOp.install 2 0 16 false 0]).line 0 0).valid = true ∧
    ((cache_run (cache_new 16 1024 4 16 ReplacementPolicy.LRU)
      [CacheOp.install 1 0 16 false 0, CacheOp.install 2 0 16 false 0]).line 0 1).valid = true ∧
    ((cache_run (cache_new 16 1024 4 16 ReplacementPolicy.LRU)
      [CacheOp.install 1 0 16 false 0, CacheOp.install 2 0 16 false 0]).line 0 0).tag = 1 ∧
    ((cache_run (cache_new 16 1024 4 16 ReplacementPolicy.LRU)
      [CacheOp.install 1 0 16 false 0, CacheOp.install 2 0 16 false 0]).line 0 1).tag = 1 ∧
    ¬ (cache_run (cache_new 16 1024 4 16 ReplacementPolicy.LRU)
      [CacheOp.install 1 0 16 false 0, CacheOp.install 2 0 16 false 0]).unique_tags := by
  decide

/-- C29, amended: in every cache state reached from cache_new (with at least one set and
one way, and an associativity that fits the array of ways) by a sequence of cache_access
and cache_install calls in which every cache_install comes right after a cache_access of
the same line address that returned MISS, no set holds two valid lines with the same
tag. -/
theorem unique_tags_under_protocol (M size assoc ls : Nat) (pol : ReplacementPolicy)
    (ops : List CacheOp) (hways : 1 ≤ assoc) (hmax : assoc ≤ M) (h32 : assoc < 2 ^ 32)
    (hsets : 1 ≤ (cache_new M size assoc ls pol).num_sets)
    (hprot : install_follows_miss (cache_new M size assoc ls pol) none ops = true) :
    (cache_run (cache_new M size assoc ls pol) ops).unique_tags := by
  apply unique_tags_run ops (cache_new M size assoc ls pol) none
    (cache_new_wf M size assoc ls pol hmax h32) hsets hways _ _ hprot
  · intro s _ i _ j _ h1
    rw [cache_new_line] at h1
    exact absurd h1 (by decide)
  · intro a ha
    exact absurd ha (by simp)

set_option maxRecDepth 100000 in
/-- Evaluation of the amended C29 on the cache of `cache_new(1024, 4, 16, LRU)`: a miss on
line address 16 with its install, a hit on 16, and a write miss on 32 with its install. -/
theorem unique_tags_under_protocol_witness :
    (cache_access 1 (cache_new 16 1024 4 16 ReplacementPolicy.LRU) 16 false 0).1
      = CacheResult.MISS ∧
    (cache_run (cache_new 16 1024 4 16 ReplacementPolicy.LRU)
      [CacheOp.access 1 16 false 0, CacheOp.install 1 0 16 false 0,
       CacheOp.access 2 16 false 0, CacheOp.access 3 32 true 1,
       CacheOp.install 3 0 32 true 1]).unique_tags :=
  ⟨by decide, unique_tags_under_protocol 16 1024 4 16 ReplacementPolicy.LRU
    [CacheOp.access 1 16 false 0, CacheOp.install 1 0 16 false 0,
     CacheOp.access 2 16 false 0, CacheOp.access 3 32 true 1,
     CacheOp.install 3 0 32 true 1] (by decide) (by decide) (by decide) (by decide)
    (by decide)⟩

end Src

/-! ## Theorems: DRAM address mapping -/

namespace Src

/-- C21 (DRAM address mapping): for line addresses `a`, `b` whose byte address
`line_addr * CACHE_LINESIZE` fits in 64 bits, the bank is below 16 and
`row * 16 + bank` is the 1024-byte group `(line_addr * CACHE_LINESIZE) / 1024`; so equal
bank and row force equal groups, line addresses of one group share bank and row, and the
group after the group of `a` goes to the next bank modulo 16. -/
theorem dram_address_mapping (C a b : Nat) (ha : a * C < 2 ^ 64) (hb : b * C < 2 ^ 64) :
    dram_bank C a < 16 ∧
    dram_row_index C a * 16 + dram_bank C a = (a * C) / 1024 ∧
    (dram_bank C a = dram_bank C b → dram_row_index C a = dram_row_index C b →
      (a * C) / 1024 = (b * C) / 1024) ∧
    ((a * C) / 1024 = (b * C) / 1024 →
      dram_bank C a = dram_bank C b ∧ dram_row_index C a = dram_row_index C b) ∧
    ((b * C) / 1024 = (a * C) / 1024 + 1 → dram_bank C b = (dram_bank C a + 1) % 16) := by
  unfold dram_bank dram_row_index dram_physical_addr NUM_BANKS ROW_BUFFER_SIZE
  rw [Nat.mod_eq_of_lt ha, Nat.mod_eq_of_lt hb]
  generalize a * C = x
  generalize b * C = y
  omega

/-- Evaluation of C21 with 64-byte lines at line addresses 17 and 33: byte addresses 1088
and 2112 lie in groups 1 and 2, which are banks 1 and 2 of row 0. -/
theorem dram_address_mapping_witness :
    dram_bank 64 17 = 1 ∧ dram_bank 64 33 = 2 ∧ dram_row_index 64 17 = 0 ∧
    (dram_bank 64 17 < 16 ∧
    dram_row_index 64 17 * 16 + dram_bank 64 17 = (17 * 64) / 1024 ∧
    (dram_bank 64 17 = dram_bank 64 33 → dram_row_index 64 17 = dram_row_index 64 33 →
      (17 * 64) / 1024 = (33 * 64) / 1024) ∧
    ((17 * 64) / 1024 = (33 * 64) / 1024 →
      dram_bank 64 17 = dram_bank 64 33 ∧ dram_row_index 64 17 = dram_row_index 64 33) ∧
    ((33 * 64) / 1024 = (17 * 64) / 1024 + 1 → dram_bank 64 33 = (dram_bank 64 17 + 1) % 16)) :=
  ⟨by decide, by decide, by decide, dram_address_mapping 64 17 33 (by norm_num) (by norm_num)⟩

end Src

/-! ## Theorems: cache, construction and hit effects -/

namespace Src

set_option maxRecDepth 100000 in
/-- C31 as stated fails: cache_new makes no check.  With `size = 1000`, which is not a
multiple of `4 * 16`, and both allocations successful, the call returns a cache, with 15
sets. -/
theorem cache_new_accepts_bad_sizes :
    1000 % (4 * 16) ≠ 0 ∧
    cache_new_call 16 true true 1000 4 16 ReplacementPolicy.LRU
      = Except.ok (cache_new 16 1000 4 16 ReplacementPolicy.LRU) ∧
    (cache_new 16 1000 4 16 ReplacementPolicy.LRU).num_sets = 15 := by
  decide

/-- C31, amended: cache_new does not check its parameters.  Whenever the 64-bit product
`associativity * line_size` is not 0 and both calls of `calloc` return memory, the call
returns a cache with `num_sets = size / (associativity * line_size)` rounded down (the
exact quotient of the claim when the product fits in 64 bits), `num_ways = associativity`,
every line invalid and all counters zero; this includes the sizes that are not multiples of
`associativity * line_size`.  When one of the two calls of `calloc` returns NULL the call
ends in `exit(1)` and returns no cache. -/
theorem cache_new_returns_cache (M size assoc ls : Nat) (pol : ReplacementPolicy)
    (h : (assoc * ls) % 2 ^ 64 ≠ 0) :
    cache_new_call M true true size assoc ls pol
      = Except.ok (cache_new M size assoc ls pol) ∧
    (∀ calloc_cache calloc_sets : Bool, (calloc_cache = false ∨ calloc_sets = false) →
      cache_new_call M calloc_cache calloc_sets size assoc ls pol
        = Except.error CacheNewStop.exit_1) ∧
    (cache_new M size assoc ls pol).num_sets = size / ((assoc * ls) % 2 ^ 64) ∧
    (assoc * ls < 2 ^ 64 → (cache_new M size assoc ls pol).num_sets = size / (assoc * ls)) ∧
    (cache_new M size assoc ls pol).num_ways = assoc ∧
    (∀ s i, ((cache_new M size assoc ls pol).line s i).valid = false) ∧
    (cache_new M size assoc ls pol).stat_read_access = 0 ∧
    (cache_new M size assoc ls pol).stat_write_access = 0 ∧
    (cache_new M size assoc ls pol).stat_read_miss = 0 ∧
    (cache_new M size assoc ls pol).stat_write_miss = 0 ∧
    (cache_new M size assoc ls pol).stat_dirty_evicts = 0 := by
  refine ⟨?_, ?_, rfl, ?_, rfl, ?_, rfl, rfl, rfl, rfl, rfl⟩
  · unfold cache_new_call
    simp only [Bool.not_true, Bool.false_eq_true, if_false, if_neg h]
  · intro a b hab
    unfold cache_new_call
    cases a
    · rfl
    · cases b
      · simp only [Bool.not_true, Bool.false_eq_true, if_false, if_neg h, Bool.not_false,
          if_true]
      · simp at hab
  · intro hlt
    show size / ((assoc * ls) % 2 ^ 64) = size / (assoc * ls)
    rw [Nat.mod_eq_of_lt hlt]
  · intro s i
    rw [cache_new_line]
    rfl

set_option maxRecDepth 100000 in
/-- Evaluation of the amended C31 at `cache_new(1000, 4, 16, LRU)`: 15 sets of 4 ways when
both allocations succeed, `exit(1)` when the second one fails. -/
theorem cache_new_returns_cache_witness :
    (4 * 16) % 2 ^ 64 ≠ 0 ∧ (cache_new 16 1000 4 16 ReplacementPolicy.LRU).num_sets = 15 ∧
    cache_new_call 16 true false 1000 4 16 ReplacementPolicy.LRU
      = Except.error CacheNewStop.exit_1 ∧
    (cache_new_call 16 true true 1000 4 16 ReplacementPolicy.LRU
      = Except.ok (cache_new 16 1000 4 16 ReplacementPolicy.LRU) ∧
    (∀ calloc_cache calloc_sets : Bool, (calloc_cache = false ∨ calloc_sets = false) →
      cache_new_call 16 calloc_cache calloc_sets 1000 4 16 ReplacementPolicy.LRU
        = Except.error CacheNewStop.exit_1) ∧
    (cache_new 16 1000 4 16 ReplacementPolicy.LRU).num_sets = 1000 / ((4 * 16) % 2 ^ 64) ∧
    (4 * 16 < 2 ^ 64 →
      (cache_new 16 1000 4 16 ReplacementPolicy.LRU).num_sets = 1000 / (4 * 16)) ∧
    (cache_new 16 1000 4 16 ReplacementPolicy.LRU).num_ways = 4 ∧
    (∀ s i, ((cache_new 16 1000 4 16 ReplacementPolicy.LRU).line s i).valid = false) ∧
    (cache_new 16 1000 4 16 ReplacementPolicy.LRU).stat_read_access = 0 ∧
    (cache_new 16 1000 4 16 ReplacementPolicy.LRU).stat_write_access = 0 ∧
    (cache_new 16 1000 4 16 ReplacementPolicy.LRU).stat_read_miss = 0 ∧
    (cache_new 16 1000 4 16 ReplacementPolicy.LRU).stat_write_miss = 0 ∧
    (cache_new 16 1000 4 16 ReplacementPolicy.LRU).stat_dirty_evicts = 0) :=
  ⟨by decide, by decide, by decide,
    cache_new_returns_cache 16 1000 4 16 ReplacementPolicy.LRU (by decide)⟩

/-- C35 (hit effects): when cache_access returns HIT on a well-formed cache at cycle `t`,
the lookup loop has found a way `w < num_ways` of the indexed set whose tag is the tag of
the address; after the call the dirty flag of `w` is its old dirty flag OR `is_write`, its
`last_access_time` is `t`, its valid flag, tag, line address and core id are as before, and
every other way of the cache is as before. -/
theorem cache_access_hit_effects (t : Nat) (c : Cache) (a : Nat) (wr : Bool) (core : Nat)
    (hwf : c.wf) (hs : 1 ≤ c.num_sets)
    (hhit : (cache_access t c a wr core).1 = CacheResult.HIT) :
    ∃ w, w < c.num_ways ∧
      cache_access_scan (c.sets.getD (cache_set_index c a) ⟨[]⟩).ways (cache_tag c a)
        c.num_ways 0 = some w ∧
      (c.line (cache_set_index c a) w).tag = cache_tag c a ∧
      ((cache_access t c a wr core).2.line (cache_set_index c a) w).dirty
        = ((c.line (cache_set_index c a) w).dirty || wr) ∧
      ((cache_access t c a wr core).2.line (cache_set_index c a) w).last_access_time = t ∧
      ((cache_access t c a wr core).2.line (cache_set_index c a) w).valid
        = (c.line (cache_set_index c a) w).valid ∧
      ((cache_access t c a wr core).2.line (cache_set_index c a) w).tag
        = (c.line (cache_set_index c a) w).tag ∧
      ((cache_access t c a wr core).2.line (cache_set_index c a) w).line_addr
        = (c.line (cache_set_index c a) w).line_addr ∧
      ((cache_access t c a wr core).2.line (cache_set_index c a) w).core_id
        = (c.line (cache_set_index c a) w).core_id ∧
      ∀ s i, (s ≠ cache_set_index c a ∨ i ≠ w) →
        (cache_access t c a wr core).2.line s i = c.line s i := by
  rcases cache_access_cases t c a wr core with ⟨w, hscan, _⟩ | ⟨_, hmiss⟩
  · obtain ⟨_, hw, htag⟩ := cache_access_scan_some _ _ _ _ _ hscan
    have hsi := cache_set_index_lt c a hwf hs
    have hlen := ways_length_of_wf c (cache_set_index c a) hwf hsi
    have key : ∀ (c1 : Cache), c1.sets = c.sets → ∀ l,
        (c1.setLine (cache_set_index c a) w l).line (cache_set_index c a) w = l := by
      intro c1 h1 l
      exact line_setLine_same c1 _ _ l (by rw [h1]; exact hsi) (by rw [h1]; omega)
    refine ⟨w, by omega, hscan, htag, ?_⟩
    rw [cache_access_of_scan_some t c a wr core w hscan]
    dsimp only
    rw [key]
    · refine ⟨?_, rfl, rfl, rfl, rfl, rfl, ?_⟩
      · cases wr <;> simp
      · intro s i h
        exact line_setLine_other _ _ _ _ s i h
    · rfl
  · rw [hmiss] at hhit
    exact absurd hhit (by decide)

set_option maxRecDepth 100000 in
/-- Evaluation of C35 on `sampleCache`: the write to line address 22 at cycle 10 hits way 1
of set 0, which becomes dirty with timestamp 10. -/
theorem cache_access_hit_effects_witness :
    (cache_access 10 sampleCache 22 true 0).1 = CacheResult.HIT ∧
    ((cache_access 10 sampleCache 22 true 0).2.line 0 1).dirty = true ∧
    ∃ w, w < sampleCache.num_ways ∧
      cache_access_scan (sampleCache.sets.getD (cache_set_index sampleCache 22) ⟨[]⟩).ways
        (cache_tag sampleCache 22) sampleCache.num_ways 0 = some w ∧
      (sampleCache.line (cache_set_index sampleCache 22) w).tag = cache_tag sampleCache 22 ∧
      ((cache_access 10 sampleCache 22 true 0).2.line (cache_set_index sampleCache 22) w).dirty
        = ((sampleCache.line (cache_set_index sampleCache 22) w).dirty || true) ∧
      ((cache_access 10 sampleCache 22 true 0).2.line (cache_set_index sampleCache 22)
        w).last_access_time = 10 ∧
      ((cache_access 10 sampleCache 22 true 0).2.line (cache_set_index sampleCache 22) w).valid
        = (sampleCache.line (cache_set_index sampleCache 22) w).valid ∧
      ((cache_access 10 sampleCache 22 true 0).2.line (cache_set_index sampleCache 22) w).tag
        = (sampleCache.line (cache_set_index sampleCache 22) w).tag ∧
      ((cache_access 10 sampleCache 22 true 0).2.line (cache_set_index sampleCache 22)
        w).line_addr = (sampleCache.line (cache_set_index sampleCache 22) w).line_addr ∧
      ((cache_access 10 sampleCache 22 true 0).2.line (cache_set_index sampleCache 22)
        w).core_id = (sampleCache.line (cache_set_index sampleCache 22) w).core_id ∧
      ∀ s i, (s ≠ cache_set_index sampleCache 22 ∨ i ≠ w) →
        (cache_access 10 sampleCache 22 true 0).2.line s i = sampleCache.line s i :=
  ⟨by decide, by decide,
    cache_access_hit_effects 10 sampleCache 22 true 0 (by decide) (by decide) (by decide)⟩

end Src

/-! ## Theorems: secure TLB, the core-id precondition -/

namespace SrcCoat

/-- The four secure-TLB functions stop exactly when their fault functions say so, with the
same fault. -/
theorem fault_agrees (tlb : TLB) (vpn pfn threshold : Nat) (w : Bool) (c : Nat) (f : Fault) :
    (tlb_randomize tlb vpn c = Except.error f ↔ ∃ t, tlb_randomize_fault tlb c = some (f, t)) ∧
    (tlb_set_miss_threshold tlb c threshold = Except.error f ↔
      ∃ t, tlb_set_miss_threshold_fault tlb c = some (f, t)) ∧
    (tlb_access tlb vpn w c = Except.error f ↔ ∃ t, tlb_access_fault tlb vpn w c = some (f, t)) ∧
    (tlb_install tlb vpn pfn w c = Except.error f ↔
      ∃ t, tlb_install_fault tlb vpn c = some (f, t)) := by
  refine ⟨?_, ?_, ?_, ?_⟩
  · unfold tlb_randomize tlb_randomize_fault
    by_cases h : c < tlb.num_cores
    · simp [h]
    · simp [h, eq_comm]
  · unfold tlb_set_miss_threshold tlb_set_miss_threshold_fault
    by_cases h : c < tlb.num_cores
    · simp [h]
    · simp [h, eq_comm]
  · unfold tlb_access tlb_access_fault
    by_cases h : c < tlb.num_cores
    · have h1 : c < (tlb_count_access tlb w).num_cores := by
        unfold tlb_count_access
        cases w <;> exact h
      obtain ⟨idx, hidx⟩ := tlb_randomize_ok (tlb_count_access tlb w) vpn c h1
      have hidx2 := hidx
      unfold tlb_count_access at hidx2
      simp only [h, not_true_eq_false, if_false, hidx, hidx2]
      constructor
      · intro he
        split at he <;> simp at he
      · intro he
        simp at he
    · simp [h, eq_comm]
  · unfold tlb_install tlb_install_fault
    by_cases h : c < tlb.num_cores
    · obtain ⟨idx, hidx⟩ := tlb_randomize_ok tlb vpn c h
      simp only [h, not_true_eq_false, if_false, hidx]
      cases tlb_install_victim tlb idx with
      | none => simp [eq_comm]
      | some v => simp
    · simp [h, eq_comm]

/-- C32 (core-id precondition): each of secure tlb_access, tlb_install, tlb_randomize and
tlb_set_miss_threshold stops with a failed assertion exactly when `core_id ≥ num_cores`;
when it does, this is the `assert` that opens the function, and the TLB object (entries,
per-core state, statistics) is as at the call. -/
theorem core_id_precondition (tlb : TLB) (vpn pfn threshold : Nat) (w : Bool) (c : Nat) :
    (tlb_randomize tlb vpn c = Except.error Fault.assertion_failed ↔ tlb.num_cores ≤ c) ∧
    (tlb_set_miss_threshold tlb c threshold = Except.error Fault.assertion_failed ↔
      tlb.num_cores ≤ c) ∧
    (tlb_access tlb vpn w c = Except.error Fault.assertion_failed ↔ tlb.num_cores ≤ c) ∧
    (tlb_install tlb vpn pfn w c = Except.error Fault.assertion_failed ↔ tlb.num_cores ≤ c) ∧
    (tlb.num_cores ≤ c →
      tlb_randomize_fault tlb c = some (Fault.assertion_failed, tlb) ∧
      tlb_set_miss_threshold_fault tlb c = some (Fault.assertion_failed, tlb) ∧
      tlb_access_fault tlb vpn w c = some (Fault.assertion_failed, tlb) ∧
      tlb_install_fault tlb vpn c = some (Fault.assertion_failed, tlb)) := by
  obtain ⟨a1, a2, a3, a4⟩ := fault_agrees tlb vpn pfn threshold w c Fault.assertion_failed
  have hr : c < tlb.num_cores → ∀ t, tlb_randomize_fault tlb c ≠ some (Fault.assertion_failed, t) := by
    intro h t
    unfold tlb_randomize_fault
    simp [h]
  have hs : c < tlb.num_cores →
      ∀ t, tlb_set_miss_threshold_fault tlb c ≠ some (Fault.assertion_failed, t) := by
    intro h t
    unfold tlb_set_miss_threshold_fault
    simp [h]
  have ha : c < tlb.num_cores →
      ∀ t, tlb_access_fault tlb vpn w c ≠ some (Fault.assertion_failed, t) := by
    intro h t
    have h1 : c < (tlb_count_access tlb w).num_cores := by
      unfold tlb_count_access
      cases w <;> exact h
    obtain ⟨idx, hidx⟩ := tlb_randomize_ok (tlb_count_access tlb w) vpn c h1
    unfold tlb_access_fault
    simp [h, hidx]
  have hi : c < tlb.num_cores →
      ∀ t, tlb_install_fault tlb vpn c ≠ some (Fault.assertion_failed, t) := by
    intro h t
    obtain ⟨idx, hidx⟩ := tlb_randomize_ok tlb vpn c h
    unfold tlb_install_fault
    simp only [h, not_true_eq_false, if_false, hidx]
    cases tlb_install_victim tlb idx <;> simp
  have e1 : tlb.num_cores ≤ c → tlb_randomize_fault tlb c = some (Fault.assertion_failed, tlb) := by
    intro h
    unfold tlb_randomize_fault
    rw [if_neg (by omega)]
  have e2 : tlb.num_cores ≤ c →
      tlb_set_miss_threshold_fault tlb c = some (Fault.assertion_failed, tlb) := by
    intro h
    unfold tlb_set_miss_threshold_fault
    rw [if_neg (by omega)]
  have e3 : tlb.num_cores ≤ c →
      tlb_access_fault tlb vpn w c = some (Fault.assertion_failed, tlb) := by
    intro h
    unfold tlb_access_fault
    rw [if_pos (by omega)]
  have e4 : tlb.num_cores ≤ c →
      tlb_install_fault tlb vpn c = some (Fault.assertion_failed, tlb) := by
    intro h
    unfold tlb_install_fault
    rw [if_pos (by omega)]
  refine ⟨?_, ?_, ?_, ?_, fun h => ⟨e1 h, e2 h, e3 h, e4 h⟩⟩
  · rw [a1]
    constructor
    · rintro ⟨t, ht⟩
      by_contra hc
      exact hr (by omega) t ht
    · intro h
      exact ⟨tlb, e1 h⟩
  · rw [a2]
    constructor
    · rintro ⟨t, ht⟩
      by_contra hc
      exact hs (by omega) t ht
    · intro h
      exact ⟨tlb, e2 h⟩
  · rw [a3]
    constructor
    · rintro ⟨t, ht⟩
      by_contra hc
      exact ha (by omega) t ht
    · intro h
      exact ⟨tlb, e3 h⟩
  · rw [a4]
    constructor
    · rintro ⟨t, ht⟩
      by_contra hc
      exact hi (by omega) t ht
    · intro h
      exact ⟨tlb, e4 h⟩

end SrcCoat

/-! ## Theorems: the cipher, nibbles and lanes -/

namespace SrcCoat

/-- Nibble `i` of the partial sum over nibbles `0..k` is the S-box output for nibble
`i`. -/
theorem s_sum_nibble (block : Nat) :
    ∀ (k i : Nat), i ≤ k → (s_sum block k / 16 ^ i) % 16 = s_nibble block i := by
  intro k
  induction k with
  | zero =>
    intro i hi
    have hi0 : i = 0 := by omega
    subst hi0
    have := s_nibble_lt block 0
    simp only [s_sum, pow_zero, Nat.div_one]
    omega
  | succ k ih =>
    intro i hi
    have hn := s_nibble_lt block (k + 1)
    have hlt := s_sum_lt block k
    simp only [s_sum]
    rcases Nat.lt_or_ge i (k + 1) with h | h
    · have hpos : 0 < 16 ^ i := by positivity
      have e : s_nibble block (k + 1) * 16 ^ (k + 1)
          = 16 ^ i * (16 * (s_nibble block (k + 1) * 16 ^ (k - i))) := by
        have : 16 ^ (k + 1) = 16 ^ i * (16 * 16 ^ (k - i)) := by
          rw [← pow_succ', ← pow_add]
          congr 1
          omega
        rw [this]
        ring
      rw [e, Nat.add_mul_div_left _ _ hpos, Nat.add_mul_mod_self_left]
      exact ih i (by omega)
    · have hik : i = k + 1 := by omega
      subst hik
      have hpos : 0 < 16 ^ (k + 1) := by positivity
      rw [Nat.mul_comm, Nat.add_mul_div_left _ _ hpos, Nat.div_eq_of_lt hlt]
      omega

/-- Nibble `i` of the output of prince_s_layer is the S-box entry for nibble `i` of the
input, in terms of division and remainder. -/
theorem s_layer_nibble (block i : Nat) (hi : i ≤ 15) :
    (prince_s_layer block / 16 ^ i) % 16 = PRINCE_SBOX.getD ((block / 16 ^ i) % 16) 0 := by
  rw [s_layer_eq, s_sum_nibble block 15 i hi]
  unfold s_nibble
  rw [nibble_index]

/-- The shift by `4 * i` and the mask `0xF` select nibble `i`. -/
theorem nibble_shift_mask (x i : Nat) : (x >>> (4 * i)) &&& 0xF = (x / 16 ^ i) % 16 := by
  have e : 4 * i = i <<< 2 := by
    rw [Nat.shiftLeft_eq]
    omega
  rw [e, nibble_index]

/-- C36 (S layer, nibble by nibble): for every block and every `i < 16`, nibble `i` of
`prince_s_layer(block)`, its bits `4i .. 4i+3`, is `PRINCE_SBOX` at nibble `i` of
`block`. -/
theorem prince_s_layer_nibblewise (block i : Nat) (hi : i < 16) :
    (prince_s_layer block >>> (4 * i)) &&& 0xF
      = PRINCE_SBOX.getD ((block >>> (4 * i)) &&& 0xF) 0 := by
  rw [nibble_shift_mask, nibble_shift_mask]
  exact s_layer_nibble block i (by omega)

set_option maxRecDepth 1000000 in
/-- Evaluation of C36 on the block `0x0123456789ABCDEF` at nibble 3: the input nibble is
`0xC` and the output nibble is `PRINCE_SBOX[0xC] = 0xE`. -/
theorem prince_s_layer_nibblewise_witness :
    (0x0123456789ABCDEF >>> (4 * 3)) &&& 0xF = 0xC ∧
    (prince_s_layer 0x0123456789ABCDEF >>> (4 * 3)) &&& 0xF = 0xE ∧
    (prince_s_layer 0x0123456789ABCDEF >>> (4 * 3)) &&& 0xF
      = PRINCE_SBOX.getD ((0x0123456789ABCDEF >>> (4 * 3)) &&& 0xF) 0 :=
  ⟨by decide, by decide, prince_s_layer_nibblewise 0x0123456789ABCDEF 3 (by decide)⟩

/-- Bit `b` of lane `j` is bit `16j + b` of the block, for `b < 16`. -/
theorem lane_testBit (j x b : Nat) :
    (lane j x).testBit b = (decide (b < 16) && x.testBit (16 * j + b)) := by
  unfold lane
  rw [Nat.testBit_mod_two_pow, Nat.testBit_shiftRight]

/-- A lane is a 16-bit value. -/
theorem lane_lt (j x : Nat) : lane j x < 2 ^ 16 :=
  Nat.mod_lt _ (by norm_num)

/-- The lane of an XOR is the XOR of the lanes. -/
theorem lane_xor (j a b : Nat) : lane j (a ^^^ b) = lane j a ^^^ lane j b := by
  apply Nat.eq_of_testBit_eq
  intro i
  rw [Nat.testBit_xor, lane_testBit, lane_testBit, lane_testBit, Nat.testBit_xor]
  cases decide (i < 16) <;> simp

/-- A 64-bit value is determined by its four lanes. -/
theorem eq_of_lanes (p q : Nat) (hp : p < 2 ^ 64) (hq : q < 2 ^ 64)
    (h : ∀ j, j < 4 → lane j p = lane j q) : p = q := by
  have h0 := h 0 (by norm_num)
  have h1 := h 1 (by norm_num)
  have h2 := h 2 (by norm_num)
  have h3 := h 3 (by norm_num)
  simp only [lane, Nat.shiftRight_eq_div_pow] at h0 h1 h2 h3
  omega

/-- The loop of prince_gf2_mul_16 reads only the bits below 16 of its input. -/
theorem mul_loop_mod (v : Nat) (mat : List Nat) :
    ∀ (k i out : Nat), i + k ≤ 16 →
      prince_gf2_mul_16_loop v mat k i out = prince_gf2_mul_16_loop (v % 2 ^ 16) mat k i out := by
  intro k
  induction k with
  | zero => intro i out _; rfl
  | succ k ih =>
    intro i out h
    unfold prince_gf2_mul_16_loop
    have hc : ((v % 2 ^ 16) >>> i &&& 1 ≠ 0) ↔ (v >>> i &&& 1 ≠ 0) := by
      rw [mul_cond_iff, mul_cond_iff, Nat.testBit_mod_two_pow]
      have : decide (i < 16) = true := decide_eq_true (by omega)
      rw [this, Bool.true_and]
    by_cases hb : v >>> i &&& 1 ≠ 0
    · rw [if_pos hb, if_pos (hc.mpr hb)]
      exact ih (i + 1) _ (by omega)
    · rw [if_neg hb, if_neg (fun h2 => hb (hc.mp h2))]
      exact ih (i + 1) _ (by omega)

/-- The product prince_gf2_mul_16 depends only on the low 16 bits of its input. -/
theorem mul_mod (v : Nat) (mat : List Nat) :
    prince_gf2_mul_16 v mat = prince_gf2_mul_16 (v % 2 ^ 16) mat :=
  mul_loop_mod v mat 16 0 0 (by norm_num)

/-- The matrices of all four lanes have 16-bit rows and square to the identity. -/
theorem lane_matrix_cases (j : Nat) :
    lane_matrix j = PRINCE_M0 ∨ lane_matrix j = PRINCE_M1 := by
  unfold lane_matrix
  split
  · exact Or.inl rfl
  · exact Or.inr rfl

/-- Lane `j` of the output of prince_m_prime_layer is the product of lane `j` of the input
with the matrix of that lane. -/
theorem lane_m_prime (j x : Nat) (hj : j < 4) :
    lane j (prince_m_prime_layer x) = prince_gf2_mul_16 (lane j x) (lane_matrix j) := by
  rw [m_prime_eq]
  have a0 := mul_M0_lt x
  have a1 := mul_M1_lt (x >>> 16)
  have a2 := mul_M1_lt (x >>> 32)
  have a3 := mul_M0_lt (x >>> 48)
  have e0 := mul_mod x PRINCE_M0
  have e1 := mul_mod (x >>> 16) PRINCE_M1
  have e2 := mul_mod (x >>> 32) PRINCE_M1
  have e3 := mul_mod (x >>> 48) PRINCE_M0
  have hcases : j = 0 ∨ j = 1 ∨ j = 2 ∨ j = 3 := by omega
  have key : ∀ (o0 o1 o2 o3 : Nat), o0 < 2 ^ 16 → o1 < 2 ^ 16 → o2 < 2 ^ 16 → o3 < 2 ^ 16 →
      lane 0 (o3 * 2 ^ 48 + o2 * 2 ^ 32 + o1 * 2 ^ 16 + o0) = o0 ∧
      lane 1 (o3 * 2 ^ 48 + o2 * 2 ^ 32 + o1 * 2 ^ 16 + o0) = o1 ∧
      lane 2 (o3 * 2 ^ 48 + o2 * 2 ^ 32 + o1 * 2 ^ 16 + o0) = o2 ∧
      lane 3 (o3 * 2 ^ 48 + o2 * 2 ^ 32 + o1 * 2 ^ 16 + o0) = o3 := by
    intro o0 o1 o2 o3 h0 h1 h2 h3
    simp only [lane, Nat.shiftRight_eq_div_pow]
    norm_num
    omega
  obtain ⟨k0, k1, k2, k3⟩ := key _ _ _ _ a0 a1 a2 a3
  rcases hcases with rfl | rfl | rfl | rfl
  · have hm : lane_matrix 0 = PRINCE_M0 := by decide
    have hl : lane 0 x = x % 2 ^ 16 := by simp [lane]
    rw [hm, hl, ← e0]
    exact k0
  · have hm : lane_matrix 1 = PRINCE_M1 := by decide
    have hl : lane 1 x = (x >>> 16) % 2 ^ 16 := rfl
    rw [hm, hl, ← e1]
    exact k1
  · have hm : lane_matrix 2 = PRINCE_M1 := by decide
    have hl : lane 2 x = (x >>> 32) % 2 ^ 16 := rfl
    rw [hm, hl, ← e2]
    exact k2
  · have hm : lane_matrix 3 = PRINCE_M0 := by decide
    have hl : lane 3 x = (x >>> 48) % 2 ^ 16 := rfl
    rw [hm, hl, ← e3]
    exact k3

/-- Lane `j` of the output of prince_s_layer is the S-box applied to the four nibbles of
lane `j` of the input. -/
theorem lane_s_layer (j x : Nat) (hj : j < 4) :
    lane j (prince_s_layer x) = s_lane (lane j x) := by
  have hcases : j = 0 ∨ j = 1 ∨ j = 2 ∨ j = 3 := by omega
  rcases hcases with rfl | rfl | rfl | rfl
  · have hl : lane 0 x = x / 1 % 65536 := by simp [lane, Nat.shiftRight_eq_div_pow]
    have hly : lane 0 (prince_s_layer x) = prince_s_layer x / 1 % 65536 := by
      simp [lane, Nat.shiftRight_eq_div_pow]
    have n0 : prince_s_layer x / 1 % 16 = PRINCE_SBOX.getD (x / 1 % 16) 0 :=
      s_layer_nibble x 0 (by norm_num)
    have n1 : prince_s_layer x / 16 % 16 = PRINCE_SBOX.getD (x / 16 % 16) 0 :=
      s_layer_nibble x 1 (by norm_num)
    have n2 : prince_s_layer x / 256 % 16 = PRINCE_SBOX.getD (x / 256 % 16) 0 :=
      s_layer_nibble x 2 (by norm_num)
    have n3 : prince_s_layer x / 4096 % 16 = PRINCE_SBOX.getD (x / 4096 % 16) 0 :=
      s_layer_nibble x 3 (by norm_num)
    have q0 : x / 1 % 65536 % 16 = x / 1 % 16 := by omega
    have q1 : x / 1 % 65536 / 16 % 16 = x / 16 % 16 := by omega
    have q2 : x / 1 % 65536 / 256 % 16 = x / 256 % 16 := by omega
    have q3 : x / 1 % 65536 / 4096 % 16 = x / 4096 % 16 := by omega
    rw [hl, hly]
    unfold s_lane
    rw [q0, q1, q2, q3, ← n0, ← n1, ← n2, ← n3]
    omega
  · have hl : lane 1 x = x / 65536 % 65536 := by simp [lane, Nat.shiftRight_eq_div_pow]
    have hly : lane 1 (prince_s_layer x) = prince_s_layer x / 65536 % 65536 := by
      simp [lane, Nat.shiftRight_eq_div_pow]
    have n0 : prince_s_layer x / 65536 % 16 = PRINCE_SBOX.getD (x / 65536 % 16) 0 :=
      s_layer_nibble x 4 (by norm_num)
    have n1 : prince_s_layer x / 1048576 % 16 = PRINCE_SBOX.getD (x / 1048576 % 16) 0 :=
      s_layer_nibble x 5 (by norm_num)
    have n2 : prince_s_layer x / 16777216 % 16 = PRINCE_SBOX.getD (x / 16777216 % 16) 0 :=
      s_layer_nibble x 6 (by norm_num)
    have n3 : prince_s_layer x / 268435456 % 16 = PRINCE_SBOX.getD (x / 268435456 % 16) 0 :=
      s_layer_nibble x 7 (by norm_num)
    have q0 : x / 65536 % 65536 % 16 = x / 65536 % 16 := by omega
    have q1 : x / 65536 % 65536 / 16 % 16 = x / 1048576 % 16 := by omega
    have q2 : x / 65536 % 65536 / 256 % 16 = x / 16777216 % 16 := by omega
    have q3 : x / 65536 % 65536 / 4096 % 16 = x / 268435456 % 16 := by omega
    rw [hl, hly]
    unfold s_lane
    rw [q0, q1, q2, q3, ← n0, ← n1, ← n2, ← n3]
    omega
  · have hl : lane 2 x = x / 4294967296 % 65536 := by simp [lane, Nat.shiftRight_eq_div_pow]
    have hly : lane 2 (prince_s_layer x) = prince_s_layer x / 4294967296 % 65536 := by
      simp [lane, Nat.shiftRight_eq_div_pow]
    have n0 : prince_s_layer x / 4294967296 % 16 = PRINCE_SBOX.getD (x / 4294967296 % 16) 0 :=
      s_layer_nibble x 8 (by norm_num)
    have n1 : prince_s_layer x / 68719476736 % 16 = PRINCE_SBOX.getD (x / 68719476736 % 16) 0 :=
      s_layer_nibble x 9 (by norm_num)
    have n2 : prince_s_layer x / 1099511627776 % 16 = PRINCE_SBOX.getD (x / 1099511627776 % 16) 0 :=
      s_layer_nibble x 10 (by norm_num)
    have n3 : prince_s_layer x / 17592186044416 % 16 = PRINCE_SBOX.getD (x / 17592186044416 % 16) 0 :=
      s_layer_nibble x 11 (by norm_num)
    have q0 : x / 4294967296 % 65536 % 16 = x / 4294967296 % 16 := by omega
    have q1 : x / 4294967296 % 65536 / 16 % 16 = x / 68719476736 % 16 := by omega
    have q2 : x / 4294967296 % 65536 / 256 % 16 = x / 1099511627776 % 16 := by omega
    have q3 : x / 4294967296 % 65536 / 4096 % 16 = x / 17592186044416 % 16 := by omega
    rw [hl, hly]
    unfold s_lane
    rw [q0, q1, q2, q3, ← n0, ← n1, ← n2, ← n3]
    omega
  · have hl : lane 3 x = x / 281474976710656 % 65536 := by simp [lane, Nat.shiftRight_eq_div_pow]
    have hly : lane 3 (prince_s_layer x) = prince_s_layer x / 281474976710656 % 65536 := by
      simp [lane, Nat.shiftRight_eq_div_pow]
    have n0 : prince_s_layer x / 281474976710656 % 16 = PRINCE_SBOX.getD (x / 281474976710656 % 16) 0 :=
      s_layer_nibble x 12 (by norm_num)
    have n1 : prince_s_layer x / 4503599627370496 % 16 = PRINCE_SBOX.getD (x / 4503599627370496 % 16) 0 :=
      s_layer_nibble x 13 (by norm_num)
    have n2 : prince_s_layer x / 72057594037927936 % 16 = PRINCE_SBOX.getD (x / 72057594037927936 % 16) 0 :=
      s_layer_nibble x 14 (by norm_num)
    have n3 : prince_s_layer x / 1152921504606846976 % 16 = PRINCE_SBOX.getD (x / 1152921504606846976 % 16) 0 :=
      s_layer_nibble x 15 (by norm_num)
    have q0 : x / 281474976710656 % 65536 % 16 = x / 281474976710656 % 16 := by omega
    have q1 : x / 281474976710656 % 65536 / 16 % 16 = x / 4503599627370496 % 16 := by omega
    have q2 : x / 281474976710656 % 65536 / 256 % 16 = x / 72057594037927936 % 16 := by omega
    have q3 : x / 281474976710656 % 65536 / 4096 % 16 = x / 1152921504606846976 % 16 := by omega
    rw [hl, hly]
    unfold s_lane
    rw [q0, q1, q2, q3, ← n0, ← n1, ← n2, ← n3]
    omega

/-- Lane `j` of the cipher output is a function of lane `j` of the plaintext and lane `j`
of the key. -/
theorem lane_encrypt_congr (j x y k k2 : Nat) (hj : j < 4) (hx : lane j x = lane j y)
    (hk : lane j k = lane j k2) :
    lane j (tlb_prince_encrypt x k) = lane j (tlb_prince_encrypt y k2) := by
  rw [tlb_prince_encrypt_eq, tlb_prince_encrypt_eq]
  rw [lane_m_prime _ _ hj, lane_m_prime _ _ hj, lane_s_layer _ _ hj, lane_s_layer _ _ hj,
    lane_xor, lane_xor j _ k2, lane_s_layer _ _ hj, lane_s_layer _ _ hj,
    lane_m_prime _ _ hj, lane_m_prime _ _ hj, lane_xor, lane_xor j _ 0xa4093822299f31d0,
    lane_xor, lane_xor j _ k2, lane_s_layer _ _ hj, lane_s_layer _ _ hj,
    lane_m_prime _ _ hj, lane_m_prime _ _ hj, lane_xor, lane_xor j _ 0x13198a2e03707344,
    lane_xor, lane_xor j _ k2, hx, hk]

/-- A single bit lies in one lane: every other lane of `2^i` is 0. -/
theorem lane_two_pow (j i : Nat) (h : j ≠ i / 16) : lane j (2 ^ i) = 0 := by
  apply Nat.eq_of_testBit_eq
  intro b
  rw [lane_testBit, Nat.testBit_two_pow, Nat.zero_testBit]
  by_cases hb : b < 16
  · have : ¬ i = 16 * j + b := by omega
    simp [this]
  · simp [hb]

/-- Flipping bit `i` of a block leaves every lane other than lane `i / 16` as it was. -/
theorem lane_flip (j i x : Nat) (h : j ≠ i / 16) : lane j (x ^^^ 2 ^ i) = lane j x := by
  rw [lane_xor, lane_two_pow j i h, Nat.xor_zero]

/-- Among the bit positions below 64, those of one lane are 16. -/
theorem lane_positions (l : Nat) (hl : l < 4) :
    ((List.range 64).filter fun p => decide (p / 16 = l)).length = 16 := by
  have hcases : l = 0 ∨ l = 1 ∨ l = 2 ∨ l = 3 := by omega
  rcases hcases with rfl | rfl | rfl | rfl <;> decide

/-- Two blocks that agree on every lane other than lane `l` differ in at most 16 of their
64 low bits. -/
theorem hamming64_le_of_lanes (a b l : Nat) (hl : l < 4)
    (h : ∀ j, j < 4 → j ≠ l → lane j a = lane j b) : hamming64 a b ≤ 16 := by
  unfold hamming64
  have e : ((List.range 64).filter fun i => ((a ^^^ b) >>> i) &&& 1 = 1)
      = (List.range 64).filter fun i => decide (i < 64) && decide (((a ^^^ b) >>> i) &&& 1 = 1) := by
    apply List.filter_congr
    intro p hp
    have : p < 64 := List.mem_range.mp hp
    simp [this]
  rw [e, ← lane_positions l hl]
  apply List.Sublist.length_le
  apply List.monotone_filter_right
  intro p hp
  simp only [Bool.and_eq_true, decide_eq_true_eq] at hp ⊢
  obtain ⟨hp64, hp1⟩ := hp
  by_contra hne
  have hj : p / 16 < 4 := by omega
  have hlane := h (p / 16) hj hne
  have hbit := congrArg (fun v => v.testBit (p % 16)) hlane
  simp only [lane_testBit] at hbit
  have hpos : 16 * (p / 16) + p % 16 = p := by omega
  rw [hpos] at hbit
  have hd : decide (p % 16 < 16) = true := decide_eq_true (by omega)
  rw [hd, Bool.true_and, Bool.true_and] at hbit
  have hx : (a ^^^ b).testBit p = true := by
    have := (mul_cond_iff (a ^^^ b) p).mp (by rw [hp1]; decide)
    exact this
  rw [Nat.testBit_xor, hbit] at hx
  simp at hx

/-- C40 (M-prime layer, linear involution): prince_m_prime_layer maps the XOR of two blocks
to the XOR of their images, and applied twice to a 64-bit block it gives the block
back. -/
theorem m_prime_linear_involution (a b x : Nat) (hx : x < 2 ^ 64) :
    prince_m_prime_layer (a ^^^ b) = prince_m_prime_layer a ^^^ prince_m_prime_layer b ∧
    prince_m_prime_layer (prince_m_prime_layer x) = x := by
  constructor
  · apply eq_of_lanes _ _ (m_prime_lt _) (Nat.xor_lt_two_pow (m_prime_lt _) (m_prime_lt _))
    intro j hj
    rw [lane_xor, lane_m_prime _ _ hj, lane_m_prime _ _ hj, lane_m_prime _ _ hj, lane_xor,
      mul_xor]
  · apply eq_of_lanes _ _ (m_prime_lt _) hx
    intro j hj
    rw [lane_m_prime _ _ hj, lane_m_prime _ _ hj]
    have hsq : prince_gf2_mul_16 (prince_gf2_mul_16 (lane j x) (lane_matrix j)) (lane_matrix j)
        = lane j x % 2 ^ 16 := by
      rcases lane_matrix_cases j with h | h
      · rw [h]
        exact mul_mul_of_rows_map PRINCE_M0 M0_rows_map _
      · rw [h]
        exact mul_mul_of_rows_map PRINCE_M1 M1_rows_map _
    rw [hsq]
    exact Nat.mod_eq_of_lt (lane_lt j x)

set_option maxRecDepth 1000000 in
/-- Evaluation of C40 on the blocks `0x0123456789ABCDEF` and `0xFEDCBA9876543210`. -/
theorem m_prime_linear_involution_witness :
    prince_m_prime_layer 0x0123456789ABCDEF = 0x3012456789ABFCDE ∧
    0x0123456789ABCDEF < 2 ^ 64 ∧
    (prince_m_prime_layer (0x0123456789ABCDEF ^^^ 0xFEDCBA9876543210)
      = prince_m_prime_layer 0x0123456789ABCDEF ^^^ prince_m_prime_layer 0xFEDCBA9876543210 ∧
    prince_m_prime_layer (prince_m_prime_layer 0x0123456789ABCDEF) = 0x0123456789ABCDEF) :=
  ⟨by decide, by decide,
    m_prime_linear_involution 0x0123456789ABCDEF 0xFEDCBA9876543210 0x0123456789ABCDEF
      (by decide)⟩

/-- C38 (lane confinement): for every lane `j < 4`, lane `j` of `tlb_prince_encrypt(x, k)`
is determined by lane `j` of `x` and lane `j` of `k`; so the flip of a single bit `i < 64`
of the plaintext or of the key leaves every lane other than lane `i / 16` of the output as
it was, and it changes at most 16 of the 64 output bits. -/
theorem cipher_lane_confinement (x y k k2 j : Nat) (hj : j < 4) :
    (lane j x = lane j y → lane j k = lane j k2 →
      lane j (tlb_prince_encrypt x k) = lane j (tlb_prince_encrypt y k2)) ∧
    (∀ i, i < 64 → j ≠ i / 16 →
      lane j (tlb_prince_encrypt (x ^^^ (1 <<< i)) k) = lane j (tlb_prince_encrypt x k) ∧
      lane j (tlb_prince_encrypt x (k ^^^ (1 <<< i))) = lane j (tlb_prince_encrypt x k)) ∧
    (∀ i, i < 64 →
      hamming64 (tlb_prince_encrypt x k) (tlb_prince_encrypt (x ^^^ (1 <<< i)) k) ≤ 16 ∧
      hamming64 (tlb_prince_encrypt x k) (tlb_prince_encrypt x (k ^^^ (1 <<< i))) ≤ 16) := by
  refine ⟨fun h1 h2 => lane_encrypt_congr j x y k k2 hj h1 h2, ?_, ?_⟩
  · intro i _ hne
    rw [Nat.one_shiftLeft]
    exact ⟨lane_encrypt_congr j _ _ k k hj (lane_flip j i x hne) rfl,
      lane_encrypt_congr j x x _ _ hj rfl (lane_flip j i k hne)⟩
  · intro i hi
    rw [Nat.one_shiftLeft]
    have hl : i / 16 < 4 := by omega
    constructor
    · apply hamming64_le_of_lanes _ _ (i / 16) hl
      intro m hm hne
      exact (lane_encrypt_congr m _ _ k k hm (lane_flip m i x hne) rfl).symm
    · apply hamming64_le_of_lanes _ _ (i / 16) hl
      intro m hm hne
      exact (lane_encrypt_congr m x x _ _ hm rfl (lane_flip m i k hne)).symm

set_option maxRecDepth 1000000 in
/-- Evaluation of C38 at `x = 0`, `k = 0x0011223344556677`, lane 0, against the plaintext
`2^16` and the key with bit 40 flipped: lane 0 of both outputs is `0x4958`. -/
theorem cipher_lane_confinement_witness :
    lane 0 (tlb_prince_encrypt 0 0x0011223344556677) = 0x4958 ∧
    lane 0 (tlb_prince_encrypt 65536 (0x0011223344556677 ^^^ (1 <<< 40))) = 0x4958 ∧
    0 < 4 ∧
    ((lane 0 0 = lane 0 65536 →
      lane 0 0x0011223344556677 = lane 0 (0x0011223344556677 ^^^ (1 <<< 40)) →
      lane 0 (tlb_prince_encrypt 0 0x0011223344556677)
        = lane 0 (tlb_prince_encrypt 65536 (0x0011223344556677 ^^^ (1 <<< 40)))) ∧
    (∀ i, i < 64 → 0 ≠ i / 16 →
      lane 0 (tlb_prince_encrypt (0 ^^^ (1 <<< i)) 0x0011223344556677)
        = lane 0 (tlb_prince_encrypt 0 0x0011223344556677) ∧
      lane 0 (tlb_prince_encrypt 0 (0x0011223344556677 ^^^ (1 <<< i)))
        = lane 0 (tlb_prince_encrypt 0 0x0011223344556677)) ∧
    (∀ i, i < 64 →
      hamming64 (tlb_prince_encrypt 0 0x0011223344556677)
        (tlb_prince_encrypt (0 ^^^ (1 <<< i)) 0x0011223344556677) ≤ 16 ∧
      hamming64 (tlb_prince_encrypt 0 0x0011223344556677)
        (tlb_prince_encrypt 0 (0x0011223344556677 ^^^ (1 <<< i))) ≤ 16)) :=
  ⟨by decide, by decide, by decide,
    cipher_lane_confinement 0 65536 0x0011223344556677 (0x0011223344556677 ^^^ (1 <<< 40)) 0
      (by decide)⟩

/-- A value below `2^16` has only lane 0. -/
theorem lane_small (j c : Nat) (hj : 1 ≤ j) (hc : c < 2 ^ 16) : lane j c = 0 := by
  unfold lane
  rw [Nat.shiftRight_eq_div_pow]
  have hle : 2 ^ 16 ≤ 2 ^ (16 * j) := Nat.pow_le_pow_right (by norm_num) (by omega)
  rw [Nat.div_eq_of_lt (by omega)]
  rfl

/-- The bits from 16 on of a 64-bit value are given by its lanes 1, 2 and 3. -/
theorem shift16_of_lanes (p q : Nat) (hp : p < 2 ^ 64) (hq : q < 2 ^ 64)
    (h : ∀ j, 1 ≤ j → j < 4 → lane j p = lane j q) : p >>> 16 = q >>> 16 := by
  have h1 := h 1 (by norm_num) (by norm_num)
  have h2 := h 2 (by norm_num) (by norm_num)
  have h3 := h 3 (by norm_num) (by norm_num)
  simp only [lane, Nat.shiftRight_eq_div_pow] at h1 h2 h3 ⊢
  omega

/-- C39 (re-randomization reaches ways 0 to 3 only): let two TLB states share key, number
of sets and number of ways, and let `core_id` and `rid` be below `2^16` in both requests.
Then tlb_randomize returns for both, and for every way `i` with `4 ≤ i < num_ways` the two
set indices are equal: a change of rid or of core changes the mapping of ways 0 to 3
only. -/
theorem rerandomization_keeps_high_ways (tlb1 tlb2 : TLB) (vpn c1 c2 : Nat)
    (hkey : tlb1.prince_key = tlb2.prince_key) (hsets : tlb1.num_sets = tlb2.num_sets)
    (hways : tlb1.num_ways = tlb2.num_ways)
    (hc1 : c1 < tlb1.num_cores) (hc2 : c2 < tlb2.num_cores)
    (hb1 : c1 < 2 ^ 16) (hb2 : c2 < 2 ^ 16)
    (hr1 : (tlb1.core c1).rid < 2 ^ 16) (hr2 : (tlb2.core c2).rid < 2 ^ 16) :
    ∃ idx1 idx2, tlb_randomize tlb1 vpn c1 = Except.ok idx1 ∧
      tlb_randomize tlb2 vpn c2 = Except.ok idx2 ∧
      ∀ i, 4 ≤ i → i < tlb1.num_ways → idx1.getD i 0 = idx2.getD i 0 := by
  obtain ⟨idx1, e1, _, g1⟩ := tlb_randomize_indices tlb1 vpn c1 hc1
  obtain ⟨idx2, e2, _, g2⟩ := tlb_randomize_indices tlb2 vpn c2 hc2
  refine ⟨idx1, idx2, e1, e2, ?_⟩
  intro i hi4 hi
  rw [(g1 i hi).1, (g2 i (by rw [← hways]; exact hi)).1, hsets, hkey]
  have hsh : tlb_prince_encrypt vpn (tlb2.prince_key ^^^ c1 ^^^ (tlb1.core c1).rid) >>> 16
      = tlb_prince_encrypt vpn (tlb2.prince_key ^^^ c2 ^^^ (tlb2.core c2).rid) >>> 16 := by
    apply shift16_of_lanes _ _ (tlb_prince_encrypt_lt _ _) (tlb_prince_encrypt_lt _ _)
    intro j hj1 hj4
    apply lane_encrypt_congr j vpn vpn _ _ hj4 rfl
    rw [lane_xor, lane_xor, lane_xor, lane_xor, lane_small j c1 hj1 hb1,
      lane_small j c2 hj1 hb2, lane_small j _ hj1 hr1, lane_small j _ hj1 hr2]
  have hi : i * 4 = 16 + (i * 4 - 16) := by omega
  rw [hi, Nat.shiftRight_add, Nat.shiftRight_add, hsh]

set_option maxRecDepth 1000000 in
/-- Evaluation of C39 on the 4-set, 8-way TLB of `tlb_new(32, 8, 4096, false, 2)` for page 5:
cores 0 and 1 get different set indices in ways 1 to 3 and the same in ways 4 to 7. -/
theorem rerandomization_keeps_high_ways_witness :
    tlb_randomize (tlb_new 16 32 8 4096 false 2) 5 0 = Except.ok [3, 1, 1, 1, 2, 2, 2, 0] ∧
    tlb_randomize (tlb_new 16 32 8 4096 false 2) 5 1 = Except.ok [3, 0, 3, 3, 2, 2, 2, 0] ∧
    ∃ idx1 idx2, tlb_randomize (tlb_new 16 32 8 4096 false 2) 5 0 = Except.ok idx1 ∧
      tlb_randomize (tlb_new 16 32 8 4096 false 2) 5 1 = Except.ok idx2 ∧
      ∀ i, 4 ≤ i → i < (tlb_new 16 32 8 4096 false 2).num_ways →
        idx1.getD i 0 = idx2.getD i 0 :=
  ⟨by decide, by decide,
    rerandomization_keeps_high_ways (tlb_new 16 32 8 4096 false 2)
      (tlb_new 16 32 8 4096 false 2) 5 0 1 rfl rfl rfl (by decide) (by decide) (by decide)
      (by decide) (by decide) (by decide)⟩

end SrcCoat

/-! ## Theorems: static-partition TLB -/

namespace SrcSp

/-- The loop of `log2`, run with enough fuel on `n ≥ 1`, adds to `bits` the exponent `e`
with `2^e ≤ n < 2^(e+1)`. -/
theorem log2_loop_spec : ∀ (fuel n bits : Nat), 1 ≤ n → n < 2 ^ fuel →
    ∃ e, log2_loop fuel n bits = bits + e ∧ 2 ^ e ≤ n ∧ n < 2 ^ (e + 1) := by
  intro fuel
  induction fuel with
  | zero =>
    intro n bits h1 h2
    simp at h2
    omega
  | succ fuel ih =>
    intro n bits h1 h2
    unfold log2_loop
    rw [Nat.shiftRight_eq_div_pow, Nat.pow_one]
    by_cases h : n / 2 ≠ 0
    · rw [if_pos h]
      have hlt : n / 2 < 2 ^ fuel := by
        rw [Nat.pow_succ] at h2
        omega
      obtain ⟨e, he, hlo, hhi⟩ := ih (n / 2) (bits + 1) (by omega) hlt
      refine ⟨e + 1, by rw [he]; omega, ?_, ?_⟩
      · rw [Nat.pow_succ]
        omega
      · rw [Nat.pow_succ] at hhi ⊢
        omega
    · rw [if_neg h]
      exact ⟨0, rfl, by simpa using h1, by
        simp only [Nat.zero_add, Nat.pow_one]
        omega⟩

/-- On a 64-bit value `n ≥ 1` the helper `log2` returns the floor of the binary
logarithm. -/
theorem log2_spec (n : Nat) (h1 : 1 ≤ n) (h64 : n < 2 ^ 64) :
    2 ^ log2 n ≤ n ∧ n < 2 ^ (log2 n + 1) ∧ log2 n < 64 := by
  obtain ⟨e, he, hlo, hhi⟩ := log2_loop_spec 64 n 0 h1 h64
  have hl : log2 n = e := by
    unfold log2
    rw [he, Nat.zero_add]
  rw [hl]
  refine ⟨hlo, hhi, ?_⟩
  have : 2 ^ e < 2 ^ 64 := lt_of_le_of_lt hlo h64
  exact (Nat.pow_lt_pow_iff_right (by norm_num)).mp this

/-- The index mask that tlb_new computes is `2^index_bits - 1`. -/
theorem tlb_new_index_mask (M n assoc ps : Nat) (sh : Bool) (h1 : 1 ≤ n) (h64 : n < 2 ^ 64) :
    (tlb_new M n assoc ps sh).index_mask = 2 ^ (tlb_new M n assoc ps sh).index_bits - 1 := by
  obtain ⟨_, _, hb⟩ := log2_spec n h1 h64
  show ((1 <<< log2 n) % 2 ^ 64 + 2 ^ 64 - 1) % 2 ^ 64 = 2 ^ log2 n - 1
  rw [Nat.one_shiftLeft]
  have hlt : 2 ^ log2 n < 2 ^ 64 := Nat.pow_lt_pow_right (by norm_num) hb
  have hpos : 0 < 2 ^ log2 n := by positivity
  rw [Nat.mod_eq_of_lt hlt]
  have e : 2 ^ log2 n + 2 ^ 64 - 1 = (2 ^ log2 n - 1) + 2 ^ 64 := by omega
  rw [e, Nat.add_mod_right]
  exact Nat.mod_eq_of_lt (by omega)

/-- C37 (index/tag split): on the TLB that tlb_new builds with `num_sets = n`,
`1 ≤ n < 2^64`, power of two or not: `index_bits` is the floor of the binary logarithm of
`n`, `index_mask = 2^index_bits - 1`, and for every 64-bit `vpn` the index
`vpn & index_mask` is below `n` and `(tag << index_bits) | index = vpn` for the tag
`vpn >> index_bits`; so two 64-bit page numbers with the same index and the same tag are
equal. -/
theorem tlb_index_tag_split (M n assoc ps : Nat) (sh : Bool) (vpn vpn2 : Nat)
    (h1 : 1 ≤ n) (h64 : n < 2 ^ 64) (hv : vpn < 2 ^ 64) :
    (tlb_new M n assoc ps sh).num_sets = n ∧
    2 ^ (tlb_new M n assoc ps sh).index_bits ≤ n ∧
    n < 2 ^ ((tlb_new M n assoc ps sh).index_bits + 1) ∧
    (tlb_new M n assoc ps sh).index_mask = 2 ^ (tlb_new M n assoc ps sh).index_bits - 1 ∧
    tlb_index (tlb_new M n assoc ps sh) vpn < n ∧
    ((tlb_tag (tlb_new M n assoc ps sh) vpn <<< (tlb_new M n assoc ps sh).index_bits) % 2 ^ 64)
      ||| tlb_index (tlb_new M n assoc ps sh) vpn = vpn ∧
    (tlb_index (tlb_new M n assoc ps sh) vpn = tlb_index (tlb_new M n assoc ps sh) vpn2 →
      tlb_tag (tlb_new M n assoc ps sh) vpn = tlb_tag (tlb_new M n assoc ps sh) vpn2 →
      vpn = vpn2) := by
  obtain ⟨hlo, hhi, _⟩ := log2_spec n h1 h64
  have hmask := tlb_new_index_mask M n assoc ps sh h1 h64
  have hbits : (tlb_new M n assoc ps sh).index_bits = log2 n := rfl
  have hidx : ∀ v, tlb_index (tlb_new M n assoc ps sh) v = v % 2 ^ log2 n := by
    intro v
    unfold tlb_index
    rw [hmask, hbits, Nat.and_pow_two_sub_one_eq_mod]
  have htag : ∀ v, tlb_tag (tlb_new M n assoc ps sh) v = v / 2 ^ log2 n := by
    intro v
    unfold tlb_tag
    rw [hbits, Nat.shiftRight_eq_div_pow]
  have hpos : 0 < 2 ^ log2 n := by positivity
  refine ⟨rfl, hlo, hhi, hmask, ?_, ?_, ?_⟩
  · rw [hidx]
    exact lt_of_lt_of_le (Nat.mod_lt _ hpos) hlo
  · rw [hidx, htag, hbits, Nat.shiftLeft_eq]
    have hle : vpn / 2 ^ log2 n * 2 ^ log2 n ≤ vpn := Nat.div_mul_le_self _ _
    rw [Nat.mod_eq_of_lt (by omega), Nat.mul_comm,
      ← Nat.mul_add_lt_is_or (Nat.mod_lt _ hpos)]
    exact Nat.div_add_mod _ _
  · intro e1 e2
    rw [hidx, hidx] at e1
    rw [htag, htag] at e2
    rw [← Nat.div_add_mod vpn (2 ^ log2 n), ← Nat.div_add_mod vpn2 (2 ^ log2 n), e1, e2]

set_option maxRecDepth 100000 in
/-- Evaluation of C37 on a TLB with 6 sets (not a power of two): `index_bits = 2`,
`index_mask = 3`, and page 23 has index 3 and tag 5. -/
theorem tlb_index_tag_split_witness :
    (tlb_new 16 6 4 4096 false).index_bits = 2 ∧ (tlb_new 16 6 4 4096 false).index_mask = 3 ∧
    tlb_index (tlb_new 16 6 4 4096 false) 23 = 3 ∧ tlb_tag (tlb_new 16 6 4 4096 false) 23 = 5 ∧
    ((tlb_new 16 6 4 4096 false).num_sets = 6 ∧
    2 ^ (tlb_new 16 6 4 4096 false).index_bits ≤ 6 ∧
    6 < 2 ^ ((tlb_new 16 6 4 4096 false).index_bits + 1) ∧
    (tlb_new 16 6 4 4096 false).index_mask = 2 ^ (tlb_new 16 6 4 4096 false).index_bits - 1 ∧
    tlb_index (tlb_new 16 6 4 4096 false) 23 < 6 ∧
    ((tlb_tag (tlb_new 16 6 4 4096 false) 23 <<< (tlb_new 16 6 4 4096 false).index_bits)
        % 2 ^ 64) ||| tlb_index (tlb_new 16 6 4 4096 false) 23 = 23 ∧
    (tlb_index (tlb_new 16 6 4 4096 false) 23 = tlb_index (tlb_new 16 6 4 4096 false) 39 →
      tlb_tag (tlb_new 16 6 4 4096 false) 23 = tlb_tag (tlb_new 16 6 4 4096 false) 39 →
      23 = 39)) :=
  ⟨by decide, by decide, by decide, by decide,
    tlb_index_tag_split 16 6 4 4096 false 23 39 (by decide) (by decide) (by decide)⟩

/-- The range of ways of a core lies inside `[0, num_ways)`, and it is not empty when there
are two ways, or one way and a core other than core 0. -/
theorem way_range (n c : Nat) :
    start_way n c ≤ end_way n c ∧ end_way n c ≤ n ∧
    ((2 ≤ n ∨ (1 ≤ n ∧ c ≠ 0)) → start_way n c < end_way n c) := by
  unfold start_way end_way
  by_cases h : c = 0
  · simp only [h, if_true]
    omega
  · simp only [h, if_false]
    omega

/-- A way returned by the loop of find_entry_in_set lies in its range, passes the test, and
no earlier way of the range passes it. -/
theorem find_entry_scan_some (ways : List TLBEntry) (tag c : Nat) :
    ∀ (k i w : Nat), find_entry_scan ways tag c k i = some w →
      i ≤ w ∧ w < i + k ∧ entry_matches ways tag c w = true ∧
      ∀ j, i ≤ j → j < w → entry_matches ways tag c j = false := by
  intro k
  induction k with
  | zero => intro i w h; simp [find_entry_scan] at h
  | succ k ih =>
    intro i w h
    unfold find_entry_scan at h
    split at h
    · rename_i hm
      have hw : i = w := Option.some.inj h
      subst hw
      exact ⟨Nat.le_refl _, by omega, hm, fun j h1 h2 => by omega⟩
    · rename_i hm
      obtain ⟨h1, h2, h3, h4⟩ := ih (i + 1) w h
      refine ⟨by omega, by omega, h3, ?_⟩
      intro j hj1 hj2
      rcases Nat.eq_or_lt_of_le hj1 with e | e
      · subst e
        simpa using hm
      · exact h4 j (by omega) hj2

/-- When the loop of find_entry_in_set finds nothing, no way of its range passes the
test. -/
theorem find_entry_scan_none (ways : List TLBEntry) (tag c : Nat) :
    ∀ (k i : Nat), find_entry_scan ways tag c k i = none →
      ∀ j, i ≤ j → j < i + k → entry_matches ways tag c j = false := by
  intro k
  induction k with
  | zero => intro i _ j h1 h2; omega
  | succ k ih =>
    intro i h j h1 h2
    unfold find_entry_scan at h
    split at h
    · simp at h
    · rename_i hm
      rcases Nat.eq_or_lt_of_le h1 with e | e
      · subst e
        simpa using hm
      · exact ih (i + 1) h j (by omega) (by omega)

/-- The loop of find_entry_in_set returns the first way of its range that passes the
test. -/
theorem find_entry_scan_first (ways : List TLBEntry) (tag c : Nat) :
    ∀ (k i w : Nat), i ≤ w → w < i + k → entry_matches ways tag c w = true →
      (∀ j, i ≤ j → j < w → entry_matches ways tag c j = false) →
      find_entry_scan ways tag c k i = some w := by
  intro k
  induction k with
  | zero => intro i w h1 h2; omega
  | succ k ih =>
    intro i w h1 h2 h3 h4
    unfold find_entry_scan
    rcases Nat.eq_or_lt_of_le h1 with e | e
    · subst e
      rw [if_pos h3]
    · have hi := h4 i (Nat.le_refl _) e
      rw [hi]
      simp only [Bool.false_eq_true, if_false]
      exact ih (i + 1) w (by omega) (by omega) h3 (fun j hj1 hj2 => h4 j (by omega) hj2)

/-- The loop of find_entry_in_set reads only the ways of its range. -/
theorem find_entry_scan_congr (ways1 ways2 : List TLBEntry) (tag c : Nat) :
    ∀ (k i : Nat),
      (∀ j, i ≤ j → j < i + k → ways1.getD j TLBEntry.zero = ways2.getD j TLBEntry.zero) →
      find_entry_scan ways1 tag c k i = find_entry_scan ways2 tag c k i := by
  intro k
  induction k with
  | zero => intro i _; rfl
  | succ k ih =>
    intro i h
    unfold find_entry_scan
    have e : entry_matches ways1 tag c i = entry_matches ways2 tag c i := by
      unfold entry_matches
      rw [h i (Nat.le_refl _) (by omega)]
    rw [e, ih (i + 1) (fun j h1 h2 => h j (by omega) (by omega))]

/-- A way returned by the first loop of find_victim_in_set lies in its range. -/
theorem find_invalid_scan_some (ways : List TLBEntry) :
    ∀ (k i w : Nat), find_invalid_scan ways k i = some w → i ≤ w ∧ w < i + k := by
  intro k
  induction k with
  | zero => intro i w h; simp [find_invalid_scan] at h
  | succ k ih =>
    intro i w h
    unfold find_invalid_scan at h
    split at h
    · have hw : i = w := Option.some.inj h
      omega
    · obtain ⟨h1, h2⟩ := ih (i + 1) w h
      omega

/-- The first loop of find_victim_in_set reads only the ways of its range. -/
theorem find_invalid_scan_congr (ways1 ways2 : List TLBEntry) :
    ∀ (k i : Nat),
      (∀ j, i ≤ j → j < i + k → ways1.getD j TLBEntry.zero = ways2.getD j TLBEntry.zero) →
      find_invalid_scan ways1 k i = find_invalid_scan ways2 k i := by
  intro k
  induction k with
  | zero => intro i _; rfl
  | succ k ih =>
    intro i h
    unfold find_invalid_scan
    rw [h i (Nat.le_refl _) (by omega), ih (i + 1) (fun j h1 h2 => h j (by omega) (by omega))]

/-- The second loop of find_victim_in_set returns its initial victim or a way of its
range. -/
theorem find_lru_scan_range (ways : List TLBEntry) :
    ∀ (k i v : Nat), find_lru_scan ways k i v = v ∨
      (i ≤ find_lru_scan ways k i v ∧ find_lru_scan ways k i v < i + k) := by
  intro k
  induction k with
  | zero => intro i v; exact Or.inl rfl
  | succ k ih =>
    intro i v
    unfold find_lru_scan
    split
    · rcases ih (i + 1) i with h | h
      · rw [h]
        exact Or.inr ⟨Nat.le_refl _, by omega⟩
      · exact Or.inr ⟨by omega, by omega⟩
    · rcases ih (i + 1) v with h | h
      · exact Or.inl h
      · exact Or.inr ⟨by omega, by omega⟩

/-- The second loop of find_victim_in_set reads only the ways of its range and the initial
victim. -/
theorem find_lru_scan_congr (ways1 ways2 : List TLBEntry) :
    ∀ (k i v lo : Nat), lo ≤ v → v < i → lo ≤ i →
      (∀ j, lo ≤ j → j < i + k → ways1.getD j TLBEntry.zero = ways2.getD j TLBEntry.zero) →
      find_lru_scan ways1 k i v = find_lru_scan ways2 k i v := by
  intro k
  induction k with
  | zero => intro i v lo _ _ _ _; rfl
  | succ k ih =>
    intro i v lo h1 h2 h3 h
    unfold find_lru_scan
    rw [h i h3 (by omega), h v h1 (by omega)]
    split
    · exact ih (i + 1) i lo h3 (by omega) (by omega) (fun j a b => h j a (by omega))
    · exact ih (i + 1) v lo h1 (by omega) (by omega) (fun j a b => h j a (by omega))

/-- With a non-empty range the way that find_victim_in_set returns lies in the range of
the core. -/
theorem find_victim_in_range (ways : List TLBEntry) (n c : Nat)
    (h : start_way n c < end_way n c) :
    start_way n c ≤ find_victim_in_set ways n c ∧ find_victim_in_set ways n c < end_way n c := by
  unfold find_victim_in_set
  split
  · rename_i i hi
    obtain ⟨h1, h2⟩ := find_invalid_scan_some ways _ _ _ hi
    omega
  · rcases find_lru_scan_range ways (end_way n c - (start_way n c + 1)) (start_way n c + 1)
      (start_way n c) with e | e
    · rw [e]
      omega
    · omega

/-- The helper find_victim_in_set reads only the ways of the range of the core. -/
theorem find_victim_congr (ways1 ways2 : List TLBEntry) (n c : Nat)
    (h : start_way n c < end_way n c)
    (hw : ∀ j, start_way n c ≤ j → j < end_way n c →
      ways1.getD j TLBEntry.zero = ways2.getD j TLBEntry.zero) :
    find_victim_in_set ways1 n c = find_victim_in_set ways2 n c := by
  unfold find_victim_in_set
  rw [find_invalid_scan_congr ways1 ways2 _ _ (fun j h1 h2 => hw j h1 (by omega)),
    find_lru_scan_congr ways1 ways2 _ _ _ (start_way n c) (Nat.le_refl _) (by omega) (by omega)
      (fun j h1 h2 => hw j h1 (by omega))]

/-- The helper find_entry_in_set reads only the ways of the range of the core. -/
theorem find_entry_congr (ways1 ways2 : List TLBEntry) (n tag c : Nat)
    (hw : ∀ j, start_way n c ≤ j → j < end_way n c →
      ways1.getD j TLBEntry.zero = ways2.getD j TLBEntry.zero) :
    find_entry_in_set ways1 n tag c = find_entry_in_set ways2 n tag c := by
  unfold find_entry_in_set
  have hr := (way_range n c).1
  exact find_entry_scan_congr ways1 ways2 tag c _ _ (fun j h1 h2 => hw j h1 (by omega))

/-- Reading back the entry just written, when set and way are inside the arrays. -/
theorem sp_entry_setEntry_same (tlb : TLB) (s i : Nat) (e : TLBEntry)
    (hs : s < tlb.sets.length) (hi : i < (tlb.sets.getD s ⟨[]⟩).ways.length) :
    (tlb.setEntry s i e).entry s i = e := by
  simp only [List.getD_eq_getElem?_getD, List.getElem?_eq_getElem hs, Option.getD_some] at hi
  simp [TLB.entry, TLB.setEntry, List.getD_eq_getElem?_getD, List.getElem?_set, hs, hi]

/-- A write to one way leaves every other way of the TLB as it was. -/
theorem sp_entry_setEntry_other (tlb : TLB) (s i : Nat) (e : TLBEntry) (s2 i2 : Nat)
    (h : s2 ≠ s ∨ i2 ≠ i) : (tlb.setEntry s i e).entry s2 i2 = tlb.entry s2 i2 := by
  by_cases hs : s2 = s
  · subst hs
    have hi : i ≠ i2 := by
      rcases h with h | h
      · exact absurd rfl h
      · exact fun e => h e.symm
    by_cases hlen : s2 < tlb.sets.length
    · simp [TLB.entry, TLB.setEntry, List.getD_eq_getElem?_getD, List.getElem?_set, hlen, hi]
    · have hnone : tlb.sets[s2]? = none := List.getElem?_eq_none (by omega)
      simp [TLB.entry, TLB.setEntry, List.getD_eq_getElem?_getD, List.getElem?_set, hlen,
        hnone]
  · have hs2 : s ≠ s2 := fun e => hs e.symm
    simp [TLB.entry, TLB.setEntry, List.getD_eq_getElem?_getD, List.getElem?_set, hs2]

/-- In a well-formed TLB every set inside the array has room for `num_ways` ways. -/
theorem sp_ways_length (tlb : TLB) (s : Nat) (hwf : tlb.wf) (hs : s < tlb.sets.length) :
    tlb.num_ways ≤ (tlb.sets.getD s ⟨[]⟩).ways.length := by
  have hmem : tlb.sets.getD s ⟨[]⟩ ∈ tlb.sets := by
    rw [List.getD_eq_getElem?_getD, List.getElem?_eq_getElem hs]
    simp
  exact hwf.2.1 _ hmem

/-- A write to one way keeps the geometry of the TLB. -/
theorem sp_setEntry_wf (tlb : TLB) (s i : Nat) (e : TLBEntry) (hwf : tlb.wf) :
    (tlb.setEntry s i e).wf := by
  obtain ⟨h1, h2, h3⟩ := hwf
  refine ⟨?_, ?_, h3⟩
  · show (tlb.sets.set s _).length = tlb.num_sets
    rw [List.length_set]
    exact h1
  · intro x hx
    have hx2 : x ∈ tlb.sets.set s (TLBSet.mk ((tlb.sets.getD s ⟨[]⟩).ways.set i e)) := hx
    by_cases hs : s < tlb.sets.length
    · rcases List.mem_or_eq_of_mem_set hx2 with hm | he
      · exact h2 x hm
      · subst he
        show tlb.num_ways ≤ ((tlb.sets.getD s ⟨[]⟩).ways.set i e).length
        rw [List.length_set]
        exact sp_ways_length tlb s ⟨h1, h2, h3⟩ hs
    · rw [List.set_eq_of_length_le (by omega)] at hx2
      exact h2 x hx2

/-- The index of a page lies inside the array of sets of a well-formed TLB. -/
theorem sp_index_lt (tlb : TLB) (vpn : Nat) (hwf : tlb.wf) :
    tlb_index tlb vpn < tlb.sets.length := by
  unfold tlb_index
  rw [hwf.1]
  have := @Nat.and_le_right vpn tlb.index_mask
  have := hwf.2.2
  omega

/-- The statistics updates of tlb_access leave the geometry and the sets as they are. -/
theorem tlb_count_fields (tlb : TLB) (w : Bool) :
    (tlb_count_access tlb w).sets = tlb.sets ∧ (tlb_count_access tlb w).num_ways = tlb.num_ways ∧
    (tlb_count_access tlb w).num_sets = tlb.num_sets ∧
    (tlb_count_access tlb w).index_mask = tlb.index_mask ∧
    (tlb_count_access tlb w).index_bits = tlb.index_bits ∧
    (tlb_count_miss tlb w).sets = tlb.sets ∧ (tlb_count_miss tlb w).num_ways = tlb.num_ways ∧
    (tlb_count_miss tlb w).num_sets = tlb.num_sets ∧
    (tlb_count_miss tlb w).index_mask = tlb.index_mask ∧
    (tlb_count_miss tlb w).index_bits = tlb.index_bits := by
  unfold tlb_count_access tlb_count_miss
  cases w <;> exact ⟨rfl, rfl, rfl, rfl, rfl, rfl, rfl, rfl, rfl, rfl⟩

/-- The result of tlb_access when find_entry_in_set finds way `i`. -/
theorem tlb_access_found (t : Nat) (tlb : TLB) (vpn : Nat) (w : Bool) (c i : Nat)
    (h : find_entry_in_set (tlb.sets.getD (tlb_index tlb vpn) ⟨[]⟩).ways tlb.num_ways
      (tlb_tag tlb vpn) c = some i) :
    tlb_access t tlb vpn w c =
      (TLBResult.TLB_HIT, some (tlb.entry (tlb_index tlb vpn) i).pfn,
        (tlb_count_access tlb w).setEntry (tlb_index tlb vpn) i
          { tlb.entry (tlb_index tlb vpn) i with last_access := t }) := by
  obtain ⟨f1, f2, _, f4, f5, _⟩ := tlb_count_fields tlb w
  have e1 : tlb_index (tlb_count_access tlb w) vpn = tlb_index tlb vpn := by
    unfold tlb_index; rw [f4]
  have e2 : tlb_tag (tlb_count_access tlb w) vpn = tlb_tag tlb vpn := by
    unfold tlb_tag; rw [f5]
  have e3 : ∀ s j, (tlb_count_access tlb w).entry s j = tlb.entry s j := by
    intro s j; unfold TLB.entry; rw [f1]
  unfold tlb_access
  simp only [e1, e2, e3, f1, f2, h]

/-- The result of tlb_access when find_entry_in_set finds nothing. -/
theorem tlb_access_not_found (t : Nat) (tlb : TLB) (vpn : Nat) (w : Bool) (c : Nat)
    (h : find_entry_in_set (tlb.sets.getD (tlb_index tlb vpn) ⟨[]⟩).ways tlb.num_ways
      (tlb_tag tlb vpn) c = none) :
    tlb_access t tlb vpn w c =
      (TLBResult.TLB_MISS, none, tlb_count_miss (tlb_count_access tlb w) w) := by
  obtain ⟨f1, f2, _, f4, f5, _⟩ := tlb_count_fields tlb w
  have e1 : tlb_index (tlb_count_access tlb w) vpn = tlb_index tlb vpn := by
    unfold tlb_index; rw [f4]
  have e2 : tlb_tag (tlb_count_access tlb w) vpn = tlb_tag tlb vpn := by
    unfold tlb_tag; rw [f5]
  unfold tlb_access
  simp only [e1, e2, f1, f2, h]

/-- The way that tlb_install writes lies in the range of the core when that range is not
empty, and no earlier way of the range passes the test of find_entry_in_set. -/
theorem tlb_install_way_spec (tlb : TLB) (vpn c : Nat)
    (h : start_way tlb.num_ways c < end_way tlb.num_ways c) :
    start_way tlb.num_ways c ≤ tlb_install_way tlb vpn c ∧
    tlb_install_way tlb vpn c < end_way tlb.num_ways c ∧
    ∀ j, start_way tlb.num_ways c ≤ j → j < tlb_install_way tlb vpn c →
      entry_matches (tlb.sets.getD (tlb_index tlb vpn) ⟨[]⟩).ways (tlb_tag tlb vpn) c j
        = false := by
  unfold tlb_install_way
  cases hf : find_entry_in_set (tlb.sets.getD (tlb_index tlb vpn) ⟨[]⟩).ways tlb.num_ways
      (tlb_tag tlb vpn) c with
  | some i =>
    dsimp only
    obtain ⟨h1, h2, _, h4⟩ := find_entry_scan_some _ _ _ _ _ _ hf
    exact ⟨h1, by omega, h4⟩
  | none =>
    dsimp only
    obtain ⟨v1, v2⟩ := find_victim_in_range (tlb.sets.getD (tlb_index tlb vpn) ⟨[]⟩).ways
      tlb.num_ways c h
    have hn := find_entry_scan_none _ _ _ _ _ hf
    exact ⟨v1, v2, fun j h1 h2 => hn j h1 (by omega)⟩

/-- The geometry of a TLB survives tlb_install and tlb_access. -/
theorem sp_apply_wf (tlb : TLB) (op : TLBOp) (hwf : tlb.wf) :
    (tlb_apply tlb op).wf ∧ (tlb_apply tlb op).num_ways = tlb.num_ways ∧
    (tlb_apply tlb op).index_mask = tlb.index_mask ∧
    (tlb_apply tlb op).index_bits = tlb.index_bits := by
  have hc : ∀ w, (tlb_count_access tlb w).wf := by
    intro w
    obtain ⟨f1, f2, f3, f4, _⟩ := tlb_count_fields tlb w
    unfold TLB.wf
    rw [f1, f2, f3, f4]
    exact hwf
  cases op with
  | access t v w c =>
    show (tlb_access t tlb v w c).2.2.wf ∧ (tlb_access t tlb v w c).2.2.num_ways = _ ∧
      (tlb_access t tlb v w c).2.2.index_mask = _ ∧ (tlb_access t tlb v w c).2.2.index_bits = _
    obtain ⟨f1, f2, f3, f4, f5, _⟩ := tlb_count_fields tlb w
    obtain ⟨_, _, _, _, _, g1, g2, g3, g4, g5⟩ := tlb_count_fields (tlb_count_access tlb w) w
    cases hf : find_entry_in_set (tlb.sets.getD (tlb_index tlb v) ⟨[]⟩).ways tlb.num_ways
        (tlb_tag tlb v) c with
    | some i =>
      rw [tlb_access_found t tlb v w c i hf]
      exact ⟨sp_setEntry_wf _ _ _ _ (hc w), f2, f4, f5⟩
    | none =>
      rw [tlb_access_not_found t tlb v w c hf]
      refine ⟨?_, by rw [g2, f2], by rw [g4, f4], by rw [g5, f5]⟩
      unfold TLB.wf
      rw [g1, g2, g3, g4]
      exact hc w
  | install t v p w c =>
    exact ⟨sp_setEntry_wf _ _ _ _ hwf, rfl, rfl, rfl⟩

set_option maxRecDepth 100000 in
/-- C34 as stated fails at `num_ways = 1` for core 0: its half `[0, num_ways / 2)` of the
ways is empty.  On the TLB of `tlb_new(4, 1, 4096, false)` (4 sets, 1 way) the install of
page 5 with frame 77 by core 0 writes way 0, and the access of core 0 to page 5 that follows
returns MISS. -/
theorem sp_one_way_core0_misses_after_install :
    (tlb_new 16 4 1 4096 false).num_sets = 4 ∧ (tlb_new 16 4 1 4096 false).num_ways = 1 ∧
    (tlb_new 16 4 1 4096 false).wf ∧
    ((tlb_install 1 (tlb_new 16 4 1 4096 false) 5 77 false 0).entry 1 0).pfn = 77 ∧
    (tlb_access 2 (tlb_install 1 (tlb_new 16 4 1 4096 false) 5 77 false 0) 5 false 0).1
      = TLBResult.TLB_MISS ∧
    (tlb_access 2 (tlb_install 1 (tlb_new 16 4 1 4096 false) 5 77 false 0) 5 false 0).2.1
      = none := by
  decide

/-- C34, amended: in every well-formed state of the static-partition TLB (so with
`num_sets ≥ 1`), for every page and every core whose half of the ways is not empty, that
is with `num_ways ≥ 2`, or with `num_ways ≥ 1` for a core other than core 0,
`tlb_install(vpn, pfn, is_write, core)` followed by `tlb_access(vpn, core)` returns HIT and
yields the installed `pfn`. -/
theorem sp_hit_after_install (t t2 : Nat) (tlb : TLB) (vpn pfn : Nat) (w w2 : Bool) (c : Nat)
    (hwf : tlb.wf) (hhalf : 2 ≤ tlb.num_ways ∨ (1 ≤ tlb.num_ways ∧ c ≠ 0)) :
    1 ≤ tlb.num_sets ∧
    (tlb_access t2 (tlb_install t tlb vpn pfn w c) vpn w2 c).1 = TLBResult.TLB_HIT ∧
    (tlb_access t2 (tlb_install t tlb vpn pfn w c) vpn w2 c).2.1 = some pfn := by
  have hr := (way_range tlb.num_ways c).2.2 hhalf
  have hend := (way_range tlb.num_ways c).2.1
  obtain ⟨w1, w2b, w3⟩ := tlb_install_way_spec tlb vpn c hr
  have hidx := sp_index_lt tlb vpn hwf
  have hlen := sp_ways_length tlb _ hwf hidx
  have hnew := sp_entry_setEntry_same tlb (tlb_index tlb vpn) (tlb_install_way tlb vpn c)
    { valid := true, dirty := w, tag := tlb_tag tlb vpn, pfn := pfn, core_id := c,
      last_access := t } hidx (by omega)
  have hother : ∀ j, j ≠ tlb_install_way tlb vpn c →
      (tlb_install t tlb vpn pfn w c).entry (tlb_index tlb vpn) j
        = tlb.entry (tlb_index tlb vpn) j :=
    fun j hj => sp_entry_setEntry_other tlb _ _ _ _ j (Or.inr hj)
  have e1 : tlb_index (tlb_install t tlb vpn pfn w c) vpn = tlb_index tlb vpn := rfl
  have e2 : tlb_tag (tlb_install t tlb vpn pfn w c) vpn = tlb_tag tlb vpn := rfl
  have e3 : (tlb_install t tlb vpn pfn w c).num_ways = tlb.num_ways := rfl
  have hfind : find_entry_in_set
      ((tlb_install t tlb vpn pfn w c).sets.getD (tlb_index tlb vpn) ⟨[]⟩).ways tlb.num_ways
      (tlb_tag tlb vpn) c = some (tlb_install_way tlb vpn c) := by
    unfold find_entry_in_set
    apply find_entry_scan_first _ _ _ _ _ _ w1 (by omega)
    · have := congrArg (fun e => e.valid && e.tag == tlb_tag tlb vpn && e.core_id == c) hnew
      simpa [entry_matches, TLB.entry] using this
    · intro j hj1 hj2
      have hj := hother j (by omega)
      have := w3 j hj1 hj2
      unfold entry_matches at this ⊢
      unfold TLB.entry at hj
      rw [hj]
      exact this
  have hacc := tlb_access_found t2 (tlb_install t tlb vpn pfn w c) vpn w2 c
    (tlb_install_way tlb vpn c) (by rw [e1, e2, e3]; exact hfind)
  rw [hacc]
  refine ⟨by have := hwf.2.2; omega, rfl, ?_⟩
  show some ((tlb_install t tlb vpn pfn w c).entry (tlb_index tlb vpn)
    (tlb_install_way tlb vpn c)).pfn = some pfn
  unfold tlb_install
  rw [hnew]

set_option maxRecDepth 100000 in
/-- Evaluation of the amended C34 on the 4-set, 2-way TLB of `tlb_new(4, 2, 4096, false)`
for core 0 and page 5. -/
theorem sp_hit_after_install_witness :
    (tlb_new 16 4 2 4096 false).wf ∧
    (2 ≤ (tlb_new 16 4 2 4096 false).num_ways ∨
      (1 ≤ (tlb_new 16 4 2 4096 false).num_ways ∧ 0 ≠ 0)) ∧
    (1 ≤ (tlb_new 16 4 2 4096 false).num_sets ∧
    (tlb_access 2 (tlb_install 1 (tlb_new 16 4 2 4096 false) 5 77 false 0) 5 false 0).1
      = TLBResult.TLB_HIT ∧
    (tlb_access 2 (tlb_install 1 (tlb_new 16 4 2 4096 false) 5 77 false 0) 5 false 0).2.1
      = some 77) :=
  ⟨by decide, by decide,
    sp_hit_after_install 1 2 (tlb_new 16 4 2 4096 false) 5 77 false false 0 (by decide)
      (by decide)⟩

/-- The range of ways of a core lies in its own half, and outside the other half. -/
theorem range_in_half (lower : Bool) (n c i : Nat) (h1 : start_way n c ≤ i)
    (h2 : i < end_way n c) :
    way_in_half lower n i = core_in_half lower c := by
  unfold start_way at h1
  unfold end_way at h2
  unfold way_in_half core_in_half
  by_cases hc : c = 0
  · simp only [hc, if_true] at h1 h2
    cases lower <;> simp [hc] <;> omega
  · simp only [hc, if_false] at h1 h2
    cases lower <;> simp [hc] <;> omega

/-- Every way of the half of a core lies in the range of the core. -/
theorem half_in_range (lower : Bool) (n c i : Nat) (hc : core_in_half lower c = true)
    (hi : way_in_half lower n i = true) : start_way n c ≤ i ∧ i < end_way n c := by
  unfold start_way end_way
  unfold way_in_half at hi
  unfold core_in_half at hc
  cases lower
  · simp only [Bool.false_eq_true, if_false, decide_eq_true_eq] at hi hc
    simp only [hc, if_false]
    omega
  · simp only [if_true, decide_eq_true_eq] at hi hc
    simp only [hc, if_true]
    omega

/-- The relation half_eq is reflexive. -/
theorem half_eq_refl (lower : Bool) (t : TLB) : half_eq lower t t :=
  ⟨rfl, rfl, rfl, fun _ _ _ => rfl⟩

/-- The relation half_eq is transitive. -/
theorem half_eq_trans (lower : Bool) (t1 t2 t3 : TLB) (h12 : half_eq lower t1 t2)
    (h23 : half_eq lower t2 t3) : half_eq lower t1 t3 := by
  obtain ⟨a1, a2, a3, a4⟩ := h12
  obtain ⟨b1, b2, b3, b4⟩ := h23
  refine ⟨a1.trans b1, a2.trans b2, a3.trans b3, ?_⟩
  intro s i hi
  rw [a4 s i hi]
  exact b4 s i (by rw [← a1]; exact hi)

/-- The entries of a TLB after one call: a call writes at most one way, in the set of the
page and in the range of the calling core. -/
theorem sp_apply_frame (tlb : TLB) (op : TLBOp) (hn : 2 ≤ tlb.num_ways) :
    ∃ s w, start_way tlb.num_ways op.core_id ≤ w ∧ w < end_way tlb.num_ways op.core_id ∧
      ∀ s2 i2, (s2 ≠ s ∨ i2 ≠ w) → (tlb_apply tlb op).entry s2 i2 = tlb.entry s2 i2 := by
  have hr : ∀ c, start_way tlb.num_ways c < end_way tlb.num_ways c :=
    fun c => (way_range tlb.num_ways c).2.2 (Or.inl hn)
  cases op with
  | access t v w c =>
    show ∃ s w2, start_way tlb.num_ways c ≤ w2 ∧ w2 < end_way tlb.num_ways c ∧
      ∀ s2 i2, (s2 ≠ s ∨ i2 ≠ w2) → (tlb_access t tlb v w c).2.2.entry s2 i2 = tlb.entry s2 i2
    obtain ⟨f1, _, _, _, _, _⟩ := tlb_count_fields tlb w
    obtain ⟨_, _, _, _, _, g1, _⟩ := tlb_count_fields (tlb_count_access tlb w) w
    have e3 : ∀ s j, (tlb_count_access tlb w).entry s j = tlb.entry s j := by
      intro s j; unfold TLB.entry; rw [f1]
    cases hf : find_entry_in_set (tlb.sets.getD (tlb_index tlb v) ⟨[]⟩).ways tlb.num_ways
        (tlb_tag tlb v) c with
    | some i =>
      obtain ⟨h1, h2, _, _⟩ := find_entry_scan_some _ _ _ _ _ _ hf
      rw [tlb_access_found t tlb v w c i hf]
      refine ⟨tlb_index tlb v, i, h1, by have := hr c; omega, ?_⟩
      intro s2 i2 h
      show ((tlb_count_access tlb w).setEntry _ _ _).entry s2 i2 = _
      rw [sp_entry_setEntry_other _ _ _ _ s2 i2 h, e3]
    | none =>
      rw [tlb_access_not_found t tlb v w c hf]
      refine ⟨0, start_way tlb.num_ways c, Nat.le_refl _, hr c, ?_⟩
      intro s2 i2 _
      show (tlb_count_miss (tlb_count_access tlb w) w).entry s2 i2 = _
      unfold TLB.entry
      rw [g1, f1]
  | install t v p w c =>
    obtain ⟨w1, w2, _⟩ := tlb_install_way_spec tlb v c (hr c)
    exact ⟨tlb_index tlb v, tlb_install_way tlb v c, w1, w2,
      fun s2 i2 h => sp_entry_setEntry_other tlb _ _ _ s2 i2 h⟩

/-- A call by a core of the other half is invisible to the cores of a half: the state
after the call looks the same to them as the state before. -/
theorem sp_step_invisible (lower : Bool) (tlb : TLB) (op : TLBOp) (hwf : tlb.wf)
    (hn : 2 ≤ tlb.num_ways) (hc : core_in_half lower op.core_id = false) :
    half_eq lower tlb (tlb_apply tlb op) := by
  obtain ⟨_, g2, g3, g4⟩ := sp_apply_wf tlb op hwf
  obtain ⟨s, w, h1, h2, hframe⟩ := sp_apply_frame tlb op hn
  refine ⟨g2.symm, g4.symm, g3.symm, ?_⟩
  intro s2 i2 hi
  have hw := range_in_half lower tlb.num_ways op.core_id w h1 h2
  rw [hc] at hw
  have hne : i2 ≠ w := by
    intro e
    rw [e, hw] at hi
    exact absurd hi (by decide)
  exact (hframe s2 i2 (Or.inr hne)).symm

/-- The ways of one set of two states that look the same to a half agree on the range of
every core of that half. -/
theorem half_eq_ways (lower : Bool) (t1 t2 : TLB) (h : half_eq lower t1 t2) (c s : Nat)
    (hc : core_in_half lower c = true) :
    ∀ j, start_way t1.num_ways c ≤ j → j < end_way t1.num_ways c →
      (t1.sets.getD s ⟨[]⟩).ways.getD j TLBEntry.zero
        = (t2.sets.getD s ⟨[]⟩).ways.getD j TLBEntry.zero := by
  intro j h1 h2
  have hw := range_in_half lower t1.num_ways c j h1 h2
  rw [hc] at hw
  exact h.2.2.2 s j hw

/-- Writing the same entry at the same in-bounds place of two states that look the same to
a half keeps them alike on that half. -/
theorem sp_write_alike (lower : Bool) (t1 t2 : TLB) (hwf1 : t1.wf) (hwf2 : t2.wf)
    (heq : half_eq lower t1 t2) (u1 u2 : TLB) (s i : Nat) (e : TLBEntry)
    (hu1 : u1.sets = t1.sets) (hu2 : u2.sets = t2.sets) (hi : i < t1.num_ways)
    (hs1 : s < t1.sets.length) (hs2 : s < t2.sets.length) (s2 i2 : Nat)
    (hin : way_in_half lower t1.num_ways i2 = true) :
    (u1.setEntry s i e).entry s2 i2 = (u2.setEntry s i e).entry s2 i2 := by
  by_cases hsame : s2 = s ∧ i2 = i
  · obtain ⟨es, ei⟩ := hsame
    subst es ei
    have l1 := sp_ways_length t1 s2 hwf1 hs1
    have l2 := sp_ways_length t2 s2 hwf2 hs2
    have hn := heq.1
    rw [sp_entry_setEntry_same u1 _ _ _ (by rw [hu1]; exact hs1) (by rw [hu1]; omega),
      sp_entry_setEntry_same u2 _ _ _ (by rw [hu2]; exact hs2) (by rw [hu2]; omega)]
  · have hne : s2 ≠ s ∨ i2 ≠ i := by
      by_cases e : s2 = s
      · exact Or.inr (fun e2 => hsame ⟨e, e2⟩)
      · exact Or.inl e
    rw [sp_entry_setEntry_other u1 _ _ _ s2 i2 hne, sp_entry_setEntry_other u2 _ _ _ s2 i2 hne]
    unfold TLB.entry
    rw [hu1, hu2]
    exact heq.2.2.2 s2 i2 hin

/-- Two states that look the same to a half compute the same index and tag, and
find_entry_in_set returns the same for a core of that half. -/
theorem sp_lookup_alike (lower : Bool) (t1 t2 : TLB) (heq : half_eq lower t1 t2) (v c : Nat)
    (hc : core_in_half lower c = true) :
    tlb_index t1 v = tlb_index t2 v ∧ tlb_tag t1 v = tlb_tag t2 v ∧
    find_entry_in_set (t1.sets.getD (tlb_index t1 v) ⟨[]⟩).ways t1.num_ways (tlb_tag t1 v) c
      = find_entry_in_set (t2.sets.getD (tlb_index t2 v) ⟨[]⟩).ways t2.num_ways
        (tlb_tag t2 v) c := by
  have hidx : tlb_index t1 v = tlb_index t2 v := by
    unfold tlb_index; rw [heq.2.2.1]
  have htag : tlb_tag t1 v = tlb_tag t2 v := by
    unfold tlb_tag; rw [heq.2.1]
  refine ⟨hidx, htag, ?_⟩
  rw [← hidx, ← htag, ← heq.1]
  exact find_entry_congr _ _ _ _ _ (half_eq_ways lower t1 t2 heq c (tlb_index t1 v) hc)

/-- Two well-formed states that look the same to a half give an access by a core of that
half the same result, and look the same after it. -/
theorem sp_access_consistent (lower : Bool) (t1 t2 : TLB) (hwf1 : t1.wf) (hwf2 : t2.wf)
    (hn : 2 ≤ t1.num_ways) (heq : half_eq lower t1 t2) (t v : Nat) (w : Bool) (c : Nat)
    (hc : core_in_half lower c = true) :
    (tlb_access t t1 v w c).1 = (tlb_access t t2 v w c).1 ∧
    (tlb_access t t1 v w c).2.1 = (tlb_access t t2 v w c).2.1 ∧
    ∀ s2 i2, way_in_half lower t1.num_ways i2 = true →
      (tlb_access t t1 v w c).2.2.entry s2 i2 = (tlb_access t t2 v w c).2.2.entry s2 i2 := by
  obtain ⟨hidx, htag, hfe⟩ := sp_lookup_alike lower t1 t2 heq v c hc
  have hr := (way_range t1.num_ways c).2.2 (Or.inl hn)
  have hend := (way_range t1.num_ways c).2.1
  cases hf : find_entry_in_set (t1.sets.getD (tlb_index t1 v) ⟨[]⟩).ways t1.num_ways
      (tlb_tag t1 v) c with
  | some i =>
    have hf2 := hf
    rw [hfe] at hf2
    obtain ⟨h1, h2, _, _⟩ := find_entry_scan_some _ _ _ _ _ _ hf
    have hiw : i < end_way t1.num_ways c := by omega
    have hin := range_in_half lower t1.num_ways c i h1 hiw
    rw [hc] at hin
    have hent : t2.entry (tlb_index t2 v) i = t1.entry (tlb_index t1 v) i := by
      rw [← hidx]
      exact (heq.2.2.2 _ _ hin).symm
    rw [tlb_access_found t t1 v w c i hf, tlb_access_found t t2 v w c i hf2, hent, ← hidx]
    refine ⟨rfl, rfl, ?_⟩
    intro s2 i2 hi2
    exact sp_write_alike lower t1 t2 hwf1 hwf2 heq _ _ _ i _ (tlb_count_fields t1 w).1
      (tlb_count_fields t2 w).1 (by omega) (sp_index_lt t1 v hwf1)
      (by rw [hidx]; exact sp_index_lt t2 v hwf2) s2 i2 hi2
  | none =>
    have hf2 := hf
    rw [hfe] at hf2
    rw [tlb_access_not_found t t1 v w c hf, tlb_access_not_found t t2 v w c hf2]
    refine ⟨rfl, rfl, ?_⟩
    intro s2 i2 hi2
    show (tlb_count_miss (tlb_count_access t1 w) w).entry s2 i2
      = (tlb_count_miss (tlb_count_access t2 w) w).entry s2 i2
    unfold TLB.entry
    rw [(tlb_count_fields (tlb_count_access t1 w) w).2.2.2.2.2.1,
      (tlb_count_fields (tlb_count_access t2 w) w).2.2.2.2.2.1,
      (tlb_count_fields t1 w).1, (tlb_count_fields t2 w).1]
    exact heq.2.2.2 s2 i2 hi2

/-- Two well-formed states that look the same to a half look the same after an install by
a core of that half. -/
theorem sp_install_consistent (lower : Bool) (t1 t2 : TLB) (hwf1 : t1.wf) (hwf2 : t2.wf)
    (hn : 2 ≤ t1.num_ways) (heq : half_eq lower t1 t2) (t v p : Nat) (w : Bool) (c : Nat)
    (hc : core_in_half lower c = true) :
    ∀ s2 i2, way_in_half lower t1.num_ways i2 = true →
      (tlb_install t t1 v p w c).entry s2 i2 = (tlb_install t t2 v p w c).entry s2 i2 := by
  obtain ⟨hidx, htag, _⟩ := sp_lookup_alike lower t1 t2 heq v c hc
  have hr := (way_range t1.num_ways c).2.2 (Or.inl hn)
  have hend := (way_range t1.num_ways c).2.1
  have hways := half_eq_ways lower t1 t2 heq c (tlb_index t1 v) hc
  have hway : tlb_install_way t1 v c = tlb_install_way t2 v c := by
    unfold tlb_install_way
    rw [← hidx, ← htag, ← heq.1, find_entry_congr _ _ _ _ _ hways,
      find_victim_congr _ _ _ _ hr hways]
  obtain ⟨w1, w2, _⟩ := tlb_install_way_spec t1 v c hr
  intro s2 i2 hi2
  unfold tlb_install
  rw [← hidx, ← htag, ← hway]
  exact sp_write_alike lower t1 t2 hwf1 hwf2 heq t1 t2 _ _ _ rfl rfl (by omega)
    (sp_index_lt t1 v hwf1) (by rw [hidx]; exact sp_index_lt t2 v hwf2) s2 i2 hi2

/-- Two well-formed states that look the same to a half look the same after a call by a
core of that half. -/
theorem sp_step_consistent (lower : Bool) (t1 t2 : TLB) (op : TLBOp) (hwf1 : t1.wf)
    (hwf2 : t2.wf) (hn : 2 ≤ t1.num_ways) (heq : half_eq lower t1 t2)
    (hc : core_in_half lower op.core_id = true) :
    half_eq lower (tlb_apply t1 op) (tlb_apply t2 op) := by
  have g1 := sp_apply_wf t1 op hwf1
  have g2 := sp_apply_wf t2 op hwf2
  refine ⟨by rw [g1.2.1, g2.2.1, heq.1], by rw [g1.2.2.2, g2.2.2.2, heq.2.1],
    by rw [g1.2.2.1, g2.2.2.1, heq.2.2.1], ?_⟩
  intro s2 i2 hi2
  rw [g1.2.1] at hi2
  cases op with
  | access t v w c =>
    exact (sp_access_consistent lower t1 t2 hwf1 hwf2 hn heq t v w c hc).2.2 s2 i2 hi2
  | install t v p w c =>
    exact sp_install_consistent lower t1 t2 hwf1 hwf2 hn heq t v p w c hc s2 i2 hi2

/-- The relation half_eq is symmetric. -/
theorem half_eq_symm (lower : Bool) (t1 t2 : TLB) (h : half_eq lower t1 t2) :
    half_eq lower t2 t1 := by
  obtain ⟨a1, a2, a3, a4⟩ := h
  exact ⟨a1.symm, a2.symm, a3.symm, fun s i hi => (a4 s i (by rw [a1]; exact hi)).symm⟩

/-- Two states that look the same to a half give an access by a core of that half the same
HIT/MISS result and the same frame number. -/
theorem sp_access_result_alike (lower : Bool) (t1 t2 : TLB) (heq : half_eq lower t1 t2)
    (t v : Nat) (w : Bool) (c : Nat) (hc : core_in_half lower c = true) :
    (tlb_access t t1 v w c).1 = (tlb_access t t2 v w c).1 ∧
    (tlb_access t t1 v w c).2.1 = (tlb_access t t2 v w c).2.1 := by
  obtain ⟨hidx, htag, hfe⟩ := sp_lookup_alike lower t1 t2 heq v c hc
  have hle := (way_range t1.num_ways c).1
  cases hf : find_entry_in_set (t1.sets.getD (tlb_index t1 v) ⟨[]⟩).ways t1.num_ways
      (tlb_tag t1 v) c with
  | some i =>
    have hf2 := hf
    rw [hfe] at hf2
    obtain ⟨h1, h2, _, _⟩ := find_entry_scan_some _ _ _ _ _ _ hf
    have hin := range_in_half lower t1.num_ways c i h1 (by omega)
    rw [hc] at hin
    have hent : t2.entry (tlb_index t2 v) i = t1.entry (tlb_index t1 v) i := by
      rw [← hidx]
      exact (heq.2.2.2 _ _ hin).symm
    rw [tlb_access_found t t1 v w c i hf, tlb_access_found t t2 v w c i hf2, hent]
    exact ⟨rfl, rfl⟩
  | none =>
    have hf2 := hf
    rw [hfe] at hf2
    rw [tlb_access_not_found t t1 v w c hf, tlb_access_not_found t t2 v w c hf2]
    exact ⟨rfl, rfl⟩

/-- Unwinding: what the accesses of a core `k` return does not change when the calls of the
cores of the other half are removed from the sequence, from states that look the same to
the half of `k`. -/
theorem sp_results_filter (lower : Bool) (k : Nat) (hk : core_in_half lower k = true) :
    ∀ (ops : List TLBOp) (t1 t2 : TLB), t1.wf → t2.wf → 2 ≤ t1.num_ways →
      half_eq lower t1 t2 →
      tlb_results k t1 ops
        = tlb_results k t2 (ops.filter fun op => core_in_half lower op.core_id) := by
  intro ops
  induction ops with
  | nil => intro t1 t2 _ _ _ _; rfl
  | cons op rest ih =>
    intro t1 t2 hwf1 hwf2 hn heq
    have g1 := sp_apply_wf t1 op hwf1
    have g2 := sp_apply_wf t2 op hwf2
    by_cases hc : core_in_half lower op.core_id = true
    · have hfil : (op :: rest).filter (fun op => core_in_half lower op.core_id)
          = op :: rest.filter (fun op => core_in_half lower op.core_id) := by
        simp [List.filter, hc]
      rw [hfil]
      have hstep := sp_step_consistent lower t1 t2 op hwf1 hwf2 hn heq hc
      have hrec := ih (tlb_apply t1 op) (tlb_apply t2 op) g1.1 g2.1 (by rw [g1.2.1]; exact hn)
        hstep
      cases op with
      | access t v w c =>
        obtain ⟨r1, r2⟩ := sp_access_result_alike lower t1 t2 heq t v w c hc
        simp only [tlb_results]
        rw [r1, r2]
        have hrec2 : tlb_results k (tlb_access t t1 v w c).2.2 rest
            = tlb_results k (tlb_access t t2 v w c).2.2
              (rest.filter fun op => core_in_half lower op.core_id) := hrec
        rw [hrec2]
      | install t v p w c =>
        simp only [tlb_results]
        exact hrec
    · have hc2 : core_in_half lower op.core_id = false := by
        cases h : core_in_half lower op.core_id
        · rfl
        · exact absurd h hc
      have hfil : (op :: rest).filter (fun op => core_in_half lower op.core_id)
          = rest.filter (fun op => core_in_half lower op.core_id) := by
        simp [List.filter, hc2]
      rw [hfil]
      have hinv := sp_step_invisible lower t1 op hwf1 hn hc2
      have hrec := ih (tlb_apply t1 op) t2 g1.1 hwf2 (by rw [g1.2.1]; exact hn)
        (half_eq_trans lower _ _ _ (half_eq_symm lower _ _ hinv) heq)
      cases op with
      | access t v w c =>
        have hck : ¬ c = k := by
          intro e
          have hc3 : core_in_half lower c = false := hc2
          rw [e, hk] at hc3
          exact absurd hc3 (by decide)
        simp only [tlb_results, if_neg hck]
        exact hrec
      | install t v p w c =>
        simp only [tlb_results]
        exact hrec

/-- C33 (partition isolation, static-partition TLB): in a well-formed TLB with
`num_ways ≥ 2`, tlb_install by core 0 writes one way of `[0, num_ways / 2)`, tlb_install
by any other core one way of `[num_ways / 2, num_ways)`, and every other entry is as
before; the result and the frame number of an access are the same in two states that agree
on the geometry and on the requester's half of the ways; so what the accesses of a core
`k ≠ 0` return along a sequence of calls is the same with the calls of core 0 left out,
and what the accesses of core 0 return is the same with the calls of all other cores left
out. -/
theorem sp_partition_isolation (tlb tlb2 : TLB) (t vpn pfn : Nat) (w : Bool) (c k : Nat)
    (ops : List TLBOp) (hwf : tlb.wf) (hn : 2 ≤ tlb.num_ways) :
    (c = 0 → tlb_install_way tlb vpn c < tlb.num_ways / 2) ∧
    (c ≠ 0 → tlb.num_ways / 2 ≤ tlb_install_way tlb vpn c ∧
      tlb_install_way tlb vpn c < tlb.num_ways) ∧
    (∀ s i, (s ≠ tlb_index tlb vpn ∨ i ≠ tlb_install_way tlb vpn c) →
      (tlb_install t tlb vpn pfn w c).entry s i = tlb.entry s i) ∧
    (half_eq (decide (c = 0)) tlb tlb2 →
      (tlb_access t tlb vpn w c).1 = (tlb_access t tlb2 vpn w c).1 ∧
      (tlb_access t tlb vpn w c).2.1 = (tlb_access t tlb2 vpn w c).2.1) ∧
    (k ≠ 0 →
      tlb_results k tlb ops
        = tlb_results k tlb (ops.filter fun op => decide (op.core_id ≠ 0))) ∧
    tlb_results 0 tlb ops = tlb_results 0 tlb (ops.filter fun op => decide (op.core_id = 0)) := by
  have hr := (way_range tlb.num_ways c).2.2 (Or.inl hn)
  obtain ⟨w1, w2, _⟩ := tlb_install_way_spec tlb vpn c hr
  refine ⟨?_, ?_, ?_, ?_, ?_, ?_⟩
  · intro h0
    simp only [end_way, h0, if_true] at w2
    rw [h0]
    exact w2
  · intro h0
    simp only [start_way, h0, if_false] at w1
    simp only [end_way, h0, if_false] at w2
    exact ⟨w1, w2⟩
  · intro s i h
    exact sp_entry_setEntry_other tlb _ _ _ s i h
  · intro heq
    apply sp_access_result_alike (decide (c = 0)) tlb tlb2 heq t vpn w c
    unfold core_in_half
    by_cases h0 : c = 0 <;> simp [h0]
  · intro hk
    exact sp_results_filter false k (by simp [core_in_half, hk]) ops tlb tlb hwf hwf hn
      (half_eq_refl false tlb)
  · exact sp_results_filter true 0 (by simp [core_in_half]) ops tlb tlb hwf hwf hn
      (half_eq_refl true tlb)

set_option maxRecDepth 100000 in
/-- Evaluation of C33 on the 4-set, 4-way TLB of `tlb_new(4, 4, 4096, false)`: core 0
installs page 5 into way 0 and core 1 into way 2, and the accesses of core 1 return MISS
and then HIT with frame 88, with or without the calls of core 0. -/
theorem sp_partition_isolation_witness :
    tlb_install_way (tlb_new 16 4 4 4096 false) 5 0 = 0 ∧
    tlb_install_way (tlb_new 16 4 4 4096 false) 5 1 = 2 ∧
    tlb_results 1 (tlb_new 16 4 4 4096 false)
      [TLBOp.access 1 5 false 1, TLBOp.install 2 5 77 false 0, TLBOp.install 3 5 88 false 1,
       TLBOp.access 4 5 false 0, TLBOp.access 5 5 false 1]
      = [(TLBResult.TLB_MISS, none), (TLBResult.TLB_HIT, some 88)] ∧
    (tlb_new 16 4 4 4096 false).wf ∧ 2 ≤ (tlb_new 16 4 4 4096 false).num_ways ∧
    ((1 = 0 → tlb_install_way (tlb_new 16 4 4 4096 false) 5 1
        < (tlb_new 16 4 4 4096 false).num_ways / 2) ∧
    (1 ≠ 0 →
      (tlb_new 16 4 4 4096 false).num_ways / 2 ≤ tlb_install_way (tlb_new 16 4 4 4096 false) 5 1 ∧
      tlb_install_way (tlb_new 16 4 4 4096 false) 5 1 < (tlb_new 16 4 4 4096 false).num_ways) ∧
    (∀ s i, (s ≠ tlb_index (tlb_new 16 4 4 4096 false) 5 ∨
        i ≠ tlb_install_way (tlb_new 16 4 4 4096 false) 5 1) →
      (tlb_install 3 (tlb_new 16 4 4 4096 false) 5 88 false 1).entry s i
        = (tlb_new 16 4 4 4096 false).entry s i) ∧
    (half_eq (decide (1 = 0)) (tlb_new 16 4 4 4096 false)
        (tlb_install 2 (tlb_new 16 4 4 4096 false) 5 77 false 0) →
      (tlb_access 3 (tlb_new 16 4 4 4096 false) 5 false 1).1
        = (tlb_access 3 (tlb_install 2 (tlb_new 16 4 4 4096 false) 5 77 false 0) 5 false 1).1 ∧
      (tlb_access 3 (tlb_new 16 4 4 4096 false) 5 false 1).2.1
        = (tlb_access 3 (tlb_install 2 (tlb_new 16 4 4 4096 false) 5 77 false 0) 5 false
            1).2.1) ∧
    (1 ≠ 0 →
      tlb_results 1 (tlb_new 16 4 4 4096 false)
        [TLBOp.access 1 5 false 1, TLBOp.install 2 5 77 false 0, TLBOp.install 3 5 88 false 1,
         TLBOp.access 4 5 false 0, TLBOp.access 5 5 false 1]
      = tlb_results 1 (tlb_new 16 4 4 4096 false)
        ([TLBOp.access 1 5 false 1, TLBOp.install 2 5 77 false 0,
          TLBOp.install 3 5 88 false 1, TLBOp.access 4 5 false 0,
          TLBOp.access 5 5 false 1].filter fun op => decide (op.core_id ≠ 0))) ∧
    tlb_results 0 (tlb_new 16 4 4 4096 false)
        [TLBOp.access 1 5 false 1, TLBOp.install 2 5 77 false 0, TLBOp.install 3 5 88 false 1,
         TLBOp.access 4 5 false 0, TLBOp.access 5 5 false 1]
      = tlb_results 0 (tlb_new 16 4 4 4096 false)
        ([TLBOp.access 1 5 false 1, TLBOp.install 2 5 77 false 0,
          TLBOp.install 3 5 88 false 1, TLBOp.access 4 5 false 0,
          TLBOp.access 5 5 false 1].filter fun op => decide (op.core_id = 0))) :=
  ⟨by decide, by decide, by decide, by decide, by decide,
    sp_partition_isolation (tlb_new 16 4 4 4096 false)
      (tlb_install 2 (tlb_new 16 4 4 4096 false) 5 77 false 0) 3 5 88 false 1 1
      [TLBOp.access 1 5 false 1, TLBOp.install 2 5 77 false 0, TLBOp.install 3 5 88 false 1,
       TLBOp.access 4 5 false 0, TLBOp.access 5 5 false 1] (by decide) (by decide)⟩

end SrcSp
